import Mathlib

/-!
# Link-state routing simulator (mp3/src/linkstate.cpp, mp3/src/routing.h)

A shallow embedding of the routing engine: the topology containers, `Dijkstra`,
`print_table`, `update_tables`, `send_messages`, `apply_changes` and the loop of
`main`, with the routine `DistVec` of mp3/src/distvec.cpp, followed by theorems about
them.

Conventions of the embedding

* `int` is `Int`; the result of an `int` addition is reduced with `wrap32`
  (two's-complement wrap-around to 32 bits).
* `std::map<int, V>` is a list of pairs in ascending key order.
* `std::unordered_map<int, int>` is a list of pairs with distinct keys.  The order in
  which such a container is enumerated is not fixed by the language.  For the
  neighbour maps, which are inputs, the list order is the enumeration order.  For the
  map `D` that Dijkstra builds, the enumeration order is supplied by an `Impl`.
* A read `m[k]` of a missing key yields the value-initialised 0 (`mapAt`); that the
  C++ container also inserts the key is not modelled where no later enumeration or size
  of the container depends on it.
* A read of an uninitialised `int` of Dijkstra yields a value supplied by the `Impl`.
* Code that dereferences a null pointer, reads a vector out of bounds or does not
  terminate within the number of steps it is given returns a `Fault`.  The loops of the
  code that are not bounded by a container take the number of iterations they may use as
  an argument; the theorems show which number is enough.
* The output file is the text the functions return.
* The topology file and the message file are the lists of their records, already
  parsed.  The changes file is a stream of parsed records that keeps the flag eofbit,
  since apply_changes tests eof() before it reads: the flag is set by the extraction of
  the last record when nothing follows it, and otherwise by the failed extraction after
  it, which leaves the three ints uninitialised.
* A read of an uninitialised `int` of apply_changes yields a value supplied by the
  argument `uninit`.

The file has the definitions first (the embedding, then the predicates and invariants
the proofs use) and the theorems after them.
-/

namespace Routing

/-! ## Machine integers -/

/-- The constant INT_MAX of climits for a 32-bit int. -/
def INT_MAX : Int := 2147483647

/-- Two's-complement reduction of an integer to the 32-bit int range. -/
def wrap32 (x : Int) : Int := (x + 2147483648) % 4294967296 - 2147483648

/-! ## routing.h -/

/-- Routing table entry (struct rte). -/
structure entry_t where
  dest : Int
  next_hop : Int
  path_cost : Int
deriving DecidableEq, Repr

/-- Routing node (struct routing_node); neighbors maps a neighbour ID to the link cost. -/
structure node_t where
  id : Int
  neighbors : List (Int × Int)
deriving DecidableEq, Repr

/-- Message (struct message). -/
structure message_t where
  src : Int
  dest : Int
  message : String
deriving DecidableEq, Repr

/-- What the embedding reports when the C++ code has no defined result. -/
inductive Fault where
  | null_deref
  | out_of_bounds
  | out_of_fuel
deriving DecidableEq, Repr

/-- The global topology: map of node IDs to nodes, in ascending ID order. -/
abbrev Topology := List (Int × node_t)

/-- The global routing_table: map of node IDs to routing tables, in ascending ID order. -/
abbrev RoutingTable := List (Int × List entry_t)

/-! ## Associative containers -/

/-- Lookup m.find(k) in a map of ints. -/
def mapFind : List (Int × Int) → Int → Option Int
  | [], _ => none
  | (k', v) :: m, k => if k = k' then some v else mapFind m k

/-- Read access m[k]: a missing key reads as the value-initialised 0. -/
def mapAt (m : List (Int × Int)) (k : Int) : Int := (mapFind m k).getD 0

/-- Assignment m[k] = v: replaces the value of an existing key, else adds the pair. -/
def mapSet : List (Int × Int) → Int → Int → List (Int × Int)
  | [], k, v => [(k, v)]
  | (k', v') :: m, k, v => if k = k' then (k', v) :: m else (k', v') :: mapSet m k v

/-- Lookup topology.find(k). -/
def topoFind : Topology → Int → Option node_t
  | [], _ => none
  | (k', n) :: T, k => if k = k' then some n else topoFind T k

/-- The known node identifiers, ascending. -/
def node_ids (T : Topology) : List Int := T.map Prod.fst

/-- Insertion of a fresh node at its place in the ordered map, if the key is absent. -/
def topoEnsure : Topology → Int → Topology
  | [], a => [(a, ⟨a, []⟩)]
  | (k, n) :: T, a =>
    if a = k then (k, n) :: T
    else if a < k then (a, ⟨a, []⟩) :: (k, n) :: T
    else (k, n) :: topoEnsure T a

/-- Assignment topology[a]->neighbors[b] = cost for a known node a. -/
def topoSetLink : Topology → Int → Int → Int → Topology
  | [], _, _, _ => []
  | (k, n) :: T, a, b, cost =>
    if a = k then (k, { n with neighbors := mapSet n.neighbors b cost }) :: T
    else (k, n) :: topoSetLink T a b cost

/-- One record of read_topology: create the missing nodes, set the link both ways. -/
def addLink (T : Topology) (r : Int × Int × Int) : Topology :=
  let T1 := topoEnsure T r.1
  let T2 := topoEnsure T1 r.2.1
  let T3 := topoSetLink T2 r.1 r.2.1 r.2.2
  topoSetLink T3 r.2.1 r.1 r.2.2

/-- Function read_topology over the already parsed records of the topology file. -/
def read_topology (records : List (Int × Int × Int)) : Topology :=
  records.foldl addLink []

/-- Cost of the direct link from a to b, if there is one. -/
def linkCost (T : Topology) (a b : Int) : Option Int :=
  match topoFind T a with
  | none => none
  | some n => mapFind n.neighbors b

/-! ## Dijkstra -/

/-- Behaviour the language leaves open: the order in which the unordered map D is
enumerated at a given iteration, and the values read from uninitialised ints. -/
structure Impl where
  order : Nat → List (Int × Int) → List (Int × Int)
  order_perm : ∀ n l, (order n l).Perm l
  min_id0 : Int
  next_hop0 : Int

/-- The maps of Dijkstra: N finished nodes (newest first), D cost, P previous node. -/
structure DState where
  N : List Int
  D : List (Int × Int)
  P : List (Int × Int)
deriving DecidableEq, Repr

/-- Assignment N[k] = true. -/
def setN (N : List Int) (k : Int) : List Int := if k ∈ N then N else k :: N

/-- Initial state of the neighbours of the source (lines 203-206). -/
def seedStep (source : Int) (acc : List (Int × Int) × List (Int × Int)) (nb : Int × Int) :
    List (Int × Int) × List (Int × Int) :=
  (mapSet acc.1 nb.1 nb.2, mapSet acc.2 nb.1 source)

/-- Body of the scan for the cheapest unfinished node (lines 237-252);
the accumulator is (min_id, min_cost). -/
def scanStep (N : List Int) (D : List (Int × Int)) (acc : Int × Int) (p : Int × Int) :
    Int × Int :=
  if p.2 ≤ acc.2 ∧ p.1 ∉ N then
    if mapAt D p.1 = acc.2 then (min acc.1 p.1, acc.2) else (p.1, p.2)
  else acc

/-- The scan over D in the order the implementation enumerates it. -/
def scan (impl : Impl) (k : Nat) (N : List Int) (D : List (Int × Int)) : Int × Int :=
  (impl.order k D).foldl (scanStep N D) (impl.min_id0, INT_MAX)

/-- Update of D(v), P(v) for one neighbour of the node just finished (lines 258-288). -/
def relaxStep (N : List Int) (min_id : Int) (acc : List (Int × Int) × List (Int × Int))
    (p : Int × Int) : List (Int × Int) × List (Int × Int) :=
  if p.1 ∉ N then
    match mapFind acc.1 p.1 with
    | some dv =>
      let w := wrap32 (mapAt acc.1 min_id + p.2)
      if dv = w then
        if mapAt acc.2 p.1 > min_id then (acc.1, mapSet acc.2 p.1 min_id) else acc
      else if dv > w then (mapSet acc.1 p.1 w, mapSet acc.2 p.1 min_id)
      else acc
    | none => (mapSet acc.1 p.1 (wrap32 (mapAt acc.1 min_id + p.2)), mapSet acc.2 p.1 min_id)
  else acc

/-- Marking of one remaining node as unreachable (lines 293-299). -/
def markStep (st : DState) (p : Int × node_t) : DState :=
  if p.1 ∉ st.N then ⟨setN st.N p.1, mapSet st.D p.1 (-1), mapSet st.P p.1 (-1)⟩ else st

/-- One iteration of the main while loop (lines 234-300). -/
def iterate (impl : Impl) (T : Topology) (k : Nat) (st : DState) : Except Fault DState :=
  let m := scan impl k st.N st.D
  if m.2 ≠ INT_MAX then
    match topoFind T m.1 with
    | none => .error .null_deref
    | some node =>
      let N1 := setN st.N m.1
      let DP := node.neighbors.foldl (relaxStep N1 m.1) (st.D, st.P)
      .ok ⟨N1, DP.1, DP.2⟩
  else .ok (T.foldl markStep st)

/-- The main while loop (line 233), given a number of iterations it may take. -/
def mainLoop (impl : Impl) (T : Topology) : Nat → DState → Except Fault DState
  | 0, st => if st.N.length < T.length then .error .out_of_fuel else .ok st
  | fuel + 1, st =>
    if st.N.length < T.length then
      match iterate impl T fuel st with
      | .error e => .error e
      | .ok st1 => mainLoop impl T fuel st1
    else .ok st

/-- The walk back to the node at the next hop (lines 329-334); the arguments are
the remaining number of iterations, prev and the current entry->next_hop. -/
def hopLoop (P : List (Int × Int)) (source : Int) : Nat → Int → Int → Except Fault Int
  | 0, prev, next_hop => if prev ≠ source then .error .out_of_fuel else .ok next_hop
  | fuel + 1, prev, next_hop =>
    if prev ≠ source then
      hopLoop P source fuel (mapAt P prev) (if mapAt P prev = source then prev else next_hop)
    else .ok next_hop

/-- One entry of the table (lines 306-337). -/
def fillEntry (impl : Impl) (fuel : Nat) (source : Int) (st : DState) (dest : Int) :
    Except Fault entry_t :=
  if dest = source then .ok ⟨dest, source, 0⟩
  else
    let prev := mapAt st.P dest
    if prev = source then .ok ⟨dest, dest, mapAt st.D dest⟩
    else if prev = -1 then .ok ⟨dest, -1, mapAt st.D dest⟩
    else
      match hopLoop st.P source fuel prev impl.next_hop0 with
      | .error e => .error e
      | .ok h => .ok ⟨dest, h, mapAt st.D dest⟩

/-- The table-filling loop (lines 305-338). -/
def fillTable (impl : Impl) (fuel : Nat) (source : Int) (st : DState) :
    List (Int × node_t) → Except Fault (List entry_t)
  | [] => .ok []
  | p :: rest =>
    match fillEntry impl fuel source st p.1 with
    | .error e => .error e
    | .ok entry =>
      match fillTable impl fuel source st rest with
      | .error e => .error e
      | .ok table => .ok (entry :: table)

/-- The table of a source without neighbours (lines 210-227). -/
def isolatedTable (T : Topology) (source : Int) : List entry_t :=
  T.map fun p => if p.1 = source then ⟨p.1, source, 0⟩ else ⟨p.1, -1, -1⟩

/-- The state when the main loop is entered: the source finished, D and P seeded. -/
def initState (source : Int) (node : node_t) : DState :=
  let DP := node.neighbors.foldl (seedStep source) ([], [])
  ⟨setN [] source, DP.1, DP.2⟩

/-- The state in which the main loop ends, for a source with neighbours. -/
def finalState (impl : Impl) (T : Topology) (source : Int) : Except Fault DState :=
  match topoFind T source with
  | none => .error .null_deref
  | some node => mainLoop impl T T.length (initState source node)

/-- Function Dijkstra: the routing table filled for the source. -/
def Dijkstra (impl : Impl) (T : Topology) (source : Int) : Except Fault (List entry_t) :=
  match topoFind T source with
  | none => .error .null_deref
  | some node =>
    let st0 := initState source node
    if st0.D.length = 0 then .ok (isolatedTable T source)
    else
      match mainLoop impl T T.length st0 with
      | .error e => .error e
      | .ok st => fillTable impl T.length source st T

/-- An implementation that enumerates D in stored order and reads 0 from
uninitialised ints. -/
def impl0 : Impl := ⟨fun _ l => l, fun _ l => List.Perm.refl l, 0, 0⟩

/-! ## print_table, update_tables -/

/-- The line of one entry, or nothing for an unreachable destination (lines 349-357). -/
def printEntry (e : entry_t) : String :=
  if e.path_cost = -1 ∨ e.next_hop = -1 then ""
  else toString e.dest ++ " " ++ toString e.next_hop ++ " " ++ toString e.path_cost ++ "\n"

/-- Function print_table: the text written to the output file. -/
def print_table (table : List entry_t) : String :=
  String.join (table.map printEntry)

/-- Read access routing_table[k]: a missing key reads as an empty table. -/
def tableAt : RoutingTable → Int → List entry_t
  | [], _ => []
  | (k', t) :: R, k => if k = k' then t else tableAt R k

/-- Assignment routing_table[k] = table in the ordered map. -/
def tableSet : RoutingTable → Int → List entry_t → RoutingTable
  | [], k, t => [(k, t)]
  | (k', t') :: R, k, t =>
    if k = k' then (k', t) :: R
    else if k < k' then (k, t) :: (k', t') :: R
    else (k', t') :: tableSet R k t

/-- The loop of update_tables over the nodes still to be visited; the state is the
routing table and the text written so far. -/
def updateLoop (impl : Impl) (T : Topology) :
    List (Int × node_t) → RoutingTable × String → Except Fault (RoutingTable × String)
  | [], acc => .ok acc
  | node :: rest, acc =>
    match Dijkstra impl T node.1 with
    | .error e => .error e
    | .ok forward_table =>
      updateLoop impl T rest
        (tableSet acc.1 node.1 forward_table, acc.2 ++ print_table forward_table ++ "\n")

/-- Function update_tables: recompute and print the table of every node. -/
def update_tables (impl : Impl) (T : Topology) (R : RoutingTable) :
    Except Fault (RoutingTable × String) :=
  updateLoop impl T T (R, "")

/-! ## send_messages -/

/-- Outcome of tracing one message. -/
inductive TraceResult where
  | no_table
  | unreachable
  | delivered (cost : Int) (hops : List Int)
deriving DecidableEq, Repr

/-- The search for the entry of the destination (lines 115-118 and 137-140).  The loop
condition reads forward_table[index] before it compares index with the size. -/
def findIndex (forward_table : List entry_t) (dest : Int) : Nat → Nat → Except Fault Nat
  | 0, _ => .error .out_of_fuel
  | fuel + 1, index =>
    match forward_table.get? index with
    | none => .error .out_of_bounds
    | some e =>
      if e.dest ≠ dest ∧ index < forward_table.length then
        findIndex forward_table dest fuel (index + 1)
      else .ok index

/-- The entry forward_table[index] at the index the search stops at. -/
def findEntry (forward_table : List entry_t) (dest : Int) : Except Fault entry_t :=
  match findIndex forward_table dest (forward_table.length + 1) 0 with
  | .error e => .error e
  | .ok index =>
    match forward_table.get? index with
    | none => .error .out_of_bounds
    | some e => .ok e

/-- The loop that follows the hops (lines 135-145); the arguments are the remaining
number of iterations, next_hop and the queue hops. -/
def followHops (R : RoutingTable) (dest : Int) : Nat → Int → List Int → Except Fault (List Int)
  | 0, next_hop, hops => if next_hop ≠ dest then .error .out_of_fuel else .ok hops
  | fuel + 1, next_hop, hops =>
    if next_hop ≠ dest then
      match findEntry (tableAt R next_hop) dest with
      | .error e => .error e
      | .ok entry =>
        followHops R dest fuel entry.next_hop
          (if entry.next_hop ≠ dest then hops ++ [entry.next_hop] else hops)
    else .ok hops

/-- The trace of one message (lines 107-159) without the text it writes. -/
def trace (R : RoutingTable) (fuel : Nat) (src dest : Int) : Except Fault TraceResult :=
  let forward_table := tableAt R src
  if forward_table.length = 0 then .ok .no_table
  else
    match findEntry forward_table dest with
    | .error e => .error e
    | .ok entry =>
      let cost := entry.path_cost
      if cost ≥ 0 then
        let next_hop := entry.next_hop
        match followHops R dest fuel next_hop
            (if next_hop ≠ dest then [src, next_hop] else [src]) with
        | .error e => .error e
        | .ok hops => .ok (.delivered cost hops)
      else .ok .unreachable

/-- The text written to the output file for one message. -/
def render (msg : message_t) : TraceResult → String
  | .no_table => "from " ++ toString msg.src ++ " to " ++ toString msg.dest
  | .unreachable =>
    "from " ++ toString msg.src ++ " to " ++ toString msg.dest
      ++ " cost infinite hops unreachable message " ++ msg.message ++ "\n"
  | .delivered cost hops =>
    "from " ++ toString msg.src ++ " to " ++ toString msg.dest
      ++ " cost " ++ toString cost ++ " hops "
      ++ String.join (hops.map fun h => toString h ++ " ")
      ++ "message " ++ msg.message ++ "\n"

/-- One iteration of the loop of send_messages: the text written for the message. -/
def sendOne (R : RoutingTable) (fuel : Nat) (msg : message_t) : Except Fault String :=
  match trace R fuel msg.src msg.dest with
  | .error e => .error e
  | .ok r => .ok (render msg r)

/-- The loop of send_messages over the messages still to be sent. -/
def sendLoop (R : RoutingTable) (fuel : Nat) : List message_t → String → Except Fault String
  | [], out => .ok out
  | msg :: rest, out =>
    match sendOne R fuel msg with
    | .error e => .error e
    | .ok line => sendLoop R fuel rest (out ++ line)

/-- Function send_messages: the text written to the output file. -/
def send_messages (R : RoutingTable) (fuel : Nat) (message_list : List message_t) :
    Except Fault String :=
  match sendLoop R fuel message_list "" with
  | .error e => .error e
  | .ok out => .ok (out ++ "\n")

/-! ## apply_changes, main -/

/-- Removal m.erase(k): the pair of the key is taken out, a missing key changes
nothing. -/
def mapErase : List (Int × Int) → Int → List (Int × Int)
  | [], _ => []
  | (k', v) :: m, k => if k = k' then m else (k', v) :: mapErase m k

/-- Removal topology[a]->neighbors.erase(b) for a known node a. -/
def topoEraseLink : Topology → Int → Int → Topology
  | [], _, _ => []
  | (k, n) :: T, a, b =>
    if a = k then (k, { n with neighbors := mapErase n.neighbors b }) :: T
    else (k, n) :: topoEraseLink T a b

/-- The input stream changesfile: whether the file was opened, the records that have
not been read yet, whether white space follows the last record, and the flag eofbit. -/
structure changes_stream where
  is_open : Bool
  records : List (Int × Int × Int)
  trailing : Bool
  eofbit : Bool
deriving DecidableEq, Repr

/-- The extraction changesfile >> src >> dest >> cost (line 375): the values of the
three ints after it, and the stream.  A record that is left is read, and eofbit is set
when the digits of its cost end the file.  When no record is left the extraction meets
the end of the file and fails: eofbit is set and the three ints keep the values uninit
that they held, uninitialised, before. -/
def extract (uninit : Int × Int × Int) (changesfile : changes_stream) :
    (Int × Int × Int) × changes_stream :=
  match changesfile.records with
  | r :: rest =>
    (r, { changesfile with records := rest, eofbit := rest.isEmpty && !changesfile.trailing })
  | [] => (uninit, { changesfile with eofbit := true })

/-- Function apply_changes (lines 372-397).  The result is the topology, the stream and
the value returned.  The test of eof() comes before the extraction, so a file that is
empty or ends in white space is read once more than it has records, with the
uninitialised values deciding the branch.  A read topology[k] of an unknown node yields
a null pointer, which the arrow dereferences. -/
def apply_changes (uninit : Int × Int × Int) (T : Topology) (changesfile : changes_stream) :
    Except Fault (Topology × changes_stream × Int) :=
  if changesfile.is_open = true ∧ changesfile.eofbit = false then
    match extract uninit changesfile with
    | ((src, dest, cost), changesfile1) =>
      if cost > 0 then
        match topoFind T src with
        | none => .error .null_deref
        | some _ =>
          let T1 := topoSetLink T src dest cost
          match topoFind T1 dest with
          | none => .error .null_deref
          | some _ => .ok (topoSetLink T1 dest src cost, changesfile1, 1)
      else if cost = -999 then
        match topoFind T src with
        | none => .error .null_deref
        | some _ =>
          let T1 := topoEraseLink T src dest
          match topoFind T1 dest with
          | none => .error .null_deref
          | some _ => .ok (topoEraseLink T1 dest src, changesfile1, 1)
      else .ok (T, changesfile1, 0)
  else .ok (T, changesfile, 0)

/-- The globals that main works on between two rounds: topology, routing_table and the
stream changesfile. -/
structure SimState where
  topology : Topology
  routing_table : RoutingTable
  changesfile : changes_stream
deriving Repr

/-- What one round of main did: the topology it started with, the routing table after
update_tables, the text written by update_tables and send_messages, and the value that
apply_changes returned at the end of the round. -/
structure Round where
  topology : Topology
  routing_table : RoutingTable
  text : String
  returned : Int
deriving Repr

/-- One pass through the body and the condition of the do-while loop of main (lines
418-421): update_tables, send_messages, apply_changes.  The argument fuel bounds the
hop loop of send_messages. -/
def simRound (impl : Impl) (uninit : Int × Int × Int) (fuel : Nat)
    (message_list : List message_t) (st : SimState) : Except Fault (SimState × Round) :=
  match update_tables impl st.topology st.routing_table with
  | .error e => .error e
  | .ok (R, tables) =>
    match send_messages R fuel message_list with
    | .error e => .error e
    | .ok traces =>
      match apply_changes uninit st.topology st.changesfile with
      | .error e => .error e
      | .ok (T, rest, returned) =>
        .ok (⟨T, R, rest⟩, ⟨st.topology, R, tables ++ traces, returned⟩)

/-- The do-while loop of main: the rounds it goes through, given the number of rounds
it may use. -/
def simLoop (impl : Impl) (uninit : Int × Int × Int) (fuel : Nat)
    (message_list : List message_t) : Nat → SimState → Except Fault (List Round)
  | 0, _ => .error .out_of_fuel
  | n + 1, st =>
    match simRound impl uninit fuel message_list st with
    | .error e => .error e
    | .ok (st1, r) =>
      if r.returned ≠ 0 then
        match simLoop impl uninit fuel message_list n st1 with
        | .error e => .error e
        | .ok rs => .ok (r :: rs)
      else .ok [r]

/-- Function main (lines 399-435) over the parsed records of the topology file and the
message file and the stream of the changes file: the rounds of the simulation.  Each
round but the last reads a record or meets the end of the file, so two rounds more than
there are records are always enough. -/
def main (impl : Impl) (uninit : Int × Int × Int) (fuel : Nat)
    (records : List (Int × Int × Int)) (message_list : List message_t)
    (changesfile : changes_stream) : Except Fault (List Round) :=
  simLoop impl uninit fuel message_list (changesfile.records.length + 2)
    ⟨read_topology records, [], changesfile⟩

/-- The text main leaves in the output file. -/
def output (rounds : List Round) : String :=
  String.join (rounds.map (·.text))

/-! ## distvec.cpp -/

/-- Function DistVec of distvec.cpp (lines 187-189).  The body is empty: the table that
was passed by reference is left as it was. -/
def distvec.DistVec (_source : Int) (table : List entry_t) : List entry_t := table

/-- The loop of update_tables of distvec.cpp (lines 170-184) over the nodes still to be
visited. -/
def distvec.updateLoop : List (Int × node_t) → RoutingTable × String → RoutingTable × String
  | [], acc => acc
  | node :: rest, acc =>
    let forward_table := distvec.DistVec node.1 []
    distvec.updateLoop rest
      (tableSet acc.1 node.1 forward_table, acc.2 ++ print_table forward_table ++ "\n")

/-- Function update_tables of distvec.cpp. -/
def distvec.update_tables (T : Topology) (R : RoutingTable) : RoutingTable × String :=
  distvec.updateLoop T (R, "")

/-! ## Paths and the conditions on a topology -/

/-- Sum of the link costs along a sequence of nodes; none when the sequence is empty or
two consecutive nodes are not directly linked. -/
def pathCost (T : Topology) : List Int → Option Int
  | [] => none
  | [_] => some 0
  | a :: b :: rest =>
    match linkCost T a b, pathCost T (b :: rest) with
    | some c, some k => some (c + k)
    | _, _ => none

/-- The sequence l is a path from s to d of total cost k. -/
def IsPath (T : Topology) (s d : Int) (l : List Int) (k : Int) : Prop :=
  l.head? = some s ∧ l.getLast? = some d ∧ pathCost T l = some k

/-- The containers are what std::map and std::unordered_map can hold (keys ascending,
respectively distinct) and every neighbour identifier is a known node. -/
def WellFormed (T : Topology) : Prop :=
  (node_ids T).Pairwise (· < ·) ∧
  ∀ p ∈ T, (p.2.neighbors.map Prod.fst).Nodup ∧
    ∀ q ∈ p.2.neighbors, q.1 ∈ node_ids T

/-- Adjacency is symmetric: each link is recorded at both ends with the same cost. -/
def Symmetric (T : Topology) : Prop :=
  ∀ p ∈ T, ∀ q ∈ p.2.neighbors, linkCost T q.1 p.1 = some q.2

/-- All link costs are positive. -/
def Positive (T : Topology) : Prop :=
  ∀ p ∈ T, ∀ q ∈ p.2.neighbors, 0 < q.2

/-- No link cost exceeds the bound B. -/
def CostsBelow (T : Topology) (B : Int) : Prop :=
  ∀ p ∈ T, ∀ q ∈ p.2.neighbors, q.2 ≤ B

/-- Every path without a repeated node costs less than INT_MAX: no sum the algorithm
forms overflows or meets the value it uses as infinity. -/
def NoOverflow (T : Topology) : Prop :=
  ∀ l k, l.Nodup → pathCost T l = some k → k < INT_MAX

/-- No node has the identifier -1, which the table uses for a missing next hop. -/
def NoSentinelId (T : Topology) : Prop := (-1 : Int) ∉ node_ids T

instance (T : Topology) : Decidable (WellFormed T) := by unfold WellFormed; infer_instance

instance (T : Topology) : Decidable (Symmetric T) := by unfold Symmetric; infer_instance

instance (T : Topology) : Decidable (Positive T) := by unfold Positive; infer_instance

instance (T : Topology) (B : Int) : Decidable (CostsBelow T B) := by
  unfold CostsBelow; infer_instance

instance (T : Topology) : Decidable (NoSentinelId T) := by unfold NoSentinelId; infer_instance

instance (T : Topology) (s d : Int) (l : List Int) (k : Int) : Decidable (IsPath T s d l k) := by
  unfold IsPath; infer_instance

/-! ## Definitions: seeding, relaxation and marking, key by key -/

/-- Values of D and P at a neighbour after relaxStep, from the values before. -/
def relaxAt (dm m : Int) (dv pv : Option Int) (c : Int) : Option Int × Option Int :=
  match dv with
  | some x =>
    if x = wrap32 (dm + c) then
      if pv.getD 0 > m then (some x, some m) else (some x, pv)
    else if x > wrap32 (dm + c) then (some (wrap32 (dm + c)), some m)
    else (some x, pv)
  | none => (some (wrap32 (dm + c)), some m)

/-! ## Definitions: the main loop: structure of the finished set -/

/-- The finished nodes R, newest first, form a tree rooted at the source under P: the
previous node of a finished node other than the source was finished before it. -/
structure Tree (T : Topology) (s : Int) (P : List (Int × Int)) (R : List Int) : Prop where
  nodup : R.Nodup
  known : ∀ v ∈ R, v ∈ node_ids T
  src : s ∈ R
  prev : ∀ pre v rest, R = pre ++ v :: rest → v ≠ s → mapAt P v ∈ rest

/-- Invariant of the main loop that holds whatever the link costs are. -/
structure SInv (T : Topology) (s : Int) (st : DState) : Prop where
  tree : Tree T s st.P st.N
  keysD : (st.D.map Prod.fst).Nodup
  front : ∀ v, v ∉ st.N → mapFind st.D v ≠ none → v ∈ node_ids T ∧ mapAt st.P v ∈ st.N

/-- What the invariant gives when the main loop has ended: the nodes R reached from the
source form a tree and every other known node is marked with -1. -/
structure SFinal (T : Topology) (s : Int) (st : DState) (R : List Int) : Prop where
  tree : Tree T s st.P R
  rest : ∀ v ∈ node_ids T, v ∉ R → mapAt st.D v = -1 ∧ mapAt st.P v = -1

/-- The state after the node m has been finished and its neighbours relaxed. -/
def relaxed (st : DState) (m : Int) (node : node_t) : DState :=
  ⟨m :: st.N,
    (node.neighbors.foldl (relaxStep (m :: st.N) m) (st.D, st.P)).1,
    (node.neighbors.foldl (relaxStep (m :: st.N) m) (st.D, st.P)).2⟩

/-! ## Definitions: the initial state and the table-filling loop -/

/-- Chain P s h v: following P from v leads to the source, and h is the last node before
the source on the way. -/
inductive Chain (P : List (Int × Int)) (s : Int) : Int → Int → Prop where
  | base (h : Int) : h ≠ s → mapAt P h = s → Chain P s h h
  | step (h u v : Int) : Chain P s h u → v ≠ s → mapAt P v = u → Chain P s h v

/-! ## Definitions: the main loop: costs -/

/-- Distance of v as the main loop holds it: 0 for the source, D[v] otherwise. -/
def dist0 (s : Int) (D : List (Int × Int)) (v : Int) : Int :=
  if v = s then 0 else mapAt D v

/-- Every node of R other than the source is linked to its previous node, and its cost
is the cost of the previous node plus the cost of that link. -/
def TreeCost (T : Topology) (s : Int) (D P : List (Int × Int)) (R : List Int) : Prop :=
  ∀ v ∈ R, v ≠ s → ∃ c, linkCost T (mapAt P v) v = some c ∧
    mapAt D v = dist0 s D (mapAt P v) + c

/-- Invariant of the main loop on the costs. -/
structure CInv (T : Topology) (s : Int) (st : DState) : Prop where
  treeCost : TreeCost T s st.D st.P st.N
  frontCost : ∀ v, v ∉ st.N → ∀ x, mapFind st.D v = some x →
    ∃ c, linkCost T (mapAt st.P v) v = some c ∧ x = dist0 s st.D (mapAt st.P v) + c
  feas : ∀ u ∈ st.N, ∀ w ∈ st.N, ∀ c, linkCost T u w = some c →
    dist0 s st.D w ≤ dist0 s st.D u + c
  frontier : ∀ u ∈ st.N, ∀ v, v ∉ st.N → ∀ c, linkCost T u v = some c →
    ∃ x, mapFind st.D v = some x ∧ x ≤ dist0 s st.D u + c
  mono : ∀ u ∈ st.N, ∀ v, v ∉ st.N → ∀ x, mapFind st.D v = some x → dist0 s st.D u ≤ x

/-- What the cost invariant gives when the main loop has ended. -/
structure CFinal (T : Topology) (s : Int) (st : DState) (R : List Int) : Prop where
  treeCost : TreeCost T s st.D st.P R
  feas : ∀ u ∈ R, ∀ w ∈ R, ∀ c, linkCost T u w = some c →
    dist0 s st.D w ≤ dist0 s st.D u + c
  closed : ∀ u ∈ R, ∀ v c, linkCost T u v = some c → v ∈ R

/-! ## Definitions: topologies used as examples -/

/-- Scenario 1 of the specification: a line 1 - 2 - 3. -/
def scenario1 : Topology := read_topology [(1, 2, 1), (2, 3, 1)]

/-- Scenario 3 of the specification: a triangle whose direct link 1 - 3 is expensive. -/
def scenario3 : Topology := read_topology [(1, 2, 1), (1, 3, 5), (2, 3, 1)]

/-- One link whose cost is INT_MAX. -/
def topoMaxCost : Topology := read_topology [(1, 2, 2147483647)]

/-- A line 1 - 3 - (-1) - 2 with a node whose identifier is -1. -/
def topoSentinel : Topology := read_topology [(1, 3, 1), (3, -1, 1), (-1, 2, 1)]

/-- Node 1 with a link to itself, beside a link 2 - 3. -/
def topoSelfLink : Topology := read_topology [(1, 1, 5), (2, 3, 1)]

/-! ## Definitions for C1: costs of the table are costs of cheapest paths -/

/-- The table of the source s has, for every destination to which a path from s exists,
an entry, and the cost of that entry is the least cost of a path from s to it. -/
def OptimalCosts (impl : Impl) (T : Topology) (s : Int) : Prop :=
  ∃ table, Dijkstra impl T s = .ok table ∧
    ∀ d, (∃ l k, IsPath T s d l k) →
      (∃ e ∈ table, e.dest = d) ∧
      ∀ e ∈ table, e.dest = d →
        (∃ l, IsPath T s d l e.path_cost) ∧ ∀ l k, IsPath T s d l k → e.path_cost ≤ k

/-! ## Definitions for C2: the next hop is a neighbour on a cheapest path -/

/-- For every destination other than the source to which a path exists, the next hop of
its entry is directly linked to the source, and the cost of the entry is the cost of that
link plus the least cost of a path from the next hop to the destination. -/
def NextHopOnShortestPath (impl : Impl) (T : Topology) (s : Int) : Prop :=
  ∃ table, Dijkstra impl T s = .ok table ∧
    ∀ d, d ≠ s → (∃ l k, IsPath T s d l k) →
      (∃ e ∈ table, e.dest = d) ∧
      ∀ e ∈ table, e.dest = d →
        ∃ c0, linkCost T s e.next_hop = some c0 ∧
          (∃ l1, IsPath T e.next_hop d l1 (e.path_cost - c0)) ∧
          ∀ l k, IsPath T e.next_hop d l k → e.path_cost - c0 ≤ k

/-! ## Definitions for C5: the encoding of unreachable destinations -/

/-- Two separate links 1 - 2 and 3 - 4. -/
def topoSplit : Topology := read_topology [(1, 2, 1), (3, 4, 1)]

/-- Node 1 without any link, beside a link 2 - 3. -/
def topoIsolated : Topology :=
  [(1, ⟨1, []⟩), (2, ⟨2, [(3, 1)]⟩), (3, ⟨3, [(2, 1)]⟩)]

/-- Every known node other than the source has an entry; the entry is (-1, -1) exactly
when no path from the source to it exists, it has a positive cost and a next hop other
than -1 when a path exists, and the two fields are -1 together or not at all. -/
def UnreachableEncoding (impl : Impl) (T : Topology) (s : Int) : Prop :=
  ∃ table, Dijkstra impl T s = .ok table ∧
    ∀ d ∈ node_ids T, d ≠ s →
      (∃ e ∈ table, e.dest = d) ∧
      ∀ e ∈ table, e.dest = d →
        ((e.path_cost = -1 ∧ e.next_hop = -1) ↔ ¬ ∃ l k, IsPath T s d l k) ∧
        ((∃ l k, IsPath T s d l k) → 0 < e.path_cost ∧ e.next_hop ≠ -1) ∧
        (e.path_cost = -1 ↔ e.next_hop = -1)

/-! ## Definitions: the routing tables and the search for an entry -/

/-- The tables R hold, for every known node, the table Dijkstra computes for it. -/
def TablesOf (impl : Impl) (T : Topology) (R : RoutingTable) : Prop :=
  ∀ k ∈ node_ids T, ∃ table, Dijkstra impl T k = .ok table ∧ tableAt R k = table

/-- The tables that update_tables computes from an empty routing table. -/
def tablesOf (impl : Impl) (T : Topology) : RoutingTable :=
  match update_tables impl T [] with
  | .ok r => r.1
  | .error _ => []

/-! ## Definitions: the hop walk over the tables of all nodes -/

/-- The least cost of a path from h to d is k. -/
def LeastCost (T : Topology) (h d k : Int) : Prop :=
  (∃ l, IsPath T h d l k) ∧ ∀ l k', IsPath T h d l k' → k ≤ k'

/-! ## Definitions for C3: the trace agrees with the tables of all nodes -/

/-- When the entry of the source for the destination has a cost of 0 or more, the hop loop
visits the nodes of a path from the source to the destination whose link costs sum to
that cost; the queue holds the nodes visited before the destination. -/
def TraceConsistent (T : Topology) (R : RoutingTable) (fuel : Nat) (src dest : Int) : Prop :=
  ∀ e, findEntry (tableAt R src) dest = .ok e → 0 ≤ e.path_cost →
    ∃ p, IsPath T src dest p e.path_cost ∧
      trace R fuel src dest =
        .ok (.delivered e.path_cost (if src = dest then [src] else p.dropLast))

/-! ## Definitions for C4: the hop sequence of a delivered message -/

/-- C4 as stated: the hops of a delivered message start with the source and end with the
destination. -/
def HopsComplete (R : RoutingTable) (fuel : Nat) (src dest : Int) : Prop :=
  ∀ cost hops, trace R fuel src dest = .ok (.delivered cost hops) →
    hops.head? = some src ∧ hops.getLast? = some dest

/-- The line written for a message whose entry has a cost of 0 or more lists hops that
start with the source; they are the source alone for a message to the source itself, and
otherwise, followed by the destination, they are a path without a repeated node from the
source to the destination at the cost written. -/
def HopsUpToDestination (T : Topology) (R : RoutingTable) (fuel : Nat) (msg : message_t) :
    Prop :=
  ∀ e, findEntry (tableAt R msg.src) msg.dest = .ok e → 0 ≤ e.path_cost →
    ∃ hops,
      sendOne R fuel msg = .ok ("from " ++ toString msg.src ++ " to " ++ toString msg.dest
        ++ " cost " ++ toString e.path_cost ++ " hops "
        ++ String.join (hops.map fun h => toString h ++ " ")
        ++ "message " ++ msg.message ++ "\n") ∧
      hops.head? = some msg.src ∧
      (msg.src = msg.dest → hops = [msg.src]) ∧
      (msg.src ≠ msg.dest → (hops ++ [msg.dest]).Nodup ∧
        IsPath T msg.src msg.dest (hops ++ [msg.dest]) e.path_cost)

/-! ## Definitions: the main loop: ties -/

/-- Invariant of the main loop on ties: among the finished nodes whose link gives a node
the cost it has in D, the previous node in P has the least identifier. -/
structure TInv (T : Topology) (s : Int) (st : DState) : Prop where
  front : ∀ v, v ∉ st.N → ∀ x, mapFind st.D v = some x → ∀ u ∈ st.N, ∀ c,
    linkCost T u v = some c → dist0 s st.D u + c = x → mapAt st.P v ≤ u
  done : ∀ v ∈ st.N, v ≠ s → ∀ u ∈ st.N, ∀ c,
    linkCost T u v = some c → dist0 s st.D u + c = dist0 s st.D v → mapAt st.P v ≤ u

/-- What the tie invariant gives when the main loop has ended: the previous node of a
reached node has the least identifier among the reached nodes on a cheapest way to it. -/
def TieFinal (T : Topology) (s : Int) (st : DState) (R : List Int) : Prop :=
  ∀ v ∈ R, v ≠ s → ∀ u ∈ R, ∀ c,
    linkCost T u v = some c → dist0 s st.D u + c = dist0 s st.D v → mapAt st.P v ≤ u

/-! ## Definitions for C7: destinations with several cheapest paths -/

/-- Two ways 1 - 2 - 5 - 6 and 1 - 3 - 4 - 6 of three links of cost 1 each. -/
def topoTie : Topology :=
  read_topology [(1, 2, 1), (1, 3, 1), (2, 5, 1), (3, 4, 1), (5, 6, 1), (4, 6, 1)]

/-- Two ways 1 - 2 - 4 and 1 - 3 - 4 of two links of cost 1 each. -/
def topoDiamond : Topology := read_topology [(1, 2, 1), (1, 3, 1), (2, 4, 1), (3, 4, 1)]

/-- The two node sequences have no link in common, in either direction. -/
def EdgeDisjoint (l1 l2 : List Int) : Prop :=
  ∀ e ∈ l1.zip l1.tail, e ∉ l2.zip l2.tail ∧ (e.2, e.1) ∉ l2.zip l2.tail

instance (l1 l2 : List Int) : Decidable (EdgeDisjoint l1 l2) := by
  unfold EdgeDisjoint; infer_instance

/-- C7 as stated: whenever a destination has two cheapest paths without a common link,
the next hop of its entry is the smaller of the first hops of the two paths. -/
def NextHopTieBreak (impl : Impl) (T : Topology) (s : Int) : Prop :=
  ∃ table, Dijkstra impl T s = .ok table ∧
    ∀ d k a b r1 r2, LeastCost T s d k →
      IsPath T s d (s :: a :: r1) k → IsPath T s d (s :: b :: r2) k →
      EdgeDisjoint (s :: a :: r1) (s :: b :: r2) →
      ∀ e ∈ table, e.dest = d → e.next_hop = min a b

/-- For a destination all of whose cheapest paths have two links, the next hop of its
entry lies on such a path and has the least identifier among the nodes that do. -/
def TwoLinkTieBreak (impl : Impl) (T : Topology) (s : Int) : Prop :=
  ∃ table, Dijkstra impl T s = .ok table ∧
    ∀ d k, d ≠ s → LeastCost T s d k → (∀ l, IsPath T s d l k → l.length = 3) →
      ∀ e ∈ table, e.dest = d →
        IsPath T s d [s, e.next_hop, d] k ∧ ∀ a, IsPath T s d [s, a, d] k → e.next_hop ≤ a

/-- The diamond with the node -1 in the place of node 2. -/
def topoDiamondSentinel : Topology :=
  read_topology [(1, -1, 1), (1, 3, 1), (-1, 4, 1), (3, 4, 1)]

/-! ## Definitions: two runs that differ in the enumeration orders -/

/-- The two topologies hold the same nodes and links; each neighbour map of the second
is enumerated in some other order than in the first. -/
def SameUpToOrder (T1 T2 : Topology) : Prop :=
  List.Forall₂ (fun p q => p.1 = q.1 ∧ p.2.id = q.2.id ∧ p.2.neighbors.Perm q.2.neighbors)
    T1 T2

instance (T1 T2 : Topology) : Decidable (SameUpToOrder T1 T2) := by
  unfold SameUpToOrder; infer_instance

/-- The two states hold the same maps: N with the same keys in the same order of
insertion, D and P with the same value at every key. -/
structure StEq (a b : DState) : Prop where
  N : a.N = b.N
  D : ∀ v, mapFind a.D v = mapFind b.D v
  P : ∀ v, mapFind a.P v = mapFind b.P v
  keysA : (a.D.map Prod.fst).Nodup
  keysB : (b.D.map Prod.fst).Nodup

/-- The two results are the same fault, or states that hold the same maps. -/
def ExEq : Except Fault DState → Except Fault DState → Prop
  | .ok a, .ok b => StEq a b
  | .error e1, .error e2 => e1 = e2
  | _, _ => False

/-! ## Definitions for C8: the enumeration order does not influence the table -/

/-- An implementation that enumerates D in reverse order and reads other values from
uninitialised ints. -/
def implRev : Impl := ⟨fun _ l => l.reverse, fun _ l => List.reverse_perm l, 7, 9⟩

/-- Scenario 3 with every neighbour map enumerated in reverse order. -/
def scenario3Rev : Topology :=
  scenario3.map fun p => (p.1, ⟨p.2.id, p.2.neighbors.reverse⟩)

/-- Link costs below INT_MAX whose sum is INT_MAX. -/
def topoNearMax : Topology := read_topology [(1, 2, 2147483646), (2, 3, 1)]

/-- C8 as stated, the part on the scan: whenever an unfinished node has a cost in D, the
scan returns an unfinished node of least cost and, among those, of least identifier. -/
def ScanReturnsLeast (impl : Impl) (k : Nat) (N : List Int) (D : List (Int × Int)) : Prop :=
  ∀ v x, v ∉ N → mapFind D v = some x →
    (scan impl k N D).1 ∉ N ∧ mapFind D (scan impl k N D).1 = some (scan impl k N D).2 ∧
    (scan impl k N D).2 ≤ x ∧ (x = (scan impl k N D).2 → (scan impl k N D).1 ≤ v)

/-! ## Definitions for C12: the entries that print_table leaves out -/

/-- The line of an entry in the output file. -/
def tableLine (e : entry_t) : String :=
  toString e.dest ++ " " ++ toString e.next_hop ++ " " ++ toString e.path_cost ++ "\n"

/-- C12 as stated: the text of print_table is, in table order, the line of every entry
whose path_cost is not -1, and the filter of the code drops exactly the entries whose
path_cost is -1. -/
def EmitsReachable (table : List entry_t) : Prop :=
  print_table table
      = String.join ((table.filter fun e => decide (e.path_cost ≠ -1)).map tableLine) ∧
  ∀ e ∈ table, (e.path_cost = -1 ∨ e.next_hop = -1) ↔ e.path_cost = -1

/-! ## Definitions: the mutations of the topology -/

/-- The topology with the neighbour map of the node a replaced by its image under f. -/
def topoModify : Topology → Int → (List (Int × Int) → List (Int × Int)) → Topology
  | [], _, _ => []
  | (k, n) :: T, a, f =>
    if a = k then (k, { n with neighbors := f n.neighbors }) :: T
    else (k, n) :: topoModify T a f

/-- The two directions of every link carry the same cost. -/
def LinkSym (T : Topology) : Prop := ∀ a b, linkCost T a b = linkCost T b a

/-- The topology after the record r of the changes file, for known nodes: what the
two assignments, respectively the two removals, of apply_changes leave. -/
def mutate (T : Topology) (r : Int × Int × Int) : Topology :=
  if r.2.2 > 0 then topoSetLink (topoSetLink T r.1 r.2.1 r.2.2) r.2.1 r.1 r.2.2
  else if r.2.2 = -999 then topoEraseLink (topoEraseLink T r.1 r.2.1) r.2.1 r.1
  else T

/-- The topology and the stream after n successive calls of apply_changes. -/
def applyCalls (uninit : Int × Int × Int) : Nat → Topology → changes_stream →
    Except Fault (Topology × changes_stream)
  | 0, T, changesfile => .ok (T, changesfile)
  | n + 1, T, changesfile =>
    match apply_changes uninit T changesfile with
    | .error e => .error e
    | .ok (T1, rest, _) => applyCalls uninit n T1 rest

/-! ## Definitions for C17: a node that has lost all its links -/

/-- Every finished node other than the source, and every unfinished node that D holds,
has a link from some node. -/
def LInv (T : Topology) (s : Int) (st : DState) : Prop :=
  (∀ v ∈ st.N, v ≠ s → ∃ u c, linkCost T u v = some c) ∧
  (∀ v, v ∉ st.N → mapFind st.D v ≠ none → ∃ u c, linkCost T u v = some c)

/-- The node x has no link: its neighbour map is empty and no node has x as a
neighbour. -/
def NoLinks (T : Topology) (x : Int) : Prop :=
  ∀ p ∈ T, (p.1 = x → p.2.neighbors = []) ∧ x ∉ p.2.neighbors.map Prod.fst

instance (T : Topology) (x : Int) : Decidable (NoLinks T x) := by
  unfold NoLinks; infer_instance

/-! ## Definitions: the rounds of main -/

/-- The tables R hold the table of Dijkstra for every known node and no table for any
other node. -/
def TablesExact (impl : Impl) (T : Topology) (R : RoutingTable) : Prop :=
  TablesOf impl T R ∧ ∀ k, k ∉ node_ids T → tableAt R k = []

/-- The reads of apply_changes end with the records of the changes file: a file that is
not open or at its end has no record left, and an open file either ends with the last
digit of its last record, so that reading that record sets eofbit, or is read once more
than it has records, by an extraction that fails and leaves an uninitialised cost that
is neither above 0 nor -999. -/
def ReadsToEnd (uninit : Int × Int × Int) (changesfile : changes_stream) : Prop :=
  if changesfile.is_open = false ∨ changesfile.eofbit = true then changesfile.records = []
  else (changesfile.trailing = false ∧ changesfile.records ≠ []) ∨
    ¬ (uninit.2.2 > 0 ∨ uninit.2.2 = -999)

instance (uninit : Int × Int × Int) (changesfile : changes_stream) :
    Decidable (ReadsToEnd uninit changesfile) := by
  unfold ReadsToEnd; infer_instance

/-- What C19 says of the round number k of a simulation that starts from the topology T0
with the changes file changesfile: the round works on the topology that the first k
records lead to, which is where k calls of apply_changes lead to, with the records
behind the first k left in the file; its tables are those of Dijkstra for that
topology, its text is the text of update_tables followed by the text of send_messages
for the message list, and apply_changes returns 1 at its end when a record was left. -/
def RoundOf (impl : Impl) (uninit : Int × Int × Int) (fuel : Nat)
    (message_list : List message_t) (T0 : Topology) (changesfile : changes_stream)
    (k : Nat) (r : Round) : Prop :=
  r.topology = (changesfile.records.take k).foldl mutate T0 ∧
  (∃ rest, applyCalls uninit k T0 changesfile = .ok (r.topology, rest) ∧
    rest.records = changesfile.records.drop k) ∧
  TablesOf impl r.topology r.routing_table ∧
  (∃ R0 tables traces, update_tables impl r.topology R0 = .ok (r.routing_table, tables) ∧
    send_messages r.routing_table fuel message_list = .ok traces ∧
    r.text = tables ++ traces) ∧
  r.returned = if k < changesfile.records.length then 1 else 0

/-- The conditions under which every round of a simulation returns and the rounds are one
more than the records: positive costs, no message from a known node to an unknown one,
change records that set or remove a link between known nodes, reads that end with the
records, and no overflow in any topology the records lead to. -/
structure SimOk (uninit : Int × Int × Int) (T : Topology) (message_list : List message_t)
    (changesfile : changes_stream) : Prop where
  wf : WellFormed T
  pos : Positive T
  msgs : ∀ m ∈ message_list, m.src ∈ node_ids T → m.dest ∈ node_ids T
  valid : ∀ r ∈ changesfile.records,
    (r.2.2 > 0 ∨ r.2.2 = -999) ∧ r.1 ∈ node_ids T ∧ r.2.1 ∈ node_ids T
  ends : ReadsToEnd uninit changesfile
  noOverflow : ∀ k, k ≤ changesfile.records.length →
    NoOverflow ((changesfile.records.take k).foldl mutate T)

/-! ## Definitions for C19: the rounds of the simulation -/

/-- C19 as stated, for given inputs: main goes through exactly one round more than the
changes file has records, for some bound on the hop loop of send_messages. -/
def PerformsRounds (impl : Impl) (uninit : Int × Int × Int)
    (records : List (Int × Int × Int)) (message_list : List message_t)
    (changesfile : changes_stream) : Prop :=
  ∃ fuel rounds, main impl uninit fuel records message_list changesfile = .ok rounds ∧
    rounds.length = changesfile.records.length + 1

/-- A triangle whose link 1 - 3 costs INT_MAX: node 2 adds 1 to INT_MAX, the sum wraps,
and the table of node 2 sends traffic for node 3 back to node 1. -/
def topoLoop : Topology := read_topology [(1, 2, 1), (1, 3, 2147483647), (2, 3, 1)]

/-! ## Definitions for C22: the previous node under ties -/

/-- C22 as stated, for the map P of previous nodes in which Dijkstra ends: for every
destination d other than the source to which a path exists, P[d] is a node u from which
the link to d closes a cheapest path, the least cost to u plus the cost of the link
being the least cost to d, and no node with that property has a smaller identifier. -/
def PredecessorTieBreak (T : Topology) (s : Int) (P : List (Int × Int)) : Prop :=
  ∀ d, d ≠ s → (∃ l k, IsPath T s d l k) →
    ∃ kd, LeastCost T s d kd ∧
      (∃ ku c, LeastCost T s (mapAt P d) ku ∧ linkCost T (mapAt P d) d = some c ∧
        ku + c = kd) ∧
      ∀ u ku c, LeastCost T s u ku → linkCost T u d = some c → ku + c = kd → mapAt P d ≤ u

/-! ## Definitions for C23: the number of steps of the hop walk -/

/-- C23 as stated, for one message: when the entry of the source for the destination has
a cost of 0 or more, the hop loop reaches the destination within one step less than
there are nodes (which, with the lookup of the table of the source, makes one table
lookup per node at most), and the nodes it visits before the destination are
distinct. -/
def HopWalkBounded (T : Topology) (R : RoutingTable) (src dest : Int) : Prop :=
  ∀ e, findEntry (tableAt R src) dest = .ok e → 0 ≤ e.path_cost →
    ∃ hops, (∀ fuel, T.length - 1 ≤ fuel →
        trace R fuel src dest = .ok (.delivered e.path_cost hops)) ∧
      hops.Nodup ∧ hops.length ≤ T.length ∧ (src ≠ dest → dest ∉ hops)

/-! ## Definitions for C24: the loops of Dijkstra end -/

/-- The states in which the main loop of Dijkstra tests its condition, from the state
st0 in which it is entered. -/
inductive LoopState (impl : Impl) (T : Topology) (st0 : DState) : DState → Prop where
  | init : LoopState impl T st0 st0
  | step (k : Nat) (st st1 : DState) : LoopState impl T st0 st → st.N.length < T.length →
      iterate impl T k st = .ok st1 → LoopState impl T st0 st1

/-- C24 as stated on the walk back: in the state in which the main loop ends, every
destination other than the source to which a path exists has the source as its
previous node, or a previous node other than -1 from which the loop that follows the
previous nodes ends at the source with next_hop set to a node whose previous node is
the source. -/
def WalkReachesSource (impl : Impl) (T : Topology) (s : Int) : Prop :=
  ∃ st, finalState impl T s = .ok st ∧
    ∀ d, d ≠ s → (∃ l k, IsPath T s d l k) →
      mapAt st.P d = s ∨
      (mapAt st.P d ≠ -1 ∧
        ∃ h, hopLoop st.P s T.length (mapAt st.P d) impl.next_hop0 = .ok h ∧
          h ≠ s ∧ mapAt st.P h = s)

/-! ## Facts about the containers -/

theorem mapFind_mapSet_self (m : List (Int × Int)) (k v : Int) :
    mapFind (mapSet m k v) k = some v := by
  induction m with
  | nil => simp [mapSet, mapFind]
  | cons p m ih =>
    obtain ⟨k', v'⟩ := p
    by_cases h : k = k'
    · simp [mapSet, mapFind, h]
    · simp [mapSet, mapFind, h, ih]

theorem mapFind_mapSet_other (m : List (Int × Int)) (k v k' : Int) (h : k' ≠ k) :
    mapFind (mapSet m k v) k' = mapFind m k' := by
  induction m with
  | nil => simp [mapSet, mapFind, h]
  | cons p m ih =>
    obtain ⟨k1, v1⟩ := p
    by_cases h1 : k = k1
    · subst h1
      simp [mapSet, mapFind, h]
    · by_cases h2 : k' = k1
      · simp [mapSet, mapFind, h1, h2]
      · simp [mapSet, mapFind, h1, h2, ih]

theorem mapAt_mapSet_self (m : List (Int × Int)) (k v : Int) :
    mapAt (mapSet m k v) k = v := by
  simp [mapAt, mapFind_mapSet_self]

theorem mapAt_mapSet_other (m : List (Int × Int)) (k v k' : Int) (h : k' ≠ k) :
    mapAt (mapSet m k v) k' = mapAt m k' := by
  simp [mapAt, mapFind_mapSet_other m k v k' h]

theorem mapAt_of_find {m : List (Int × Int)} {k v : Int} (h : mapFind m k = some v) :
    mapAt m k = v := by
  simp [mapAt, h]

theorem mapFind_some_mem {m : List (Int × Int)} {k v : Int} (h : mapFind m k = some v) :
    (k, v) ∈ m := by
  induction m with
  | nil => simp [mapFind] at h
  | cons p m ih =>
    obtain ⟨k1, v1⟩ := p
    by_cases h1 : k = k1
    · simp [mapFind, h1] at h
      simp [h1, h]
    · simp [mapFind, h1] at h
      exact List.mem_cons_of_mem _ (ih h)

theorem mapFind_none_iff (m : List (Int × Int)) (k : Int) :
    mapFind m k = none ↔ k ∉ m.map Prod.fst := by
  induction m with
  | nil => simp [mapFind]
  | cons p m ih =>
    obtain ⟨k1, v1⟩ := p
    by_cases h1 : k = k1
    · simp [mapFind, h1]
    · simp [mapFind, h1, ih]

theorem mapFind_of_mem {m : List (Int × Int)} (hnd : (m.map Prod.fst).Nodup) {k v : Int}
    (h : (k, v) ∈ m) : mapFind m k = some v := by
  induction m with
  | nil => simp at h
  | cons p m ih =>
    obtain ⟨k1, v1⟩ := p
    simp only [List.map_cons, List.nodup_cons] at hnd
    rcases List.mem_cons.mp h with h1 | h1
    · simp only [Prod.mk.injEq] at h1
      simp [mapFind, h1.1, h1.2]
    · have hk : k ≠ k1 := by
        rintro rfl
        exact hnd.1 (List.mem_map.mpr ⟨(k, v), h1, rfl⟩)
      simp [mapFind, hk, ih hnd.2 h1]

theorem mapSet_of_not_mem {m : List (Int × Int)} {k : Int} (v : Int)
    (h : k ∉ m.map Prod.fst) : mapSet m k v = m ++ [(k, v)] := by
  induction m with
  | nil => simp [mapSet]
  | cons p m ih =>
    obtain ⟨k1, v1⟩ := p
    simp only [List.map_cons, List.mem_cons, not_or] at h
    simp [mapSet, h.1, ih h.2]

theorem keys_mapSet (m : List (Int × Int)) (k v : Int) :
    (mapSet m k v).map Prod.fst =
      if k ∈ m.map Prod.fst then m.map Prod.fst else m.map Prod.fst ++ [k] := by
  induction m with
  | nil => simp [mapSet]
  | cons p m ih =>
    obtain ⟨k1, v1⟩ := p
    by_cases h1 : k = k1
    · simp [mapSet, h1]
    · by_cases h2 : k ∈ m.map Prod.fst
      · simp [mapSet, h1, ih, h2]
      · simp [mapSet, h1, ih, h2]

theorem keys_mapSet_nodup {m : List (Int × Int)} (k v : Int)
    (hnd : (m.map Prod.fst).Nodup) : ((mapSet m k v).map Prod.fst).Nodup := by
  rw [keys_mapSet]
  split
  · exact hnd
  · rename_i h
    exact List.Nodup.append hnd (List.nodup_singleton k) (by simpa using h)

theorem topoFind_some_mem {T : Topology} {k : Int} {n : node_t} (h : topoFind T k = some n) :
    (k, n) ∈ T := by
  induction T with
  | nil => simp [topoFind] at h
  | cons p T ih =>
    obtain ⟨k1, n1⟩ := p
    by_cases h1 : k = k1
    · simp [topoFind, h1] at h
      simp [h1, h]
    · simp [topoFind, h1] at h
      exact List.mem_cons_of_mem _ (ih h)

theorem topoFind_none_iff (T : Topology) (k : Int) :
    topoFind T k = none ↔ k ∉ node_ids T := by
  induction T with
  | nil => simp [topoFind, node_ids]
  | cons p T ih =>
    obtain ⟨k1, n1⟩ := p
    by_cases h1 : k = k1
    · simp [topoFind, node_ids, h1]
    · simp only [node_ids] at ih
      simp [topoFind, node_ids, h1, ih]

theorem topoFind_of_known {T : Topology} {k : Int} (h : k ∈ node_ids T) :
    ∃ n, topoFind T k = some n := by
  cases hf : topoFind T k with
  | none => exact absurd h ((topoFind_none_iff T k).mp hf)
  | some n => exact ⟨n, rfl⟩

theorem known_of_topoFind {T : Topology} {k : Int} {n : node_t} (h : topoFind T k = some n) :
    k ∈ node_ids T := by
  by_contra hk
  rw [(topoFind_none_iff T k).mpr hk] at h
  cases h

theorem linkCost_some {T : Topology} {a b c : Int} (h : linkCost T a b = some c) :
    ∃ n, topoFind T a = some n ∧ mapFind n.neighbors b = some c := by
  unfold linkCost at h
  cases hf : topoFind T a with
  | none => simp [hf] at h
  | some n =>
    simp only [hf] at h
    exact ⟨n, rfl, h⟩

theorem linkCost_of_find {T : Topology} {a : Int} {n : node_t} (h : topoFind T a = some n)
    (b : Int) : linkCost T a b = mapFind n.neighbors b := by
  simp [linkCost, h]

theorem linkCost_known_left {T : Topology} {a b c : Int} (h : linkCost T a b = some c) :
    a ∈ node_ids T := by
  obtain ⟨n, hn, _⟩ := linkCost_some h
  exact known_of_topoFind hn

theorem linkCost_known_right {T : Topology} (hwf : WellFormed T) {a b c : Int}
    (h : linkCost T a b = some c) : b ∈ node_ids T := by
  obtain ⟨n, hn, hb⟩ := linkCost_some h
  exact (hwf.2 _ (topoFind_some_mem hn)).2 _ (mapFind_some_mem hb)

theorem linkCost_pos {T : Topology} (hpos : Positive T) {a b c : Int}
    (h : linkCost T a b = some c) : 0 < c := by
  obtain ⟨n, hn, hb⟩ := linkCost_some h
  exact hpos _ (topoFind_some_mem hn) _ (mapFind_some_mem hb)

theorem linkCost_symm {T : Topology} (hsym : Symmetric T) {a b c : Int}
    (h : linkCost T a b = some c) : linkCost T b a = some c := by
  obtain ⟨n, hn, hb⟩ := linkCost_some h
  exact hsym _ (topoFind_some_mem hn) _ (mapFind_some_mem hb)

theorem node_ids_nodup {T : Topology} (hwf : WellFormed T) : (node_ids T).Nodup :=
  hwf.1.imp (fun h => ne_of_lt h)

theorem neighbors_nodup {T : Topology} (hwf : WellFormed T) {a : Int} {n : node_t}
    (h : topoFind T a = some n) : (n.neighbors.map Prod.fst).Nodup :=
  (hwf.2 _ (topoFind_some_mem h)).1

/-! ## The scan for the cheapest unfinished node -/

theorem scanStep_facts (N : List Int) (D : List (Int × Int)) (acc p : Int × Int)
    (hp : mapAt D p.1 = p.2) :
    (scanStep N D acc p).2 ≤ acc.2 ∧
    ((scanStep N D acc p).2 = acc.2 → (scanStep N D acc p).1 ≤ acc.1) ∧
    (p.1 ∉ N → (scanStep N D acc p).2 ≤ p.2) ∧
    (p.1 ∉ N → p.2 = (scanStep N D acc p).2 → (scanStep N D acc p).1 ≤ p.1) ∧
    (scanStep N D acc p = acc ∨ (scanStep N D acc p = p ∧ p.1 ∉ N)) := by
  obtain ⟨a1, a2⟩ := acc
  obtain ⟨p1, p2⟩ := p
  simp only at hp
  unfold scanStep
  simp only [hp]
  by_cases hc : p2 ≤ a2 ∧ p1 ∉ N
  · rw [if_pos hc]
    by_cases ht : p2 = a2
    · rw [if_pos ht]
      subst ht
      refine ⟨le_refl _, fun _ => min_le_left _ _, fun _ => le_refl _,
        fun _ _ => min_le_right _ _, ?_⟩
      rcases le_total a1 p1 with h | h
      · left; simp [min_eq_left h]
      · right; exact ⟨by simp [min_eq_right h], hc.2⟩
    · rw [if_neg ht]
      refine ⟨hc.1, fun h => absurd h ht, fun _ => le_refl _, fun _ _ => le_refl _, ?_⟩
      right; exact ⟨rfl, hc.2⟩
  · rw [if_neg hc]
    have hlt : p1 ∉ N → a2 < p2 := fun hn => by
      by_contra hle
      exact hc ⟨not_lt.mp hle, hn⟩
    refine ⟨le_refl _, fun _ => le_refl _, fun hn => le_of_lt (hlt hn), ?_, Or.inl rfl⟩
    intro hn he
    have := hlt hn
    simp only at he
    omega

theorem scan_fold (N : List Int) (D : List (Int × Int)) (L : List (Int × Int))
    (hL : ∀ p ∈ L, mapAt D p.1 = p.2) (acc : Int × Int) :
    (L.foldl (scanStep N D) acc).2 ≤ acc.2 ∧
    ((L.foldl (scanStep N D) acc).2 = acc.2 → (L.foldl (scanStep N D) acc).1 ≤ acc.1) ∧
    (∀ p ∈ L, p.1 ∉ N → (L.foldl (scanStep N D) acc).2 ≤ p.2) ∧
    (∀ p ∈ L, p.1 ∉ N → p.2 = (L.foldl (scanStep N D) acc).2 →
      (L.foldl (scanStep N D) acc).1 ≤ p.1) ∧
    (L.foldl (scanStep N D) acc = acc ∨
      (L.foldl (scanStep N D) acc ∈ L ∧ (L.foldl (scanStep N D) acc).1 ∉ N)) := by
  induction L generalizing acc with
  | nil => simp
  | cons p L ih =>
    have hp := scanStep_facts N D acc p (hL p (List.mem_cons_self _ _))
    have hr := ih (fun q hq => hL q (List.mem_cons_of_mem _ hq)) (scanStep N D acc p)
    simp only [List.foldl_cons]
    obtain ⟨s1, s2, s3, s4, s5⟩ := hp
    obtain ⟨r1, r2, r3, r4, r5⟩ := hr
    refine ⟨le_trans r1 s1, ?_, ?_, ?_, ?_⟩
    · intro he
      have h1 : (scanStep N D acc p).2 = acc.2 := le_antisymm s1 (he ▸ r1)
      exact le_trans (r2 (he.trans h1.symm)) (s2 h1)
    · intro q hq hn
      rcases List.mem_cons.mp hq with rfl | hq
      · exact le_trans r1 (s3 hn)
      · exact r3 q hq hn
    · intro q hq hn he
      rcases List.mem_cons.mp hq with rfl | hq
      · have h1 : q.2 = (scanStep N D acc q).2 := le_antisymm (he ▸ r1) (s3 hn)
        exact le_trans (r2 (he.symm.trans h1)) (s4 hn h1)
      · exact r4 q hq hn he
    · rcases r5 with h | ⟨h, hn⟩
      · rcases s5 with h' | ⟨h', hn'⟩
        · left; rw [h, h']
        · right
          rw [h, h']
          exact ⟨List.mem_cons_self _ _, hn'⟩
      · right; exact ⟨List.mem_cons_of_mem _ h, hn⟩

/-- The scan returns min_cost = INT_MAX or the unfinished pair of D with the least cost
and, among those of that cost, the least identifier, whatever the enumeration order. -/
theorem scan_spec (impl : Impl) (k : Nat) (N : List Int) (D : List (Int × Int))
    (hnd : (D.map Prod.fst).Nodup) :
    (scan impl k N D).2 ≤ INT_MAX ∧
    (∀ v x, v ∉ N → mapFind D v = some x → (scan impl k N D).2 ≤ x) ∧
    ((scan impl k N D).2 ≠ INT_MAX →
      mapFind D (scan impl k N D).1 = some (scan impl k N D).2 ∧
      (scan impl k N D).1 ∉ N ∧
      ∀ v, v ∉ N → mapFind D v = some (scan impl k N D).2 → (scan impl k N D).1 ≤ v) := by
  have hmem : ∀ p, p ∈ impl.order k D ↔ p ∈ D := fun p => (impl.order_perm k D).mem_iff
  have hL : ∀ p ∈ impl.order k D, mapAt D p.1 = p.2 := fun p hp =>
    mapAt_of_find (mapFind_of_mem hnd ((hmem p).mp hp))
  obtain ⟨r1, _, r3, r4, r5⟩ := scan_fold N D (impl.order k D) hL (impl.min_id0, INT_MAX)
  refine ⟨r1, ?_, ?_⟩
  · intro v x hn hf
    exact r3 (v, x) ((hmem _).mpr (mapFind_some_mem hf)) hn
  · intro hne
    rcases r5 with h | ⟨h, hn⟩
    · exact absurd (congrArg Prod.snd h) hne
    · refine ⟨mapFind_of_mem hnd ((hmem _).mp h), hn, ?_⟩
      intro v hv hf
      exact r4 (v, _) ((hmem _).mpr (mapFind_some_mem hf)) hv rfl

/-! ## Seeding, relaxation and marking, key by key -/

theorem seed_fold_D (source : Int) (l : List (Int × Int)) (A B : List (Int × Int))
    (hnd : ((A ++ l).map Prod.fst).Nodup) :
    (l.foldl (seedStep source) (A, B)).1 = A ++ l := by
  induction l generalizing A B with
  | nil => simp
  | cons q l ih =>
    simp only [List.foldl_cons, seedStep]
    have hq : q.1 ∉ A.map Prod.fst := by
      intro hmem
      rw [List.map_append, List.nodup_append] at hnd
      exact hnd.2.2 hmem (by simp)
    rw [mapSet_of_not_mem q.2 hq]
    have : A ++ [(q.1, q.2)] ++ l = A ++ q :: l := by simp
    rw [ih (A ++ [(q.1, q.2)]) _ (by rw [this]; exact hnd), this]

theorem seed_fold_P (source : Int) (l : List (Int × Int)) (A B : List (Int × Int)) (k : Int) :
    mapFind (l.foldl (seedStep source) (A, B)).2 k =
      if k ∈ l.map Prod.fst then some source else mapFind B k := by
  induction l generalizing A B with
  | nil => simp
  | cons q l ih =>
    simp only [List.foldl_cons, seedStep]
    rw [ih]
    by_cases h1 : k ∈ l.map Prod.fst
    · simp [h1]
    · by_cases h2 : k = q.1
      · simp [h2, mapFind_mapSet_self]
      · have h3 : ¬ (k ∈ List.map Prod.fst (q :: l)) := by
          simp only [List.map_cons, List.mem_cons, not_or]
          exact ⟨h2, h1⟩
        rw [if_neg h1, if_neg h3, mapFind_mapSet_other _ _ _ _ h2]

theorem relaxStep_done (N : List Int) (m : Int) (acc : List (Int × Int) × List (Int × Int))
    (p : Int × Int) (h : p.1 ∈ N) : relaxStep N m acc p = acc := by
  simp [relaxStep, h]

theorem relaxStep_other (N : List Int) (m : Int) (acc : List (Int × Int) × List (Int × Int))
    (p : Int × Int) (v : Int) (h : v ≠ p.1) :
    mapFind (relaxStep N m acc p).1 v = mapFind acc.1 v ∧
    mapFind (relaxStep N m acc p).2 v = mapFind acc.2 v := by
  unfold relaxStep
  split
  · split
    · simp only []
      split
      · split
        · exact ⟨rfl, mapFind_mapSet_other _ _ _ _ h⟩
        · exact ⟨rfl, rfl⟩
      · split
        · exact ⟨mapFind_mapSet_other _ _ _ _ h, mapFind_mapSet_other _ _ _ _ h⟩
        · exact ⟨rfl, rfl⟩
    · exact ⟨mapFind_mapSet_other _ _ _ _ h, mapFind_mapSet_other _ _ _ _ h⟩
  · exact ⟨rfl, rfl⟩

theorem relaxStep_at (N : List Int) (m : Int) (acc : List (Int × Int) × List (Int × Int))
    (v c : Int) (h : v ∉ N) :
    (mapFind (relaxStep N m acc (v, c)).1 v, mapFind (relaxStep N m acc (v, c)).2 v) =
      relaxAt (mapAt acc.1 m) m (mapFind acc.1 v) (mapFind acc.2 v) c := by
  unfold relaxStep relaxAt
  simp only [h, not_false_eq_true, if_true]
  cases hd : mapFind acc.1 v with
  | none => simp [mapFind_mapSet_self]
  | some x =>
    simp only []
    by_cases h1 : x = wrap32 (mapAt acc.1 m + c)
    · rw [if_pos h1, if_pos h1]
      by_cases h2 : mapAt acc.2 v > m
      · have h2' : (mapFind acc.2 v).getD 0 > m := h2
        rw [if_pos h2, if_pos h2']
        simp [mapFind_mapSet_self, hd]
      · have h2' : ¬ (mapFind acc.2 v).getD 0 > m := h2
        rw [if_neg h2, if_neg h2']
        simp [hd]
    · rw [if_neg h1, if_neg h1]
      by_cases h2 : x > wrap32 (mapAt acc.1 m + c)
      · rw [if_pos h2, if_pos h2]
        simp [mapFind_mapSet_self]
      · rw [if_neg h2, if_neg h2]
        simp [hd]

theorem relaxStep_keys (N : List Int) (m : Int) (acc : List (Int × Int) × List (Int × Int))
    (p : Int × Int) (h : (acc.1.map Prod.fst).Nodup) :
    ((relaxStep N m acc p).1.map Prod.fst).Nodup := by
  unfold relaxStep
  split
  · split
    · simp only []
      split
      · split <;> exact h
      · split
        · exact keys_mapSet_nodup _ _ h
        · exact h
    · exact keys_mapSet_nodup _ _ h
  · exact h

theorem relax_fold_keys (N : List Int) (m : Int) (nbrs : List (Int × Int))
    (acc : List (Int × Int) × List (Int × Int)) (h : (acc.1.map Prod.fst).Nodup) :
    ((nbrs.foldl (relaxStep N m) acc).1.map Prod.fst).Nodup := by
  induction nbrs generalizing acc with
  | nil => exact h
  | cons q nbrs ih => exact ih _ (relaxStep_keys N m acc q h)

/-- The relaxation loop, key by key: finished nodes and non-neighbours keep their values,
a neighbour gets the values of relaxAt. -/
theorem relax_fold_spec (N : List Int) (m : Int) (hm : m ∈ N) (nbrs : List (Int × Int))
    (hnd : (nbrs.map Prod.fst).Nodup) (acc : List (Int × Int) × List (Int × Int)) (v : Int) :
    (v ∈ N ∨ mapFind nbrs v = none →
      mapFind (nbrs.foldl (relaxStep N m) acc).1 v = mapFind acc.1 v ∧
      mapFind (nbrs.foldl (relaxStep N m) acc).2 v = mapFind acc.2 v) ∧
    (∀ c, v ∉ N → mapFind nbrs v = some c →
      (mapFind (nbrs.foldl (relaxStep N m) acc).1 v,
        mapFind (nbrs.foldl (relaxStep N m) acc).2 v) =
        relaxAt (mapAt acc.1 m) m (mapFind acc.1 v) (mapFind acc.2 v) c) := by
  induction nbrs generalizing acc with
  | nil =>
    refine ⟨fun _ => ⟨rfl, rfl⟩, ?_⟩
    intro c _ hc
    simp [mapFind] at hc
  | cons q nbrs ih =>
    obtain ⟨k, c0⟩ := q
    simp only [List.map_cons, List.nodup_cons] at hnd
    have hrest := ih hnd.2 (relaxStep N m acc (k, c0))
    simp only [List.foldl_cons]
    have hkeep : ∀ u, (u ∈ N ∨ u ≠ k) →
        mapFind (relaxStep N m acc (k, c0)).1 u = mapFind acc.1 u ∧
        mapFind (relaxStep N m acc (k, c0)).2 u = mapFind acc.2 u := by
      intro u hu
      by_cases hk : u = k
      · have hkN : k ∈ N := by
          rcases hu with h | h
          · exact hk ▸ h
          · exact absurd hk h
        rw [relaxStep_done N m acc (k, c0) hkN]
        exact ⟨rfl, rfl⟩
      · exact relaxStep_other N m acc (k, c0) u hk
    constructor
    · intro hv
      have hv1 : v ∈ N ∨ mapFind nbrs v = none := by
        rcases hv with h | h
        · exact Or.inl h
        · right
          by_cases hk : v = k
          · simp [mapFind, hk] at h
          · simpa [mapFind, hk] using h
      have hv2 : v ∈ N ∨ v ≠ k := by
        rcases hv with h | h
        · exact Or.inl h
        · right
          intro hk
          simp [mapFind, hk] at h
      obtain ⟨e1, e2⟩ := hrest.1 hv1
      obtain ⟨f1, f2⟩ := hkeep v hv2
      exact ⟨e1.trans f1, e2.trans f2⟩
    · intro c hvN hc
      by_cases hk : v = k
      · subst hk
        have hc0 : c = c0 := by simpa [mapFind] using hc.symm
        subst hc0
        have hnone : mapFind nbrs v = none := (mapFind_none_iff nbrs v).mpr hnd.1
        obtain ⟨e1, e2⟩ := hrest.1 (Or.inr hnone)
        rw [e1, e2]
        exact relaxStep_at N m acc v c hvN
      · have hc1 : mapFind nbrs v = some c := by simpa [mapFind, hk] using hc
        rw [hrest.2 c hvN hc1]
        obtain ⟨f1, f2⟩ := hkeep v (Or.inr hk)
        obtain ⟨g1, _⟩ := hkeep m (Or.inl hm)
        have g1' : mapAt (relaxStep N m acc (k, c0)).1 m = mapAt acc.1 m := by
          simp only [mapAt, g1]
        rw [f1, f2, g1']

theorem mark_fold (L : List (Int × node_t)) (st : DState) :
    (∃ M, (L.foldl markStep st).N = M ++ st.N ∧
      (∀ v ∈ M, v ∉ st.N ∧ v ∈ L.map Prod.fst ∧ mapAt (L.foldl markStep st).D v = -1 ∧
        mapAt (L.foldl markStep st).P v = -1) ∧
      (st.N.Nodup → (L.foldl markStep st).N.Nodup)) ∧
    (∀ p ∈ L, p.1 ∈ (L.foldl markStep st).N) ∧
    (∀ v ∈ st.N, mapFind (L.foldl markStep st).D v = mapFind st.D v ∧
      mapFind (L.foldl markStep st).P v = mapFind st.P v) := by
  induction L generalizing st with
  | nil => exact ⟨⟨[], by simp⟩, by simp, fun _ _ => ⟨rfl, rfl⟩⟩
  | cons p L ih =>
    simp only [List.foldl_cons]
    obtain ⟨⟨M, hM, hMv, hMnd⟩, hall, hkeep⟩ := ih (markStep st p)
    by_cases hp : p.1 ∈ st.N
    · have hst : markStep st p = st := by simp [markStep, hp]
      rw [hst] at hM hMv hMnd hall hkeep ⊢
      refine ⟨⟨M, hM, fun v hv => ⟨(hMv v hv).1, List.mem_cons_of_mem _ (hMv v hv).2.1,
        (hMv v hv).2.2⟩, hMnd⟩, ?_, hkeep⟩
      intro q hq
      rcases List.mem_cons.mp hq with rfl | hq
      · rw [hM]; exact List.mem_append_right _ hp
      · exact hall q hq
    · have hN : (markStep st p).N = p.1 :: st.N := by simp [markStep, hp, setN]
      have hD : (markStep st p).D = mapSet st.D p.1 (-1) := by simp [markStep, hp]
      have hP : (markStep st p).P = mapSet st.P p.1 (-1) := by simp [markStep, hp]
      have hp1 : p.1 ∈ (markStep st p).N := by rw [hN]; exact List.mem_cons_self _ _
      refine ⟨⟨M ++ [p.1], by rw [hM, hN]; simp, ?_, ?_⟩, ?_, ?_⟩
      · intro v hv
        rcases List.mem_append.mp hv with hv | hv
        · obtain ⟨a, a', b, c⟩ := hMv v hv
          refine ⟨fun h => a (by rw [hN]; exact List.mem_cons_of_mem _ h),
            List.mem_cons_of_mem _ a', b, c⟩
        · have hv : v = p.1 := by simpa using hv
          subst hv
          obtain ⟨e1, e2⟩ := hkeep _ hp1
          refine ⟨hp, List.mem_cons_self _ _, ?_, ?_⟩
          · simp only [mapAt, e1, hD, mapFind_mapSet_self, Option.getD_some]
          · simp only [mapAt, e2, hP, mapFind_mapSet_self, Option.getD_some]
      · intro hnd
        apply hMnd
        rw [hN]
        exact List.nodup_cons.mpr ⟨hp, hnd⟩
      · intro q hq
        rcases List.mem_cons.mp hq with rfl | hq
        · rw [hM]; exact List.mem_append_right _ hp1
        · exact hall q hq
      · intro v hv
        have hv1 : v ∈ (markStep st p).N := by rw [hN]; exact List.mem_cons_of_mem _ hv
        have hne : v ≠ p.1 := fun h => hp (h ▸ hv)
        obtain ⟨e1, e2⟩ := hkeep v hv1
        rw [e1, e2, hD, hP]
        exact ⟨mapFind_mapSet_other _ _ _ _ hne, mapFind_mapSet_other _ _ _ _ hne⟩

/-! ## The main loop: structure of the finished set -/

theorem relaxAt_cases (dm m : Int) (dv pv : Option Int) (c : Int) :
    (relaxAt dm m dv pv c = (some (wrap32 (dm + c)), some m) ∧
      (dv = none ∨ ∃ x, dv = some x ∧ wrap32 (dm + c) < x)) ∨
    (dv = some (wrap32 (dm + c)) ∧
      relaxAt dm m dv pv c = (dv, if pv.getD 0 > m then some m else pv)) ∨
    (∃ x, dv = some x ∧ x < wrap32 (dm + c) ∧ relaxAt dm m dv pv c = (dv, pv)) := by
  cases dv with
  | none => left; exact ⟨rfl, Or.inl rfl⟩
  | some x =>
    unfold relaxAt
    simp only []
    by_cases h1 : x = wrap32 (dm + c)
    · right; left
      rw [if_pos h1]
      refine ⟨by rw [h1], ?_⟩
      split <;> rfl
    · rw [if_neg h1]
      by_cases h2 : x > wrap32 (dm + c)
      · left
        rw [if_pos h2]
        exact ⟨rfl, Or.inr ⟨x, rfl, h2⟩⟩
      · right; right
        rw [if_neg h2]
        exact ⟨x, rfl, lt_of_le_of_ne (not_lt.mp h2) h1, rfl⟩

theorem iterate_select (impl : Impl) (T : Topology) (k : Nat) (st : DState) (node : node_t)
    (hne : (scan impl k st.N st.D).2 ≠ INT_MAX)
    (hN : (scan impl k st.N st.D).1 ∉ st.N)
    (hnode : topoFind T (scan impl k st.N st.D).1 = some node) :
    iterate impl T k st = .ok (relaxed st (scan impl k st.N st.D).1 node) := by
  unfold iterate
  simp only [hne, ne_eq, not_false_eq_true, if_true, hnode, setN, hN, if_false, relaxed]

theorem iterate_mark (impl : Impl) (T : Topology) (k : Nat) (st : DState)
    (he : (scan impl k st.N st.D).2 = INT_MAX) :
    iterate impl T k st = .ok (T.foldl markStep st) := by
  unfold iterate
  simp [he]

theorem relaxed_keep {T : Topology} (hwf : WellFormed T) (st : DState) (m : Int)
    (node : node_t) (hnode : topoFind T m = some node) (v : Int)
    (hv : v ∈ m :: st.N ∨ linkCost T m v = none) :
    mapFind (relaxed st m node).D v = mapFind st.D v ∧
    mapFind (relaxed st m node).P v = mapFind st.P v := by
  rw [linkCost_of_find hnode] at hv
  exact (relax_fold_spec (m :: st.N) m (List.mem_cons_self _ _) node.neighbors
    (neighbors_nodup hwf hnode) (st.D, st.P) v).1 hv

theorem relaxed_nbr {T : Topology} (hwf : WellFormed T) (st : DState) (m : Int)
    (node : node_t) (hnode : topoFind T m = some node) (v c : Int)
    (hv : v ∉ m :: st.N) (hc : linkCost T m v = some c) :
    (mapFind (relaxed st m node).D v, mapFind (relaxed st m node).P v) =
      relaxAt (mapAt st.D m) m (mapFind st.D v) (mapFind st.P v) c := by
  rw [linkCost_of_find hnode] at hc
  exact (relax_fold_spec (m :: st.N) m (List.mem_cons_self _ _) node.neighbors
    (neighbors_nodup hwf hnode) (st.D, st.P) v).2 c hv hc

theorem mapAt_congr {m1 m2 : List (Int × Int)} {k : Int} (h : mapFind m1 k = mapFind m2 k) :
    mapAt m1 k = mapAt m2 k := by
  simp only [mapAt, h]

theorem Tree.cons {T : Topology} {s : Int} {P P1 : List (Int × Int)} {R : List Int}
    (h : Tree T s P R) (m : Int) (hm : m ∉ R) (hk : m ∈ node_ids T)
    (hkeep : ∀ v ∈ m :: R, mapAt P1 v = mapAt P v) (hp : mapAt P m ∈ R) :
    Tree T s P1 (m :: R) := by
  refine ⟨List.nodup_cons.mpr ⟨hm, h.nodup⟩, ?_, List.mem_cons_of_mem _ h.src, ?_⟩
  · intro v hv
    rcases List.mem_cons.mp hv with rfl | hv
    · exact hk
    · exact h.known v hv
  · intro pre v rest hdec hvs
    cases pre with
    | nil =>
      simp only [List.nil_append, List.cons.injEq] at hdec
      obtain ⟨rfl, rfl⟩ := hdec
      rw [hkeep _ (List.mem_cons_self _ _)]
      exact hp
    | cons a pre =>
      simp only [List.cons_append, List.cons.injEq] at hdec
      obtain ⟨rfl, hR⟩ := hdec
      have hvR : v ∈ R := by rw [hR]; simp
      rw [hkeep v (List.mem_cons_of_mem _ hvR)]
      exact h.prev pre v rest hR hvs

theorem Tree.congr {T : Topology} {s : Int} {P P1 : List (Int × Int)} {R : List Int}
    (h : Tree T s P R) (hkeep : ∀ v ∈ R, mapAt P1 v = mapAt P v) : Tree T s P1 R := by
  refine ⟨h.nodup, h.known, h.src, ?_⟩
  intro pre v rest hdec hvs
  have hvR : v ∈ R := by rw [hdec]; simp
  rw [hkeep v hvR]
  exact h.prev pre v rest hdec hvs

theorem SInv_select {T : Topology} (hwf : WellFormed T) {s : Int} {st : DState}
    (hI : SInv T s st) (impl : Impl) (k : Nat)
    (hne : (scan impl k st.N st.D).2 ≠ INT_MAX) :
    ∃ node, topoFind T (scan impl k st.N st.D).1 = some node ∧
      iterate impl T k st = .ok (relaxed st (scan impl k st.N st.D).1 node) ∧
      SInv T s (relaxed st (scan impl k st.N st.D).1 node) := by
  obtain ⟨hmD, hmN, _⟩ := (scan_spec impl k st.N st.D hI.keysD).2.2 hne
  have hit := fun node => iterate_select impl T k st node hne hmN
  generalize (scan impl k st.N st.D).1 = m at *
  obtain ⟨hmk, hmP⟩ := hI.front m hmN (by rw [hmD]; simp)
  obtain ⟨node, hnode⟩ := topoFind_of_known hmk
  refine ⟨node, hnode, hit node hnode, ?_, ?_, ?_⟩
  · apply Tree.cons hI.tree m hmN hmk _ hmP
    intro v hv
    exact mapAt_congr (relaxed_keep hwf st m node hnode v (Or.inl hv)).2
  · exact relax_fold_keys _ _ _ _ hI.keysD
  · intro v hv hD
    have hvN : v ∉ st.N := fun h => hv (List.mem_cons_of_mem _ h)
    cases hl : linkCost T m v with
    | none =>
      obtain ⟨e1, e2⟩ := relaxed_keep hwf st m node hnode v (Or.inr hl)
      rw [e1] at hD
      obtain ⟨a, b⟩ := hI.front v hvN hD
      exact ⟨a, by rw [mapAt_congr e2]; exact List.mem_cons_of_mem _ b⟩
    | some c =>
      have hvk : v ∈ node_ids T := linkCost_known_right hwf hl
      refine ⟨hvk, ?_⟩
      have hr := relaxed_nbr hwf st m node hnode v c hv hl
      rcases relaxAt_cases (mapAt st.D m) m (mapFind st.D v) (mapFind st.P v) c with
        ⟨h, _⟩ | ⟨hd, h⟩ | ⟨x, hd, _, h⟩
      · rw [h] at hr
        have e2 : mapFind (relaxed st m node).P v = some m := (Prod.mk.inj hr).2
        simp only [mapAt, e2, Option.getD_some]
        exact List.mem_cons_self _ _
      · rw [h] at hr
        have e2 := (Prod.mk.inj hr).2
        obtain ⟨_, b⟩ := hI.front v hvN (by rw [hd]; simp)
        by_cases hgt : (mapFind st.P v).getD 0 > m
        · rw [if_pos hgt] at e2
          simp only [mapAt, e2, Option.getD_some]
          exact List.mem_cons_self _ _
        · rw [if_neg hgt] at e2
          rw [mapAt_congr e2]
          exact List.mem_cons_of_mem _ b
      · rw [h] at hr
        have e2 := (Prod.mk.inj hr).2
        obtain ⟨_, b⟩ := hI.front v hvN (by rw [hd]; simp)
        rw [mapAt_congr e2]
        exact List.mem_cons_of_mem _ b

theorem mainLoop_done (impl : Impl) (T : Topology) (fuel : Nat) (st : DState)
    (h : ¬ st.N.length < T.length) : mainLoop impl T fuel st = .ok st := by
  cases fuel <;> simp [mainLoop, h]

/-- Induction over the main loop: an invariant I kept by every selection, and a property F
that holds after the marking and when the loop ends without one. -/
theorem mainLoop_induct (impl : Impl) (T : Topology) (I F : DState → Prop)
    (hsel : ∀ k st, I st → st.N.length < T.length → (scan impl k st.N st.D).2 ≠ INT_MAX →
      ∃ st1, iterate impl T k st = .ok st1 ∧ I st1 ∧ st1.N.length = st.N.length + 1)
    (hmark : ∀ k st, I st → st.N.length < T.length → (scan impl k st.N st.D).2 = INT_MAX →
      F (T.foldl markStep st) ∧ T.length ≤ (T.foldl markStep st).N.length)
    (hexit : ∀ st, I st → ¬ st.N.length < T.length → F st) :
    ∀ fuel st, I st → T.length ≤ fuel + st.N.length →
      ∃ st1, mainLoop impl T fuel st = .ok st1 ∧ F st1 := by
  intro fuel
  induction fuel with
  | zero =>
    intro st hI hlen
    have hn : ¬ st.N.length < T.length := by omega
    exact ⟨st, mainLoop_done impl T 0 st hn, hexit st hI hn⟩
  | succ fuel ih =>
    intro st hI hlen
    by_cases hn : st.N.length < T.length
    · by_cases hs : (scan impl fuel st.N st.D).2 = INT_MAX
      · obtain ⟨hF, hl⟩ := hmark fuel st hI hn hs
        refine ⟨T.foldl markStep st, ?_, hF⟩
        simp only [mainLoop, hn, if_true, iterate_mark impl T fuel st hs]
        exact mainLoop_done impl T fuel _ (by omega)
      · obtain ⟨st1, hit, hI1, hl1⟩ := hsel fuel st hI hn hs
        obtain ⟨st2, hml, hF⟩ := ih st1 hI1 (by omega)
        refine ⟨st2, ?_, hF⟩
        simp only [mainLoop, hn, if_true, hit]
        exact hml
    · exact ⟨st, mainLoop_done impl T _ st hn, hexit st hI hn⟩

theorem known_subset_of_full {T : Topology} {R : List Int} (hnd : R.Nodup)
    (hk : ∀ v ∈ R, v ∈ node_ids T) (hlen : ¬ R.length < T.length) :
    ∀ v ∈ node_ids T, v ∈ R := by
  have hsp : List.Subperm R (node_ids T) := List.subperm_of_subset hnd hk
  have hperm : List.Perm R (node_ids T) :=
    hsp.perm_of_length_le (by simp only [node_ids, List.length_map]; omega)
  intro v hv
  exact hperm.mem_iff.mpr hv

theorem length_le_of_known {T : Topology} {R : List Int} (hnd : R.Nodup)
    (hk : ∀ v ∈ R, v ∈ node_ids T) : R.length ≤ T.length := by
  have hsp : List.Subperm R (node_ids T) := List.subperm_of_subset hnd hk
  simpa [node_ids] using hsp.length_le

theorem SFinal_of_mark {T : Topology} (hwf : WellFormed T) {s : Int} {st : DState}
    (hI : SInv T s st) :
    SFinal T s (T.foldl markStep st) st.N ∧ T.length ≤ (T.foldl markStep st).N.length := by
  obtain ⟨⟨M, hM, hMv, _⟩, hall, hkeep⟩ := mark_fold T st
  refine ⟨⟨hI.tree.congr fun v hv => mapAt_congr (hkeep v hv).2, ?_⟩, ?_⟩
  · intro v hv hvN
    obtain ⟨p, hp, rfl⟩ := List.mem_map.mp hv
    have hmem := hall p hp
    rw [hM] at hmem
    rcases List.mem_append.mp hmem with h | h
    · exact (hMv _ h).2.2
    · exact absurd h hvN
  · have hsp : List.Subperm (node_ids T) (T.foldl markStep st).N :=
      List.subperm_of_subset (node_ids_nodup hwf) (by
        intro v hv
        obtain ⟨p, hp, rfl⟩ := List.mem_map.mp hv
        exact hall p hp)
    simpa [node_ids] using hsp.length_le

theorem SFinal_of_exit {T : Topology} {s : Int} {st : DState}
    (hI : SInv T s st) (hlen : ¬ st.N.length < T.length) : SFinal T s st st.N :=
  ⟨hI.tree, fun v hv hvN =>
    absurd (known_subset_of_full hI.tree.nodup hI.tree.known hlen v hv) hvN⟩

/-- The main loop ends, for every well-formed topology, in a state whose finished nodes
are a tree of reached nodes followed by the nodes marked unreachable. -/
theorem mainLoop_total {T : Topology} (hwf : WellFormed T) (impl : Impl) (s : Int)
    (fuel : Nat) (st : DState) (hI : SInv T s st) (hlen : T.length ≤ fuel + st.N.length) :
    ∃ st1, mainLoop impl T fuel st = .ok st1 ∧ ∃ R, SFinal T s st1 R := by
  refine mainLoop_induct impl T (SInv T s) (fun st1 => ∃ R, SFinal T s st1 R) ?_ ?_ ?_
    fuel st hI hlen
  · intro k st hI _ hne
    obtain ⟨node, _, hit, hI1⟩ := SInv_select hwf hI impl k hne
    exact ⟨_, hit, hI1, rfl⟩
  · intro k st hI _ _
    exact ⟨⟨st.N, (SFinal_of_mark hwf hI).1⟩, (SFinal_of_mark hwf hI).2⟩
  · intro st hI hn
    exact ⟨st.N, SFinal_of_exit hI hn⟩

/-! ## The initial state and the table-filling loop -/

theorem initState_N (s : Int) (node : node_t) : (initState s node).N = [s] := by
  simp [initState, setN]

theorem initState_D {T : Topology} (hwf : WellFormed T) {s : Int} {node : node_t}
    (hnode : topoFind T s = some node) : (initState s node).D = node.neighbors := by
  have h := seed_fold_D s node.neighbors [] [] (by simpa using neighbors_nodup hwf hnode)
  simpa [initState] using h

theorem initState_P (s : Int) (node : node_t) (k : Int) :
    mapFind (initState s node).P k =
      if k ∈ node.neighbors.map Prod.fst then some s else none := by
  have h := seed_fold_P s node.neighbors [] [] k
  simpa [initState, mapFind] using h

theorem SInv_init {T : Topology} (hwf : WellFormed T) {s : Int} {node : node_t}
    (hnode : topoFind T s = some node) : SInv T s (initState s node) := by
  refine ⟨⟨?_, ?_, ?_, ?_⟩, ?_, ?_⟩
  · rw [initState_N]; exact List.nodup_singleton s
  · intro v hv
    rw [initState_N] at hv
    have : v = s := by simpa using hv
    rw [this]
    exact known_of_topoFind hnode
  · rw [initState_N]; exact List.mem_singleton_self s
  · intro pre v rest hdec hvs
    rw [initState_N] at hdec
    cases pre with
    | nil =>
      simp only [List.nil_append, List.cons.injEq] at hdec
      exact absurd hdec.1.symm hvs
    | cons a pre => simp at hdec
  · rw [initState_D hwf hnode]; exact neighbors_nodup hwf hnode
  · intro v _ hD
    rw [initState_D hwf hnode] at hD
    have hmem : v ∈ node.neighbors.map Prod.fst := by
      by_contra h
      exact hD ((mapFind_none_iff _ _).mpr h)
    obtain ⟨q, hq, rfl⟩ := List.mem_map.mp hmem
    refine ⟨(hwf.2 _ (topoFind_some_mem hnode)).2 q hq, ?_⟩
    have hP := initState_P s node q.1
    rw [if_pos hmem] at hP
    simp only [mapAt, hP, Option.getD_some, initState_N, List.mem_singleton]

theorem hopLoop_tree {T : Topology} {s : Int} {P : List (Int × Int)} {R : List Int}
    (htree : Tree T s P R) :
    ∀ fuel pre v rest nh, R = pre ++ v :: rest → rest.length ≤ fuel →
      ∃ h, hopLoop P s fuel v nh = .ok h ∧ (v = s → h = nh) ∧ (v ≠ s → Chain P s h v) := by
  intro fuel
  induction fuel with
  | zero =>
    intro pre v rest nh hdec hlen
    have hrest : rest = [] := List.eq_nil_of_length_eq_zero (by omega)
    have hv : v = s := by
      by_contra hvs
      have := htree.prev pre v rest hdec hvs
      rw [hrest] at this
      simp at this
    exact ⟨nh, by simp [hopLoop, hv], fun _ => rfl, fun h => absurd hv h⟩
  | succ fuel ih =>
    intro pre v rest nh hdec hlen
    by_cases hv : v = s
    · exact ⟨nh, by simp [hopLoop, hv], fun _ => rfl, fun h => absurd hv h⟩
    · have hu := htree.prev pre v rest hdec hv
      obtain ⟨a, b, hab⟩ := List.append_of_mem hu
      have hdec1 : R = (pre ++ v :: a) ++ mapAt P v :: b := by
        rw [hdec, hab]; simp
      have hlen1 : b.length ≤ fuel := by
        rw [hab] at hlen
        simp only [List.length_append, List.length_cons] at hlen
        omega
      obtain ⟨h, hh, hs1, hs2⟩ := ih (pre ++ v :: a) (mapAt P v) b
        (if mapAt P v = s then v else nh) hdec1 hlen1
      refine ⟨h, ?_, fun h' => absurd h' hv, fun _ => ?_⟩
      · simp only [hopLoop, ne_eq, hv, not_false_eq_true, if_true]
        exact hh
      · by_cases hus : mapAt P v = s
        · have : h = v := by rw [hs1 hus, if_pos hus]
          rw [this]
          exact Chain.base v hv hus
        · exact Chain.step h (mapAt P v) v (hs2 hus) hv rfl

/-- For a state in which the main loop has ended, every entry is filled, and its
next hop is the node found by following P back to the source. -/
theorem fillEntry_spec {T : Topology} {s : Int} {st : DState} {R : List Int}
    (hF : SFinal T s st R) (impl : Impl) (d : Int) (hd : d ∈ node_ids T) :
    ∃ e, fillEntry impl T.length s st d = .ok e ∧ e.dest = d ∧
      (d = s → e.next_hop = s ∧ e.path_cost = 0) ∧
      (d ≠ s → e.path_cost = mapAt st.D d ∧
        (mapAt st.P d = s → e.next_hop = d) ∧
        (mapAt st.P d ≠ s → mapAt st.P d = -1 → e.next_hop = -1) ∧
        (mapAt st.P d ≠ s → mapAt st.P d ≠ -1 → Chain st.P s e.next_hop (mapAt st.P d))) := by
  by_cases hds : d = s
  · exact ⟨⟨d, s, 0⟩, by simp [fillEntry, hds], rfl, fun _ => ⟨rfl, rfl⟩,
      fun h => absurd hds h⟩
  · by_cases hp : mapAt st.P d = s
    · exact ⟨⟨d, d, mapAt st.D d⟩, by simp [fillEntry, hds, hp], rfl,
        fun h => absurd h hds,
        fun _ => ⟨rfl, fun _ => rfl, fun h => absurd hp h, fun h => absurd hp h⟩⟩
    · by_cases hm : mapAt st.P d = -1
      · have hs1 : ¬ ((-1 : Int) = s) := hm ▸ hp
        exact ⟨⟨d, -1, mapAt st.D d⟩, by simp [fillEntry, hds, hm, hs1], rfl,
          fun h => absurd h hds,
          fun _ => ⟨rfl, fun h => absurd h hp, fun _ _ => rfl, fun _ h => absurd hm h⟩⟩
      · have hdR : d ∈ R := by
          by_contra hn
          exact hm (hF.rest d hd hn).2
        obtain ⟨pre, rest, hdec⟩ := List.append_of_mem hdR
        have hu := hF.tree.prev pre d rest hdec hds
        obtain ⟨a, b, hab⟩ := List.append_of_mem hu
        have hdec1 : R = (pre ++ d :: a) ++ mapAt st.P d :: b := by
          rw [hdec, hab]; simp
        have hlenR := length_le_of_known hF.tree.nodup hF.tree.known
        have hlen1 : b.length ≤ T.length := by
          rw [hdec1] at hlenR
          simp only [List.length_append, List.length_cons] at hlenR
          omega
        obtain ⟨h, hh, _, hs2⟩ := hopLoop_tree hF.tree T.length (pre ++ d :: a)
          (mapAt st.P d) b impl.next_hop0 hdec1 hlen1
        refine ⟨⟨d, h, mapAt st.D d⟩, by simp [fillEntry, hds, hp, hm, hh], rfl,
          fun h => absurd h hds,
          fun _ => ⟨rfl, fun h => absurd h hp, fun _ h => absurd h hm, fun _ _ => hs2 hp⟩⟩

theorem fillEntry_dest (impl : Impl) (fuel : Nat) (s : Int) (st : DState) (d : Int)
    (e : entry_t) (h : fillEntry impl fuel s st d = .ok e) : e.dest = d := by
  unfold fillEntry at h
  split at h
  · cases h; rfl
  · simp only [] at h
    split at h
    · cases h; rfl
    · split at h
      · cases h; rfl
      · split at h
        · cases h
        · cases h; rfl

theorem fillTable_spec {T : Topology} {s : Int} {st : DState} {R : List Int}
    (hF : SFinal T s st R) (impl : Impl) (L : List (Int × node_t))
    (hL : ∀ p ∈ L, p.1 ∈ node_ids T) :
    ∃ table, fillTable impl T.length s st L = .ok table ∧
      table.map (·.dest) = L.map Prod.fst ∧
      ∀ e ∈ table, fillEntry impl T.length s st e.dest = .ok e := by
  induction L with
  | nil => exact ⟨[], rfl, rfl, by simp⟩
  | cons p L ih =>
    obtain ⟨table, ht, hmap, hall⟩ := ih (fun q hq => hL q (List.mem_cons_of_mem _ hq))
    obtain ⟨e, he, hed, _⟩ := fillEntry_spec hF impl p.1 (hL p (List.mem_cons_self _ _))
    refine ⟨e :: table, by simp [fillTable, he, ht], by simp [hmap, hed], ?_⟩
    intro e' he'
    rcases List.mem_cons.mp he' with rfl | he'
    · rw [hed]; exact he
    · exact hall e' he'

theorem Dijkstra_isolated {T : Topology} (hwf : WellFormed T) (impl : Impl) {s : Int}
    {node : node_t} (hnode : topoFind T s = some node) (hiso : node.neighbors = []) :
    Dijkstra impl T s = .ok (isolatedTable T s) := by
  unfold Dijkstra
  simp only [hnode, initState_D hwf hnode, hiso, List.length_nil, if_true]

theorem Dijkstra_linked {T : Topology} (hwf : WellFormed T) (impl : Impl) {s : Int}
    {node : node_t} (hnode : topoFind T s = some node) (hlink : node.neighbors ≠ [])
    {st : DState} (hloop : mainLoop impl T T.length (initState s node) = .ok st) :
    Dijkstra impl T s = fillTable impl T.length s st T := by
  unfold Dijkstra
  have hlen : ¬ node.neighbors.length = 0 := fun h => hlink (List.eq_nil_of_length_eq_zero h)
  simp only [hnode, initState_D hwf hnode, hlen, if_false, hloop]

theorem isolatedTable_dest (T : Topology) (s : Int) :
    (isolatedTable T s).map (·.dest) = node_ids T := by
  simp only [isolatedTable, node_ids, List.map_map]
  apply List.map_congr_left
  intro p _
  simp only [Function.comp]
  split <;> rfl

theorem initState_fuel {T : Topology} (s : Int) (node : node_t) :
    T.length ≤ T.length + (initState s node).N.length := by omega

/-- Dijkstra returns a table for every well-formed topology and known source, with one
entry per known node in ascending order of the identifiers. -/
theorem Dijkstra_total {T : Topology} (hwf : WellFormed T) (impl : Impl) {s : Int}
    (hs : s ∈ node_ids T) :
    ∃ table, Dijkstra impl T s = .ok table ∧ table.map (·.dest) = node_ids T := by
  obtain ⟨node, hnode⟩ := topoFind_of_known hs
  by_cases hiso : node.neighbors = []
  · exact ⟨_, Dijkstra_isolated hwf impl hnode hiso, isolatedTable_dest T s⟩
  · obtain ⟨st, hloop, R, hF⟩ := mainLoop_total hwf impl s T.length (initState s node)
      (SInv_init hwf hnode) (initState_fuel s node)
    obtain ⟨table, ht, hmap, _⟩ := fillTable_spec hF impl T
      (fun p hp => List.mem_map.mpr ⟨p, hp, rfl⟩)
    exact ⟨table, by rw [Dijkstra_linked hwf impl hnode hiso hloop]; exact ht, hmap⟩

/-! ## Paths -/

theorem wrap32_id {x : Int} (h0 : 0 ≤ x) (h1 : x < INT_MAX) : wrap32 x = x := by
  unfold wrap32
  unfold INT_MAX at h1
  omega

theorem pathCost_cons_cons {T : Topology} {a b : Int} {rest : List Int} {k : Int}
    (h : pathCost T (a :: b :: rest) = some k) :
    ∃ c k1, linkCost T a b = some c ∧ pathCost T (b :: rest) = some k1 ∧ k = c + k1 := by
  simp only [pathCost] at h
  cases hc : linkCost T a b with
  | none => simp [hc] at h
  | some c =>
    cases hk : pathCost T (b :: rest) with
    | none => simp [hc, hk] at h
    | some k1 =>
      simp only [hc, hk, Option.some.injEq] at h
      exact ⟨c, k1, rfl, rfl, h.symm⟩

theorem pathCost_cons_of {T : Topology} {a b : Int} {rest : List Int} {c k1 : Int}
    (hc : linkCost T a b = some c) (hk : pathCost T (b :: rest) = some k1) :
    pathCost T (a :: b :: rest) = some (c + k1) := by
  simp only [pathCost, hc, hk]

theorem pathCost_nonneg {T : Topology} (hpos : Positive T) :
    ∀ (l : List Int) (k : Int), pathCost T l = some k → 0 ≤ k := by
  intro l
  induction l with
  | nil => intro k h; simp [pathCost] at h
  | cons a l ih =>
    intro k h
    cases l with
    | nil =>
      simp only [pathCost, Option.some.injEq] at h
      omega
    | cons b rest =>
      obtain ⟨c, k1, hc, hk, rfl⟩ := pathCost_cons_cons h
      have := ih k1 hk
      have := linkCost_pos hpos hc
      omega

theorem pathCost_snoc {T : Topology} :
    ∀ (l : List Int) (k u v c : Int), pathCost T l = some k → l.getLast? = some u →
      linkCost T u v = some c → pathCost T (l ++ [v]) = some (k + c) := by
  intro l
  induction l with
  | nil => intro k u v c h; simp [pathCost] at h
  | cons a l ih =>
    intro k u v c h hlast hc
    cases l with
    | nil =>
      simp only [List.getLast?_singleton, Option.some.injEq] at hlast
      subst hlast
      simp only [pathCost, Option.some.injEq] at h
      subst h
      have : pathCost T [v] = some 0 := rfl
      simpa using pathCost_cons_of hc this
    | cons b rest =>
      obtain ⟨c1, k1, hc1, hk1, rfl⟩ := pathCost_cons_cons h
      have hlast1 : (b :: rest).getLast? = some u := by
        simpa [List.getLast?_cons_cons] using hlast
      have := ih k1 u v c hk1 hlast1 hc
      have h2 := @pathCost_cons_of T a b (rest ++ [v]) c1 _ hc1 this
      simpa [add_assoc] using h2

theorem head_snoc {l : List Int} {s : Int} (h : l.head? = some s) (v : Int) :
    (l ++ [v]).head? = some s := by
  cases l with
  | nil => simp at h
  | cons a l => simpa using h

theorem last_snoc (l : List Int) (v : Int) : (l ++ [v]).getLast? = some v := by
  simp

/-! ## The main loop: costs -/

theorem Tree.prev_mem {T : Topology} {s : Int} {P : List (Int × Int)} {R : List Int}
    (h : Tree T s P R) {v : Int} (hv : v ∈ R) (hvs : v ≠ s) : mapAt P v ∈ R := by
  obtain ⟨pre, rest, hdec⟩ := List.append_of_mem hv
  have := h.prev pre v rest hdec hvs
  rw [hdec]
  exact List.mem_append_right _ (List.mem_cons_of_mem _ this)

/-- The path of the tree from the source to a node of R: it repeats no node, stays among
the nodes finished no later than its end, and costs what D holds for the end. -/
theorem tree_path {T : Topology} {s : Int} {D P : List (Int × Int)} {R : List Int}
    (htree : Tree T s P R) (hcost : TreeCost T s D P R) :
    ∀ n pre v rest, R = pre ++ v :: rest → rest.length ≤ n →
      ∃ l, l.head? = some s ∧ l.getLast? = some v ∧ l.Nodup ∧ (∀ a ∈ l, a ∈ v :: rest) ∧
        pathCost T l = some (dist0 s D v) := by
  intro n
  induction n with
  | zero =>
    intro pre v rest hdec hlen
    have hrest : rest = [] := List.eq_nil_of_length_eq_zero (by omega)
    have hv : v = s := by
      by_contra hvs
      have := htree.prev pre v rest hdec hvs
      rw [hrest] at this
      simp at this
    subst hv
    exact ⟨[v], rfl, rfl, List.nodup_singleton v, by simp, by simp [pathCost, dist0]⟩
  | succ n ih =>
    intro pre v rest hdec hlen
    by_cases hv : v = s
    · subst hv
      exact ⟨[v], rfl, rfl, List.nodup_singleton v, by simp, by simp [pathCost, dist0]⟩
    · have hu := htree.prev pre v rest hdec hv
      obtain ⟨a, b, hab⟩ := List.append_of_mem hu
      have hdec1 : R = (pre ++ v :: a) ++ mapAt P v :: b := by
        rw [hdec, hab]; simp
      have hlen1 : b.length ≤ n := by
        rw [hab] at hlen
        simp only [List.length_append, List.length_cons] at hlen
        omega
      obtain ⟨l, hh, hl, hnd, hsub, hpc⟩ := ih (pre ++ v :: a) (mapAt P v) b hdec1 hlen1
      have hvR : v ∈ R := by rw [hdec]; simp
      obtain ⟨c, hc, hD⟩ := hcost v hvR hv
      have hsub1 : ∀ x ∈ l, x ∈ rest := by
        intro x hx
        rw [hab]
        exact List.mem_append_right _ (hsub x hx)
      have hvrest : v ∉ rest := by
        have hnd := htree.nodup
        rw [hdec] at hnd
        exact (List.nodup_cons.mp (List.nodup_append.mp hnd).2.1).1
      refine ⟨l ++ [v], head_snoc hh v, last_snoc l v, ?_, ?_, ?_⟩
      · refine List.Nodup.append hnd (List.nodup_singleton v) ?_
        intro x hx hx'
        have : x = v := by simpa using hx'
        exact hvrest (this ▸ hsub1 x hx)
      · intro x hx
        rcases List.mem_append.mp hx with h | h
        · exact List.mem_cons_of_mem _ (hsub1 x h)
        · have : x = v := by simpa using h
          rw [this]; exact List.mem_cons_self _ _
      · rw [pathCost_snoc l _ _ v c hpc hl hc]
        simp only [dist0, hv, if_false, hD]

theorem tree_path_mem {T : Topology} {s : Int} {D P : List (Int × Int)} {R : List Int}
    (htree : Tree T s P R) (hcost : TreeCost T s D P R) {v : Int} (hv : v ∈ R) :
    ∃ l, l.head? = some s ∧ l.getLast? = some v ∧ l.Nodup ∧ (∀ a ∈ l, a ∈ R) ∧
      pathCost T l = some (dist0 s D v) := by
  obtain ⟨pre, rest, hdec⟩ := List.append_of_mem hv
  obtain ⟨l, h1, h2, h3, h4, h5⟩ := tree_path htree hcost rest.length pre v rest hdec
    (le_refl _)
  refine ⟨l, h1, h2, h3, ?_, h5⟩
  intro a ha
  rw [hdec]
  exact List.mem_append_right _ (h4 a ha)

/-- The path to an unfinished node that has a cost: the tree path to its previous node
and the link from there. -/
theorem front_path {T : Topology} {s : Int} {st : DState} (hS : SInv T s st)
    (hC : CInv T s st) {v x : Int} (hv : v ∉ st.N) (hx : mapFind st.D v = some x) :
    ∃ l, l.head? = some s ∧ l.getLast? = some v ∧ l.Nodup ∧ (∀ a ∈ l, a ∈ v :: st.N) ∧
      pathCost T l = some x := by
  obtain ⟨c, hc, hD⟩ := hC.frontCost v hv x hx
  have hu := (hS.front v hv (by rw [hx]; simp)).2
  obtain ⟨l, h1, h2, h3, h4, h5⟩ := tree_path_mem hS.tree hC.treeCost hu
  refine ⟨l ++ [v], head_snoc h1 v, last_snoc l v, ?_, ?_, ?_⟩
  · refine List.Nodup.append h3 (List.nodup_singleton v) ?_
    intro a ha ha'
    have : a = v := by simpa using ha'
    exact hv (this ▸ h4 a ha)
  · intro a ha
    rcases List.mem_append.mp ha with h | h
    · exact List.mem_cons_of_mem _ (h4 a h)
    · have : a = v := by simpa using h
      rw [this]; exact List.mem_cons_self _ _
  · rw [pathCost_snoc l _ _ v c h5 h2 hc, hD]

/-- The values of an unfinished node after a relaxation: either they are kept, and then a
link from m does not give a lower cost, or the node is re-homed to m. -/
theorem relaxed_cases {T : Topology} (hwf : WellFormed T) (st : DState) (m : Int)
    (node : node_t) (hnode : topoFind T m = some node) (v : Int) (hv : v ∉ m :: st.N) :
    (mapFind (relaxed st m node).D v = mapFind st.D v ∧
      mapFind (relaxed st m node).P v = mapFind st.P v ∧
      ∀ c, linkCost T m v = some c → ∃ x, mapFind st.D v = some x ∧
        x ≤ wrap32 (mapAt st.D m + c) ∧
        (x = wrap32 (mapAt st.D m + c) → mapAt st.P v ≤ m)) ∨
    (∃ c, linkCost T m v = some c ∧
      mapFind (relaxed st m node).D v = some (wrap32 (mapAt st.D m + c)) ∧
      mapFind (relaxed st m node).P v = some m ∧
      ∀ x, mapFind st.D v = some x → wrap32 (mapAt st.D m + c) < x ∨
        (wrap32 (mapAt st.D m + c) = x ∧ m < mapAt st.P v)) := by
  cases hl : linkCost T m v with
  | none =>
    left
    obtain ⟨e1, e2⟩ := relaxed_keep hwf st m node hnode v (Or.inr hl)
    exact ⟨e1, e2, fun c hc => by cases hc⟩
  | some c =>
    have hr := relaxed_nbr hwf st m node hnode v c hv hl
    rcases relaxAt_cases (mapAt st.D m) m (mapFind st.D v) (mapFind st.P v) c with
      ⟨h, hdv⟩ | ⟨hd, h⟩ | ⟨x, hd, hlt, h⟩
    · right
      rw [h] at hr
      refine ⟨c, rfl, (Prod.mk.inj hr).1, (Prod.mk.inj hr).2, ?_⟩
      intro x hx
      rcases hdv with h0 | ⟨y, hy, hlt⟩
      · rw [h0] at hx; cases hx
      · rw [hy] at hx
        cases hx
        exact Or.inl hlt
    · rw [h] at hr
      by_cases hgt : (mapFind st.P v).getD 0 > m
      · right
        rw [if_pos hgt] at hr
        refine ⟨c, rfl, by rw [(Prod.mk.inj hr).1, hd], (Prod.mk.inj hr).2, ?_⟩
        intro x hx
        rw [hd] at hx
        cases hx
        exact Or.inr ⟨rfl, hgt⟩
      · left
        rw [if_neg hgt] at hr
        refine ⟨(Prod.mk.inj hr).1, (Prod.mk.inj hr).2, ?_⟩
        intro c' hc'
        cases hc'
        exact ⟨_, hd, le_refl _, fun _ => not_lt.mp hgt⟩
    · left
      rw [h] at hr
      refine ⟨(Prod.mk.inj hr).1, (Prod.mk.inj hr).2, ?_⟩
      intro c' hc'
      cases hc'
      exact ⟨x, hd, le_of_lt hlt, fun he => absurd he (ne_of_lt hlt)⟩

theorem dist0_congr {s : Int} {D1 D2 : List (Int × Int)} {v : Int}
    (h : mapFind D1 v = mapFind D2 v) : dist0 s D1 v = dist0 s D2 v := by
  simp only [dist0, mapAt_congr h]

/-- A selection keeps the cost invariant. -/
theorem CInv_select {T : Topology} (hwf : WellFormed T) (hpos : Positive T)
    (hno : NoOverflow T) {s : Int} {st : DState} (hS : SInv T s st) (hC : CInv T s st)
    {m x : Int} {node : node_t} (hmD : mapFind st.D m = some x) (hmN : m ∉ st.N)
    (hmin : ∀ v y, v ∉ st.N → mapFind st.D v = some y → x ≤ y)
    (hnode : topoFind T m = some node) : CInv T s (relaxed st m node) := by
  have hms : m ≠ s := fun h => hmN (h ▸ hS.tree.src)
  have hxm : mapAt st.D m = x := mapAt_of_find hmD
  have hdm : dist0 s st.D m = x := by simp only [dist0, hms, if_false, hxm]
  have keep := fun v (hv : v ∈ m :: st.N) => relaxed_keep hwf st m node hnode v (Or.inl hv)
  have hd0 : ∀ v ∈ m :: st.N, dist0 s (relaxed st m node).D v = dist0 s st.D v :=
    fun v hv => dist0_congr (keep v hv).1
  have hP0 : ∀ v ∈ m :: st.N, mapAt (relaxed st m node).P v = mapAt st.P v :=
    fun v hv => mapAt_congr (keep v hv).2
  have hmm : m ∈ m :: st.N := List.mem_cons_self _ _
  have hNN : (relaxed st m node).N = m :: st.N := rfl
  have hW : ∀ v c, v ∉ m :: st.N → linkCost T m v = some c →
      wrap32 (mapAt st.D m + c) = x + c := by
    intro v c hv hc
    obtain ⟨l, _, h2, h3, h4, h5⟩ := front_path hS hC hmN hmD
    have hpc := pathCost_snoc l x m v c h5 h2 hc
    have hnd : (l ++ [v]).Nodup := by
      refine List.Nodup.append h3 (List.nodup_singleton v) ?_
      intro a ha ha'
      have : a = v := by simpa using ha'
      exact hv (this ▸ h4 a ha)
    rw [hxm]
    exact wrap32_id (pathCost_nonneg hpos _ _ hpc) (hno _ _ hnd hpc)
  have hle : ∀ u ∈ m :: st.N, dist0 s st.D u ≤ x := by
    intro u hu
    rcases List.mem_cons.mp hu with rfl | hu
    · exact le_of_eq hdm
    · exact hC.mono u hu m hmN x hmD
  refine ⟨?_, ?_, ?_, ?_, ?_⟩
  · intro v hv hvs
    rw [hNN] at hv
    rcases List.mem_cons.mp hv with rfl | hvN
    · obtain ⟨c, hc, hD⟩ := hC.frontCost v hmN x hmD
      have hu := (hS.front v hmN (by rw [hmD]; simp)).2
      refine ⟨c, by rw [hP0 v hmm]; exact hc, ?_⟩
      rw [hP0 v hmm, hd0 _ (List.mem_cons_of_mem _ hu), mapAt_congr (keep v hmm).1, hxm, hD]
    · obtain ⟨c, hc, hD⟩ := hC.treeCost v hvN hvs
      have hu := hS.tree.prev_mem hvN hvs
      refine ⟨c, by rw [hP0 v hv]; exact hc, ?_⟩
      rw [hP0 v hv, hd0 _ (List.mem_cons_of_mem _ hu), mapAt_congr (keep v hv).1, hD]
  · intro v hv x' hx'
    have hvN : v ∉ st.N := fun h => hv (List.mem_cons_of_mem _ h)
    rcases relaxed_cases hwf st m node hnode v hv with ⟨e1, e2, _⟩ | ⟨c, hl, e1, e2, _⟩
    · rw [e1] at hx'
      obtain ⟨c, hc, hD⟩ := hC.frontCost v hvN x' hx'
      have hu := (hS.front v hvN (by rw [hx']; simp)).2
      refine ⟨c, by rw [mapAt_congr e2]; exact hc, ?_⟩
      rw [mapAt_congr e2, hd0 _ (List.mem_cons_of_mem _ hu)]
      exact hD
    · rw [e1, hW v c hv hl] at hx'
      have hPm : mapAt (relaxed st m node).P v = m := mapAt_of_find e2
      refine ⟨c, by rw [hPm]; exact hl, ?_⟩
      rw [hPm, hd0 m hmm, hdm]
      exact (Option.some.inj hx').symm
  · intro u hu w hw c hc
    rw [hd0 u hu, hd0 w hw]
    rcases List.mem_cons.mp hu with rfl | huN
    · rcases List.mem_cons.mp hw with rfl | hwN
      · have := linkCost_pos hpos hc
        omega
      · have h1 := hC.mono w hwN u hmN x hmD
        have := linkCost_pos hpos hc
        rw [hdm]
        omega
    · rcases List.mem_cons.mp hw with rfl | hwN
      · obtain ⟨y, hy, hyle⟩ := hC.frontier u huN w hmN c hc
        rw [hmD] at hy
        cases hy
        rw [hdm]
        exact hyle
      · exact hC.feas u huN w hwN c hc
  · intro u hu v hv c hc
    have hvN : v ∉ st.N := fun h => hv (List.mem_cons_of_mem _ h)
    rw [hd0 u hu]
    rcases relaxed_cases hwf st m node hnode v hv with ⟨e1, _, h3⟩ | ⟨cm, hl, e1, _, h4⟩
    · rw [e1]
      rcases List.mem_cons.mp hu with rfl | huN
      · obtain ⟨y, hy, hyle, _⟩ := h3 c hc
        rw [hW v c hv hc] at hyle
        exact ⟨y, hy, by rw [hdm]; exact hyle⟩
      · exact hC.frontier u huN v hvN c hc
    · rw [e1, hW v cm hv hl]
      refine ⟨_, rfl, ?_⟩
      rcases List.mem_cons.mp hu with rfl | huN
      · rw [hl] at hc
        cases hc
        rw [hdm]
      · obtain ⟨y, hy, hyle⟩ := hC.frontier u huN v hvN c hc
        rcases h4 y hy with h | ⟨h, _⟩
        · rw [hW v cm hv hl] at h
          omega
        · rw [hW v cm hv hl] at h
          omega
  · intro u hu v hv x' hx'
    have hvN : v ∉ st.N := fun h => hv (List.mem_cons_of_mem _ h)
    rw [hd0 u hu]
    refine le_trans (hle u hu) ?_
    rcases relaxed_cases hwf st m node hnode v hv with ⟨e1, _, _⟩ | ⟨cm, hl, e1, _, _⟩
    · rw [e1] at hx'
      exact hmin v x' hvN hx'
    · rw [e1, hW v cm hv hl] at hx'
      have := linkCost_pos hpos hl
      have := Option.some.inj hx'
      omega

/-- The initial state satisfies the cost invariant. -/
theorem CInv_init {T : Topology} (hwf : WellFormed T) (hpos : Positive T) {s : Int}
    {node : node_t} (hnode : topoFind T s = some node) : CInv T s (initState s node) := by
  have hN := initState_N s node
  have hD := initState_D hwf hnode
  have hds : dist0 s (initState s node).D s = 0 := by simp [dist0]
  have hP : ∀ v x, mapFind node.neighbors v = some x → mapAt (initState s node).P v = s := by
    intro v x hx
    have hmem : v ∈ node.neighbors.map Prod.fst :=
      List.mem_map.mpr ⟨(v, x), mapFind_some_mem hx, rfl⟩
    have := initState_P s node v
    rw [if_pos hmem] at this
    exact mapAt_of_find this
  refine ⟨?_, ?_, ?_, ?_, ?_⟩
  · intro v hv hvs
    rw [hN] at hv
    exact absurd (List.mem_singleton.mp hv) hvs
  · intro v _ x hx
    rw [hD] at hx
    refine ⟨x, by rw [hP v x hx, linkCost_of_find hnode]; exact hx, ?_⟩
    rw [hP v x hx, hds]
    omega
  · intro u hu w hw c hc
    rw [hN] at hu hw
    rw [List.mem_singleton.mp hu, List.mem_singleton.mp hw, hds]
    have := linkCost_pos hpos hc
    omega
  · intro u hu v _ c hc
    rw [hN] at hu
    rw [List.mem_singleton.mp hu] at hc ⊢
    rw [linkCost_of_find hnode] at hc
    exact ⟨c, by rw [hD]; exact hc, by rw [hds]; omega⟩
  · intro u hu v _ x hx
    rw [hN] at hu
    rw [List.mem_singleton.mp hu, hds]
    rw [hD, ← linkCost_of_find hnode] at hx
    exact le_of_lt (linkCost_pos hpos hx)

theorem CFinal_congr {T : Topology} {s : Int} {st st1 : DState} {R : List Int}
    (htree : Tree T s st.P R) (hcost : TreeCost T s st.D st.P R)
    (hfeas : ∀ u ∈ R, ∀ w ∈ R, ∀ c, linkCost T u w = some c →
      dist0 s st.D w ≤ dist0 s st.D u + c)
    (hclosed : ∀ u ∈ R, ∀ v c, linkCost T u v = some c → v ∈ R)
    (hkeep : ∀ v ∈ R, mapFind st1.D v = mapFind st.D v ∧ mapFind st1.P v = mapFind st.P v) :
    CFinal T s st1 R := by
  have hd0 : ∀ v ∈ R, dist0 s st1.D v = dist0 s st.D v := fun v hv => dist0_congr (hkeep v hv).1
  refine ⟨?_, ?_, hclosed⟩
  · intro v hv hvs
    obtain ⟨c, hc, hD⟩ := hcost v hv hvs
    have hu := htree.prev_mem hv hvs
    have hP := mapAt_congr (hkeep v hv).2
    refine ⟨c, by rw [hP]; exact hc, ?_⟩
    rw [hP, hd0 _ hu, mapAt_congr (hkeep v hv).1, hD]
  · intro u hu w hw c hc
    rw [hd0 u hu, hd0 w hw]
    exact hfeas u hu w hw c hc

theorem CFinal_of_mark {T : Topology} (hno : NoOverflow T)
    {s : Int} {st : DState} (hS : SInv T s st) (hC : CInv T s st) (impl : Impl) (k : Nat)
    (he : (scan impl k st.N st.D).2 = INT_MAX) : CFinal T s (T.foldl markStep st) st.N := by
  have hnone : ∀ v, v ∉ st.N → mapFind st.D v = none := by
    intro v hv
    cases hx : mapFind st.D v with
    | none => rfl
    | some x =>
      have h1 := (scan_spec impl k st.N st.D hS.keysD).2.1 v x hv hx
      rw [he] at h1
      obtain ⟨l, _, _, hnd, _, hpc⟩ := front_path hS hC hv hx
      have := hno l x hnd hpc
      omega
  refine CFinal_congr hS.tree hC.treeCost hC.feas ?_ (mark_fold T st).2.2
  intro u hu v c hc
  by_contra hv
  obtain ⟨x, hx, _⟩ := hC.frontier u hu v hv c hc
  rw [hnone v hv] at hx
  cases hx

theorem CFinal_of_exit {T : Topology} (hwf : WellFormed T) {s : Int} {st : DState}
    (hS : SInv T s st) (hC : CInv T s st) (hlen : ¬ st.N.length < T.length) :
    CFinal T s st st.N :=
  ⟨hC.treeCost, hC.feas, fun _ _ v _ hc =>
    known_subset_of_full hS.tree.nodup hS.tree.known hlen v (linkCost_known_right hwf hc)⟩

/-- The main loop ends in a state whose reached nodes carry a tree of paths whose costs
no link can improve, when the costs are positive and no path cost reaches INT_MAX. -/
theorem mainLoop_cost {T : Topology} (hwf : WellFormed T) (hpos : Positive T)
    (hno : NoOverflow T) (impl : Impl) {s : Int} {node : node_t}
    (hnode : topoFind T s = some node) :
    ∃ st, mainLoop impl T T.length (initState s node) = .ok st ∧
      ∃ R, SFinal T s st R ∧ CFinal T s st R := by
  refine mainLoop_induct impl T (fun st => SInv T s st ∧ CInv T s st)
    (fun st1 => ∃ R, SFinal T s st1 R ∧ CFinal T s st1 R) ?_ ?_ ?_
    T.length (initState s node) ⟨SInv_init hwf hnode, CInv_init hwf hpos hnode⟩
    (initState_fuel s node)
  · intro k st hI _ hne
    obtain ⟨node1, hnode1, hit, hS1⟩ := SInv_select hwf hI.1 impl k hne
    obtain ⟨hmD, hmN, _⟩ := (scan_spec impl k st.N st.D hI.1.keysD).2.2 hne
    have hmin := (scan_spec impl k st.N st.D hI.1.keysD).2.1
    exact ⟨_, hit, ⟨hS1, CInv_select hwf hpos hno hI.1 hI.2 hmD hmN hmin hnode1⟩, rfl⟩
  · intro k st hI _ he
    exact ⟨⟨st.N, (SFinal_of_mark hwf hI.1).1, CFinal_of_mark hno hI.1 hI.2 impl k he⟩,
      (SFinal_of_mark hwf hI.1).2⟩
  · intro st hI hn
    exact ⟨st.N, SFinal_of_exit hI.1 hn, CFinal_of_exit hwf hI.1 hI.2 hn⟩

/-- No path from a reached node leaves the reached nodes or beats the cost in D. -/
theorem path_lower_bound {T : Topology} {s : Int} {st : DState} {R : List Int}
    (hC : CFinal T s st R) :
    ∀ (l : List Int) (k a v : Int), a ∈ R → l.head? = some a → l.getLast? = some v →
      pathCost T l = some k → v ∈ R ∧ dist0 s st.D v ≤ dist0 s st.D a + k := by
  intro l
  induction l with
  | nil => intro k a v _ h; simp at h
  | cons a' l ih =>
    intro k a v ha hh hl hpc
    have haa : a' = a := by simpa using hh
    subst haa
    cases l with
    | nil =>
      have hv : a' = v := by simpa using hl
      subst hv
      simp only [pathCost, Option.some.injEq] at hpc
      exact ⟨ha, by omega⟩
    | cons b rest =>
      obtain ⟨c, k1, hc, hk1, rfl⟩ := pathCost_cons_cons hpc
      have hb := hC.closed a' ha b c hc
      have hl1 : (b :: rest).getLast? = some v := by
        simpa [List.getLast?_cons_cons] using hl
      obtain ⟨hv, hle⟩ := ih k1 b v hb rfl hl1 hk1
      have := hC.feas a' ha b hb c hc
      exact ⟨hv, by omega⟩

theorem Chain.ne {P : List (Int × Int)} {s h v : Int} (hch : Chain P s h v) :
    h ≠ s ∧ v ≠ s ∧ mapAt P h = s := by
  induction hch with
  | base h1 h2 => exact ⟨h1, h1, h2⟩
  | step u v _ hvs _ ih => exact ⟨ih.1, hvs, ih.2.2⟩

/-- The node h found by following P back from v is linked to the source, and the tree
holds a path from h to v that costs D[v] less the cost of that link. -/
theorem chain_path {T : Topology} {s : Int} {D P : List (Int × Int)} {R : List Int}
    (htree : Tree T s P R) (hcost : TreeCost T s D P R) {h v : Int}
    (hch : Chain P s h v) :
    v ∈ R → ∃ c0 l1, linkCost T s h = some c0 ∧ l1.head? = some h ∧
      l1.getLast? = some v ∧ pathCost T l1 = some (mapAt D v - c0) := by
  induction hch with
  | base h1 h2 =>
    intro hv
    obtain ⟨c, hc, hD⟩ := hcost h hv h1
    rw [h2] at hc hD
    refine ⟨c, [h], hc, rfl, rfl, ?_⟩
    simp only [dist0, if_true] at hD
    simp only [pathCost, hD, Option.some.injEq]
    omega
  | step u v hch hvs hPv ih =>
    intro hv
    have hu : u ∈ R := hPv ▸ htree.prev_mem hv hvs
    obtain ⟨c0, l1, hc0, hh, hl, hpc⟩ := ih hu
    obtain ⟨c, hc, hD⟩ := hcost v hv hvs
    rw [hPv] at hc hD
    have hus : u ≠ s := hch.ne.2.1
    simp only [dist0, hus, if_false] at hD
    refine ⟨c0, l1 ++ [v], hc0, head_snoc hh v, last_snoc l1 v, ?_⟩
    rw [pathCost_snoc l1 _ u v c hpc hl hc, hD]
    congr 1
    omega

theorem path_two {T : Topology} {s d : Int} {l : List Int} {k : Int}
    (h : IsPath T s d l k) (hds : d ≠ s) : ∃ b rest, l = s :: b :: rest := by
  obtain ⟨hh, hl, _⟩ := h
  cases l with
  | nil => simp at hh
  | cons a l =>
    have ha : a = s := by simpa using hh
    subst ha
    cases l with
    | nil =>
      have : a = d := by simpa using hl
      exact absurd this.symm hds
    | cons b rest => exact ⟨b, rest, rfl⟩

theorem no_path_of_isolated {T : Topology} {s : Int} {node : node_t}
    (hnode : topoFind T s = some node) (hiso : node.neighbors = []) {d : Int} (hds : d ≠ s) :
    ¬ ∃ l k, IsPath T s d l k := by
  rintro ⟨l, k, hp⟩
  obtain ⟨b, rest, rfl⟩ := path_two hp hds
  obtain ⟨c, _, hc, _, _⟩ := pathCost_cons_cons hp.2.2
  rw [linkCost_of_find hnode, hiso] at hc
  simp [mapFind] at hc

/-! ## What the table of Dijkstra holds -/

theorem dist0_src (s : Int) (D : List (Int × Int)) : dist0 s D s = 0 := by
  simp [dist0]

theorem dist0_other {s v : Int} (D : List (Int × Int)) (h : v ≠ s) :
    dist0 s D v = mapAt D v := by
  simp [dist0, h]

/-- The entries of the table of a source: a destination without a path from the source
has cost -1 (and next hop -1 unless the source is the node -1); a destination with a path
has the cost of a cheapest path, and its next hop is linked to the source and starts a
path to the destination that costs the rest. -/
theorem Dijkstra_entries {T : Topology} (hwf : WellFormed T) (hpos : Positive T)
    (hno : NoOverflow T) (impl : Impl) {s : Int} (hs : s ∈ node_ids T) :
    ∃ table, Dijkstra impl T s = .ok table ∧ table.map (·.dest) = node_ids T ∧
      ∀ e ∈ table, (e.dest = s → e.next_hop = s ∧ e.path_cost = 0) ∧ (e.dest ≠ s →
        ((¬ ∃ l k, IsPath T s e.dest l k) →
          e.path_cost = -1 ∧ (s ≠ -1 → e.next_hop = -1)) ∧
        ((∃ l k, IsPath T s e.dest l k) →
          0 < e.path_cost ∧ (∃ l, IsPath T s e.dest l e.path_cost) ∧
          (∀ l k, IsPath T s e.dest l k → e.path_cost ≤ k) ∧
          (NoSentinelId T → ∃ c0 l1, linkCost T s e.next_hop = some c0 ∧
            IsPath T e.next_hop e.dest l1 (e.path_cost - c0)))) := by
  obtain ⟨node, hnode⟩ := topoFind_of_known hs
  by_cases hiso : node.neighbors = []
  · refine ⟨_, Dijkstra_isolated hwf impl hnode hiso, isolatedTable_dest T s, ?_⟩
    intro e he
    obtain ⟨p, _, hp⟩ := List.mem_map.mp he
    by_cases hps : p.1 = s
    · rw [if_pos hps] at hp
      rw [← hp]
      exact ⟨fun _ => ⟨rfl, rfl⟩, fun hes => absurd hps hes⟩
    · rw [if_neg hps] at hp
      refine ⟨fun hes => ?_, fun hes => ?_⟩
      · rw [← hp] at hes
        exact absurd hes hps
      · refine ⟨fun _ => by rw [← hp]; exact ⟨rfl, fun _ => rfl⟩, fun hpath => ?_⟩
        exact absurd hpath (no_path_of_isolated hnode hiso hes)
  · obtain ⟨st, hloop, R, hS, hC⟩ := mainLoop_cost hwf hpos hno impl hnode
    obtain ⟨table, ht, hmap, hall⟩ := fillTable_spec hS impl T
      (fun p hp => List.mem_map.mpr ⟨p, hp, rfl⟩)
    refine ⟨table, by rw [Dijkstra_linked hwf impl hnode hiso hloop]; exact ht, hmap, ?_⟩
    intro e he
    have hd : e.dest ∈ node_ids T := by
      show e.dest ∈ List.map Prod.fst T
      rw [← hmap]
      exact List.mem_map.mpr ⟨e, he, rfl⟩
    obtain ⟨e1, he1, _, hself, hspec⟩ := fillEntry_spec hS impl e.dest hd
    rw [hall e he] at he1
    have hee : e = e1 := by injection he1
    subst hee
    refine ⟨hself, fun hes => ?_⟩
    obtain ⟨hpc, hnh1, hnh2, hnh3⟩ := hspec hes
    have hsR := hS.tree.src
    constructor
    · intro hnp
      have hdR : e.dest ∉ R := by
        intro hdR
        obtain ⟨l, h1, h2, _, _, h5⟩ := tree_path_mem hS.tree hC.treeCost hdR
        exact hnp ⟨l, _, h1, h2, h5⟩
      obtain ⟨hD, hP⟩ := hS.rest e.dest hd hdR
      refine ⟨by rw [hpc, hD], fun hs1 => ?_⟩
      exact hnh2 (by rw [hP]; exact fun h => hs1 h.symm) hP
    · rintro ⟨l, k, hl⟩
      obtain ⟨hdR, _⟩ := path_lower_bound hC l k s e.dest hsR hl.1 hl.2.1 hl.2.2
      obtain ⟨c, hc, hD⟩ := hC.treeCost e.dest hdR hes
      have hu := hS.tree.prev_mem hdR hes
      obtain ⟨lu, _, _, _, _, hpu⟩ := tree_path_mem hS.tree hC.treeCost hu
      have h0 := pathCost_nonneg hpos _ _ hpu
      have hcpos := linkCost_pos hpos hc
      obtain ⟨ld, g1, g2, _, _, g5⟩ := tree_path_mem hS.tree hC.treeCost hdR
      rw [dist0_other _ hes] at g5
      refine ⟨by rw [hpc]; omega, ⟨ld, g1, g2, by rw [hpc]; exact g5⟩, ?_, ?_⟩
      · intro l' k' hl'
        obtain ⟨_, hle⟩ := path_lower_bound hC l' k' s e.dest hsR hl'.1 hl'.2.1 hl'.2.2
        rw [dist0_src, dist0_other _ hes] at hle
        rw [hpc]
        omega
      · intro hsent
        have hne1 : mapAt st.P e.dest ≠ -1 := by
          intro h
          apply hsent
          rw [← h]
          exact hS.tree.known _ hu
        have hch : Chain st.P s e.next_hop e.dest := by
          by_cases hps : mapAt st.P e.dest = s
          · rw [hnh1 hps]
            exact Chain.base _ hes hps
          · exact Chain.step _ _ _ (hnh3 hps hne1) hes rfl
        obtain ⟨c0, l1, hc0, q1, q2, q3⟩ := chain_path hS.tree hC.treeCost hch hdR
        exact ⟨c0, l1, hc0, q1, q2, by rw [hpc]; exact q3⟩

/-! ## A sufficient condition for the absence of overflow -/

theorem pathCost_le_bound {T : Topology} {B : Int} (hB : CostsBelow T B) :
    ∀ (l : List Int) (k : Int), pathCost T l = some k → k ≤ ((l.length : Int) - 1) * B := by
  intro l
  induction l with
  | nil => intro k h; simp [pathCost] at h
  | cons a l ih =>
    intro k h
    cases l with
    | nil =>
      simp only [pathCost, Option.some.injEq] at h
      simp [← h]
    | cons b rest =>
      obtain ⟨c, k1, hc, hk, rfl⟩ := pathCost_cons_cons h
      have h1 := ih k1 hk
      obtain ⟨n, hn, hb⟩ := linkCost_some hc
      have h2 : c ≤ B := hB _ (topoFind_some_mem hn) _ (mapFind_some_mem hb)
      have h3 : (((a :: b :: rest).length : Int) - 1) * B =
          (((b :: rest).length : Int) - 1) * B + B := by
        simp only [List.length_cons]
        push_cast
        ring
      rw [h3]
      omega

theorem pathCost_tail_known {T : Topology} (hwf : WellFormed T) :
    ∀ (l : List Int) (k : Int), pathCost T l = some k → ∀ a ∈ l.tail, a ∈ node_ids T := by
  intro l
  induction l with
  | nil => intro k h; simp [pathCost] at h
  | cons a l ih =>
    intro k h
    cases l with
    | nil => simp
    | cons b rest =>
      obtain ⟨c, k1, hc, hk, rfl⟩ := pathCost_cons_cons h
      intro x hx
      simp only [List.tail_cons] at hx
      rcases List.mem_cons.mp hx with rfl | hx
      · exact linkCost_known_right hwf hc
      · exact ih k1 hk x (by simpa using hx)

/-- No path cost overflows when the number of nodes times the largest link cost is
below INT_MAX. -/
theorem noOverflow_of_bound {T : Topology} (hwf : WellFormed T) (B : Int) (h0 : 0 ≤ B)
    (hB : CostsBelow T B) (hlt : (T.length : Int) * B < INT_MAX) : NoOverflow T := by
  intro l k hnd hpc
  have h1 := pathCost_le_bound hB l k hpc
  have h2 : l.tail.length ≤ T.length :=
    length_le_of_known (hnd.sublist (List.tail_sublist l)) (pathCost_tail_known hwf l k hpc)
  have h3 : ((l.length : Int) - 1) ≤ (T.length : Int) := by
    rw [List.length_tail] at h2
    omega
  have h4 : ((l.length : Int) - 1) * B ≤ (T.length : Int) * B :=
    mul_le_mul_of_nonneg_right h3 h0
  omega

theorem path_cons {T : Topology} {s h d c0 k : Int} {l : List Int}
    (hc : linkCost T s h = some c0) (hp : IsPath T h d l k) :
    IsPath T s d (s :: l) (c0 + k) := by
  obtain ⟨h1, h2, h3⟩ := hp
  cases l with
  | nil => simp at h1
  | cons a rest =>
    have ha : a = h := by simpa using h1
    subst ha
    exact ⟨rfl, by simpa [List.getLast?_cons_cons] using h2, pathCost_cons_of hc h3⟩

/-! ## Topologies used as examples -/

theorem scenario3_noOverflow : NoOverflow scenario3 :=
  noOverflow_of_bound (by decide) 5 (by decide) (by decide) (by decide)

theorem scenario1_noOverflow : NoOverflow scenario1 :=
  noOverflow_of_bound (by decide) 1 (by decide) (by decide) (by decide)

theorem path_end_known {T : Topology} (hwf : WellFormed T) {s d : Int} {l : List Int}
    {k : Int} (hs : s ∈ node_ids T) (hp : IsPath T s d l k) : d ∈ node_ids T := by
  by_cases hds : d = s
  · rw [hds]; exact hs
  · obtain ⟨b, rest, rfl⟩ := path_two hp hds
    apply pathCost_tail_known hwf _ k hp.2.2
    have h2 : (b :: rest).getLast? = some d := by
      simpa [List.getLast?_cons_cons] using hp.2.1
    exact List.mem_of_getLast?_eq_some h2

theorem entry_of_known {table : List entry_t} {ids : List Int}
    (hmap : table.map (·.dest) = ids) {d : Int} (hd : d ∈ ids) : ∃ e ∈ table, e.dest = d := by
  rw [← hmap] at hd
  obtain ⟨e, he, hed⟩ := List.mem_map.mp hd
  exact ⟨e, he, hed⟩

/-! ## C1: costs of the table are costs of cheapest paths -/

/-- C1, amended: for a symmetric topology with positive link costs in which no path
without a repeated node costs INT_MAX or more, the cost Dijkstra enters for a destination
with a path from the source is the least cost of such a path. -/
theorem link_state_optimality (impl : Impl) (T : Topology) (hwf : WellFormed T)
    (_hsym : Symmetric T) (hpos : Positive T) (hno : NoOverflow T) (s : Int)
    (hs : s ∈ node_ids T) : OptimalCosts impl T s := by
  obtain ⟨table, ht, hmap, hall⟩ := Dijkstra_entries hwf hpos hno impl hs
  refine ⟨table, ht, ?_⟩
  intro d hreach
  obtain ⟨l0, k0, hp0⟩ := hreach
  refine ⟨entry_of_known hmap (path_end_known hwf hs hp0), ?_⟩
  intro e he hed
  subst hed
  obtain ⟨hself, hother⟩ := hall e he
  by_cases hes : e.dest = s
  · obtain ⟨_, hc⟩ := hself hes
    rw [hc, hes]
    refine ⟨⟨[s], rfl, rfl, rfl⟩, ?_⟩
    intro l k hl
    exact pathCost_nonneg hpos l k hl.2.2
  · obtain ⟨_, h2, h3, _⟩ := (hother hes).2 ⟨l0, k0, hp0⟩
    exact ⟨h2, h3⟩

/-- Witness of C1 (Scenario 3): the table of source 1 prefers the way over node 2. -/
theorem link_state_optimality_witness :
    WellFormed scenario3 ∧ Symmetric scenario3 ∧ Positive scenario3 ∧ NoOverflow scenario3 ∧
    (1 : Int) ∈ node_ids scenario3 ∧ OptimalCosts impl0 scenario3 1 ∧
    IsPath scenario3 1 3 [1, 3] 5 ∧ IsPath scenario3 1 3 [1, 2, 3] 2 ∧
    Dijkstra impl0 scenario3 1 = .ok [⟨1, 1, 0⟩, ⟨2, 2, 1⟩, ⟨3, 2, 2⟩] :=
  ⟨by decide, by decide, by decide, scenario3_noOverflow, by decide,
    link_state_optimality impl0 scenario3 (by decide) (by decide) (by decide)
      scenario3_noOverflow 1 (by decide), by decide, by decide, rfl⟩

/-- C1 as stated fails: with a link of cost INT_MAX between 1 and 2 the table of source 1
holds cost -1 for destination 2, which is the cost of no path. -/
theorem link_state_optimality_counterexample :
    WellFormed topoMaxCost ∧ Symmetric topoMaxCost ∧ Positive topoMaxCost ∧
    (1 : Int) ∈ node_ids topoMaxCost ∧ IsPath topoMaxCost 1 2 [1, 2] 2147483647 ∧
    Dijkstra impl0 topoMaxCost 1 = .ok [⟨1, 1, 0⟩, ⟨2, -1, -1⟩] ∧
    ¬ OptimalCosts impl0 topoMaxCost 1 := by
  refine ⟨by decide, by decide, by decide, by decide, by decide, rfl, ?_⟩
  rintro ⟨table, ht, h⟩
  have ht1 : Dijkstra impl0 topoMaxCost 1 = .ok [⟨1, 1, 0⟩, ⟨2, -1, -1⟩] := rfl
  rw [ht1] at ht
  injection ht with ht
  subst ht
  obtain ⟨_, h2⟩ := h 2 ⟨[1, 2], 2147483647, by decide⟩
  obtain ⟨⟨l, hl⟩, _⟩ := h2 ⟨2, -1, -1⟩ (by decide) rfl
  have := @pathCost_nonneg topoMaxCost (by decide) l _ hl.2.2
  simp only at this
  omega

/-! ## C2: the next hop is a neighbour on a cheapest path -/

/-- C2, amended: for a symmetric topology with positive link costs, no path cost of
INT_MAX or more and no node with the identifier -1, the next hop entered for a reachable
destination is a neighbour of the source on a cheapest path. -/
theorem next_hop_on_shortest_path (impl : Impl) (T : Topology) (hwf : WellFormed T)
    (_hsym : Symmetric T) (hpos : Positive T) (hno : NoOverflow T) (hid : NoSentinelId T)
    (s : Int) (hs : s ∈ node_ids T) : NextHopOnShortestPath impl T s := by
  obtain ⟨table, ht, hmap, hall⟩ := Dijkstra_entries hwf hpos hno impl hs
  refine ⟨table, ht, ?_⟩
  intro d hds hreach
  obtain ⟨l0, k0, hp0⟩ := hreach
  refine ⟨entry_of_known hmap (path_end_known hwf hs hp0), ?_⟩
  intro e he hed
  subst hed
  obtain ⟨_, h2, h3, h4⟩ := ((hall e he).2 hds).2 ⟨l0, k0, hp0⟩
  obtain ⟨c0, l1, hc0, hl1⟩ := h4 hid
  refine ⟨c0, hc0, ⟨l1, hl1⟩, ?_⟩
  intro l k hl
  have := h3 _ _ (path_cons hc0 hl)
  omega

/-- Witness of C2 (Scenario 1): the table of source 1 goes to 2 and to 3 over node 2. -/
theorem next_hop_on_shortest_path_witness :
    WellFormed scenario1 ∧ Symmetric scenario1 ∧ Positive scenario1 ∧ NoOverflow scenario1 ∧
    NoSentinelId scenario1 ∧ (1 : Int) ∈ node_ids scenario1 ∧
    NextHopOnShortestPath impl0 scenario1 1 ∧
    IsPath scenario1 1 3 [1, 2, 3] 2 ∧ linkCost scenario1 1 2 = some 1 ∧
    Dijkstra impl0 scenario1 1 = .ok [⟨1, 1, 0⟩, ⟨2, 2, 1⟩, ⟨3, 2, 2⟩] :=
  ⟨by decide, by decide, by decide, scenario1_noOverflow, by decide, by decide,
    next_hop_on_shortest_path impl0 scenario1 (by decide) (by decide) (by decide)
      scenario1_noOverflow (by decide) 1 (by decide), by decide, by decide, rfl⟩

/-- C2 as stated fails: on the line 1 - 3 - (-1) - 2 the entry of source 1 for
destination 2 has next hop -1, which is not linked to node 1; and with a link of cost
INT_MAX between 1 and 2 the entry for 2 has next hop -1, which is no node at all. -/
theorem next_hop_on_shortest_path_counterexample :
    (WellFormed topoSentinel ∧ Symmetric topoSentinel ∧ Positive topoSentinel ∧
      (1 : Int) ∈ node_ids topoSentinel ∧
      Dijkstra impl0 topoSentinel 1 = .ok [⟨-1, 3, 2⟩, ⟨1, 1, 0⟩, ⟨2, -1, 3⟩, ⟨3, 3, 1⟩] ∧
      ¬ NextHopOnShortestPath impl0 topoSentinel 1) ∧
    (WellFormed topoMaxCost ∧ Symmetric topoMaxCost ∧ Positive topoMaxCost ∧
      (1 : Int) ∈ node_ids topoMaxCost ∧
      ¬ NextHopOnShortestPath impl0 topoMaxCost 1) := by
  refine ⟨⟨by decide, by decide, by decide, by decide, rfl, ?_⟩,
    ⟨by decide, by decide, by decide, by decide, ?_⟩⟩
  · rintro ⟨table, ht, h⟩
    have ht1 : Dijkstra impl0 topoSentinel 1 =
        .ok [⟨-1, 3, 2⟩, ⟨1, 1, 0⟩, ⟨2, -1, 3⟩, ⟨3, 3, 1⟩] := rfl
    rw [ht1] at ht
    injection ht with ht
    subst ht
    obtain ⟨_, h2⟩ := h 2 (by decide) ⟨[1, 3, -1, 2], 3, by decide⟩
    obtain ⟨c0, hc0, _⟩ := h2 ⟨2, -1, 3⟩ (by decide) rfl
    have hn : linkCost topoSentinel 1 (-1) = none := by decide
    rw [hn] at hc0
    cases hc0
  · rintro ⟨table, ht, h⟩
    have ht1 : Dijkstra impl0 topoMaxCost 1 = .ok [⟨1, 1, 0⟩, ⟨2, -1, -1⟩] := rfl
    rw [ht1] at ht
    injection ht with ht
    subst ht
    obtain ⟨_, h2⟩ := h 2 (by decide) ⟨[1, 2], 2147483647, by decide⟩
    obtain ⟨c0, hc0, _⟩ := h2 ⟨2, -1, -1⟩ (by decide) rfl
    have hn : linkCost topoMaxCost 1 (-1) = none := by decide
    rw [hn] at hc0
    cases hc0

/-! ## C5: the encoding of unreachable destinations -/

theorem topoSplit_noOverflow : NoOverflow topoSplit :=
  noOverflow_of_bound (by decide) 1 (by decide) (by decide) (by decide)

/-- C5, amended: for a symmetric topology with positive link costs, no path cost of
INT_MAX or more and no node with the identifier -1, the entry of a known node other than
the source is (-1, -1) exactly when no path from the source to it exists, and has a
positive cost and a next hop other than -1 otherwise. -/
theorem unreachable_encoding (impl : Impl) (T : Topology) (hwf : WellFormed T)
    (_hsym : Symmetric T) (hpos : Positive T) (hno : NoOverflow T) (hid : NoSentinelId T)
    (s : Int) (hs : s ∈ node_ids T) : UnreachableEncoding impl T s := by
  obtain ⟨table, ht, hmap, hall⟩ := Dijkstra_entries hwf hpos hno impl hs
  refine ⟨table, ht, ?_⟩
  intro d hd hds
  refine ⟨entry_of_known hmap hd, ?_⟩
  intro e he hed
  subst hed
  obtain ⟨hun, hre⟩ := (hall e he).2 hds
  have hs1 : s ≠ -1 := fun h => hid (h ▸ hs)
  by_cases hreach : ∃ l k, IsPath T s e.dest l k
  · obtain ⟨hpc, _, _, hnh⟩ := hre hreach
    obtain ⟨c0, _, hc0, _⟩ := hnh hid
    have hn1 : e.next_hop ≠ -1 := fun h => hid (h ▸ linkCost_known_right hwf hc0)
    refine ⟨⟨fun h => absurd h.2 hn1, fun h => absurd hreach h⟩, fun _ => ⟨hpc, hn1⟩, ?_⟩
    exact ⟨fun h => by omega, fun h => absurd h hn1⟩
  · obtain ⟨hpc, hnh⟩ := hun hreach
    exact ⟨⟨fun _ => hreach, fun _ => ⟨hpc, hnh hs1⟩⟩, fun h => absurd h hreach,
      ⟨fun _ => hnh hs1, fun _ => hpc⟩⟩

/-- Witness of C5: of two separate links the far one is unreachable from node 1; and a
source without neighbours has (-1, -1) in every other entry. -/
theorem unreachable_encoding_witness :
    WellFormed topoSplit ∧ Symmetric topoSplit ∧ Positive topoSplit ∧ NoOverflow topoSplit ∧
    NoSentinelId topoSplit ∧ (1 : Int) ∈ node_ids topoSplit ∧
    UnreachableEncoding impl0 topoSplit 1 ∧
    Dijkstra impl0 topoSplit 1 = .ok [⟨1, 1, 0⟩, ⟨2, 2, 1⟩, ⟨3, -1, -1⟩, ⟨4, -1, -1⟩] ∧
    Dijkstra impl0 topoIsolated 1 = .ok [⟨1, 1, 0⟩, ⟨2, -1, -1⟩, ⟨3, -1, -1⟩] :=
  ⟨by decide, by decide, by decide, topoSplit_noOverflow, by decide, by decide,
    unreachable_encoding impl0 topoSplit (by decide) (by decide) (by decide)
      topoSplit_noOverflow (by decide) 1 (by decide), rfl, rfl⟩

/-- C5 as stated fails: with a link of cost INT_MAX between 1 and 2 the entry of source 1
for destination 2 is (-1, -1) although the two are linked; and on the line
1 - 3 - (-1) - 2 the entry for destination 2 has cost 3 and next hop -1. -/
theorem unreachable_encoding_counterexample :
    (WellFormed topoMaxCost ∧ Symmetric topoMaxCost ∧ Positive topoMaxCost ∧
      (1 : Int) ∈ node_ids topoMaxCost ∧ IsPath topoMaxCost 1 2 [1, 2] 2147483647 ∧
      Dijkstra impl0 topoMaxCost 1 = .ok [⟨1, 1, 0⟩, ⟨2, -1, -1⟩] ∧
      ¬ UnreachableEncoding impl0 topoMaxCost 1) ∧
    (WellFormed topoSentinel ∧ Symmetric topoSentinel ∧ Positive topoSentinel ∧
      (1 : Int) ∈ node_ids topoSentinel ∧
      Dijkstra impl0 topoSentinel 1 = .ok [⟨-1, 3, 2⟩, ⟨1, 1, 0⟩, ⟨2, -1, 3⟩, ⟨3, 3, 1⟩] ∧
      ¬ UnreachableEncoding impl0 topoSentinel 1) := by
  refine ⟨⟨by decide, by decide, by decide, by decide, by decide, rfl, ?_⟩,
    ⟨by decide, by decide, by decide, by decide, rfl, ?_⟩⟩
  · rintro ⟨table, ht, h⟩
    have ht1 : Dijkstra impl0 topoMaxCost 1 = .ok [⟨1, 1, 0⟩, ⟨2, -1, -1⟩] := rfl
    rw [ht1] at ht
    injection ht with ht
    subst ht
    obtain ⟨_, h2⟩ := h 2 (by decide) (by decide)
    obtain ⟨h3, _⟩ := h2 ⟨2, -1, -1⟩ (by decide) rfl
    exact h3.mp ⟨rfl, rfl⟩ ⟨[1, 2], 2147483647, by decide⟩
  · rintro ⟨table, ht, h⟩
    have ht1 : Dijkstra impl0 topoSentinel 1 =
        .ok [⟨-1, 3, 2⟩, ⟨1, 1, 0⟩, ⟨2, -1, 3⟩, ⟨3, 3, 1⟩] := rfl
    rw [ht1] at ht
    injection ht with ht
    subst ht
    obtain ⟨_, h2⟩ := h 2 (by decide) (by decide)
    obtain ⟨_, h3, _⟩ := h2 ⟨2, -1, 3⟩ (by decide) rfl
    exact (h3 ⟨[1, 3, -1, 2], 3, by decide⟩).2 rfl

/-! ## C6: the entry of the source itself -/

/-- C6: for every well-formed topology and known node s, Dijkstra(s) returns a table
that has an entry for s, with cost 0 and next hop s. -/
theorem self_entry (impl : Impl) (T : Topology) (hwf : WellFormed T) (s : Int)
    (hs : s ∈ node_ids T) :
    ∃ table, Dijkstra impl T s = .ok table ∧ (∃ e ∈ table, e.dest = s) ∧
      ∀ e ∈ table, e.dest = s → e.path_cost = 0 ∧ e.next_hop = s := by
  obtain ⟨node, hnode⟩ := topoFind_of_known hs
  by_cases hiso : node.neighbors = []
  · refine ⟨_, Dijkstra_isolated hwf impl hnode hiso,
      entry_of_known (isolatedTable_dest T s) hs, ?_⟩
    intro e he hes
    obtain ⟨p, _, hp⟩ := List.mem_map.mp he
    by_cases hps : p.1 = s
    · rw [if_pos hps] at hp
      rw [← hp]
      exact ⟨rfl, rfl⟩
    · rw [if_neg hps] at hp
      rw [← hp] at hes
      exact absurd hes hps
  · obtain ⟨st, hloop, R, hF⟩ := mainLoop_total hwf impl s T.length (initState s node)
      (SInv_init hwf hnode) (initState_fuel s node)
    obtain ⟨table, ht, hmap, hall⟩ := fillTable_spec hF impl T
      (fun p hp => List.mem_map.mpr ⟨p, hp, rfl⟩)
    refine ⟨table, by rw [Dijkstra_linked hwf impl hnode hiso hloop]; exact ht,
      entry_of_known hmap hs, ?_⟩
    intro e he hes
    obtain ⟨e1, he1, _, hself, _⟩ := fillEntry_spec hF impl e.dest (hes ▸ hs)
    rw [hall e he] at he1
    have hee : e = e1 := by injection he1
    subst hee
    obtain ⟨h1, h2⟩ := hself hes
    exact ⟨h2, h1⟩

/-- Witness of C6: the entry of node 1 for itself when it carries a link to itself,
when it has no link at all, and when it has links to other nodes. -/
theorem self_entry_witness :
    WellFormed topoSelfLink ∧ (1 : Int) ∈ node_ids topoSelfLink ∧
    (∃ table, Dijkstra impl0 topoSelfLink 1 = .ok table ∧ (∃ e ∈ table, e.dest = 1) ∧
      ∀ e ∈ table, e.dest = 1 → e.path_cost = 0 ∧ e.next_hop = 1) ∧
    Dijkstra impl0 topoSelfLink 1 = .ok [⟨1, 1, 0⟩, ⟨2, -1, -1⟩, ⟨3, -1, -1⟩] ∧
    Dijkstra impl0 topoIsolated 1 = .ok [⟨1, 1, 0⟩, ⟨2, -1, -1⟩, ⟨3, -1, -1⟩] ∧
    Dijkstra impl0 scenario1 1 = .ok [⟨1, 1, 0⟩, ⟨2, 2, 1⟩, ⟨3, 2, 2⟩] :=
  ⟨by decide, by decide, self_entry impl0 topoSelfLink (by decide) 1 (by decide),
    rfl, rfl, rfl⟩

/-! ## The routing tables and the search for an entry -/

theorem tableAt_tableSet_self (R : RoutingTable) (k : Int) (t : List entry_t) :
    tableAt (tableSet R k t) k = t := by
  induction R with
  | nil => simp [tableSet, tableAt]
  | cons p R ih =>
    obtain ⟨k1, t1⟩ := p
    by_cases h1 : k = k1
    · simp [tableSet, tableAt, h1]
    · by_cases h2 : k < k1
      · simp [tableSet, tableAt, h1, h2]
      · simp [tableSet, tableAt, h1, h2, ih]

theorem tableAt_tableSet_other (R : RoutingTable) (k : Int) (t : List entry_t) (k' : Int)
    (h : k' ≠ k) : tableAt (tableSet R k t) k' = tableAt R k' := by
  induction R with
  | nil => simp [tableSet, tableAt, h]
  | cons p R ih =>
    obtain ⟨k1, t1⟩ := p
    by_cases h1 : k = k1
    · subst h1
      simp [tableSet, tableAt, h]
    · by_cases h2 : k < k1
      · simp [tableSet, tableAt, h1, h2, h]
      · by_cases h3 : k' = k1
        · simp [tableSet, tableAt, h1, h2, h3]
        · simp [tableSet, tableAt, h1, h2, h3, ih]

theorem updateLoop_spec (impl : Impl) (T : Topology) :
    ∀ (L : List (Int × node_t)) (acc : RoutingTable × String) (r : RoutingTable × String),
      updateLoop impl T L acc = .ok r →
      ∀ k, (k ∈ L.map Prod.fst → ∃ table, Dijkstra impl T k = .ok table ∧ tableAt r.1 k = table) ∧
        (k ∉ L.map Prod.fst → tableAt r.1 k = tableAt acc.1 k) := by
  intro L
  induction L with
  | nil =>
    intro acc r h k
    simp only [updateLoop, Except.ok.injEq] at h
    subst h
    simp
  | cons p L ih =>
    intro acc r h k
    simp only [updateLoop] at h
    cases hd : Dijkstra impl T p.1 with
    | error e => simp [hd] at h
    | ok ft =>
      simp only [hd] at h
      have hk := ih _ r h k
      by_cases hkL : k ∈ L.map Prod.fst
      · exact ⟨fun _ => hk.1 hkL, fun hn => absurd (List.mem_cons_of_mem _ hkL) hn⟩
      · have h2 := hk.2 hkL
        simp only at h2
        constructor
        · intro hmem
          have hkp : k = p.1 := by
            rcases List.mem_cons.mp hmem with h' | h'
            · exact h'
            · exact absurd h' hkL
          rw [hkp] at h2 ⊢
          rw [tableAt_tableSet_self] at h2
          exact ⟨ft, hd, h2⟩
        · intro hn
          have hkp : k ≠ p.1 := fun h' => hn (by rw [h']; exact List.mem_cons_self _ _)
          rw [tableAt_tableSet_other _ _ _ _ hkp] at h2
          exact h2

theorem updateLoop_total {T : Topology} (hwf : WellFormed T) (impl : Impl) :
    ∀ (L : List (Int × node_t)) (acc : RoutingTable × String),
      (∀ p ∈ L, p.1 ∈ node_ids T) → ∃ r, updateLoop impl T L acc = .ok r := by
  intro L
  induction L with
  | nil => intro acc _; exact ⟨acc, rfl⟩
  | cons p L ih =>
    intro acc hL
    obtain ⟨table, ht, _⟩ := Dijkstra_total hwf impl (hL p (List.mem_cons_self _ _))
    obtain ⟨r, hr⟩ := ih (tableSet acc.1 p.1 table, acc.2 ++ print_table table ++ "\n")
      (fun q hq => hL q (List.mem_cons_of_mem _ hq))
    exact ⟨r, by simp only [updateLoop, ht]; exact hr⟩

/-- Function update_tables returns, for a well-formed topology, tables that hold for every
known node the table of Dijkstra. -/
theorem update_tables_spec {T : Topology} (hwf : WellFormed T) (impl : Impl)
    (R0 : RoutingTable) :
    ∃ r, update_tables impl T R0 = .ok r ∧ TablesOf impl T r.1 := by
  obtain ⟨r, hr⟩ := updateLoop_total hwf impl T (R0, "")
    (fun p hp => List.mem_map.mpr ⟨p, hp, rfl⟩)
  refine ⟨r, hr, ?_⟩
  intro k hk
  exact ((updateLoop_spec impl T T (R0, "") r hr) k).1 hk

theorem findIndex_spec (dest : Int) (table : List entry_t) :
    ∀ (suf pre : List entry_t) (fuel : Nat), table = pre ++ suf → suf.length < fuel →
      (∀ e, suf.find? (fun x => decide (x.dest = dest)) = some e →
        ∃ i, findIndex table dest fuel pre.length = .ok i ∧ table.get? i = some e) ∧
      (suf.find? (fun x => decide (x.dest = dest)) = none →
        findIndex table dest fuel pre.length = .error .out_of_bounds) := by
  intro suf
  induction suf with
  | nil =>
    intro pre fuel ht hf
    obtain ⟨f, rfl⟩ : ∃ f, fuel = f + 1 := ⟨fuel - 1, by omega⟩
    have hnone : table.get? pre.length = none := by
      rw [ht, List.append_nil]
      exact List.get?_eq_none.mpr (le_refl _)
    refine ⟨fun e h => by simp at h, fun _ => ?_⟩
    simp only [findIndex, hnone]
  | cons x suf ih =>
    intro pre fuel ht hf
    obtain ⟨f, rfl⟩ : ∃ f, fuel = f + 1 := ⟨fuel - 1, by omega⟩
    have hx : table.get? pre.length = some x := by
      rw [ht, List.get?_eq_getElem?, List.getElem?_append_right (le_refl _), Nat.sub_self]
      simp
    have hlen : pre.length < table.length := by
      rw [ht]; simp
    by_cases hd : x.dest = dest
    · refine ⟨fun e h => ?_, fun h => ?_⟩
      · rw [List.find?_cons_of_pos _ (by simpa using hd)] at h
        cases h
        refine ⟨pre.length, ?_, hx⟩
        simp only [findIndex, hx]
        exact if_neg (fun h => h.1 hd)
      · rw [List.find?_cons_of_pos _ (by simpa using hd)] at h
        cases h
    · have hstep : findIndex table dest (f + 1) pre.length =
          findIndex table dest f (pre ++ [x]).length := by
        simp only [findIndex, hx, List.length_append, List.length_singleton]
        exact if_pos ⟨hd, hlen⟩
      have hrec := ih (pre ++ [x]) f (by rw [ht]; simp)
        (by simp only [List.length_cons] at hf; omega)
      rw [hstep, List.find?_cons_of_neg _ (by simpa using hd)]
      exact hrec

/-- The search returns the first entry for the destination when the table has one. -/
theorem findEntry_found {table : List entry_t} {dest : Int} {e : entry_t}
    (h : table.find? (fun x => decide (x.dest = dest)) = some e) :
    findEntry table dest = .ok e := by
  obtain ⟨i, hi, he⟩ := (findIndex_spec dest table table [] (table.length + 1) rfl
    (by omega)).1 e h
  simp only [List.length_nil] at hi
  simp only [findEntry, hi, he]

/-- The search reads past the end of a table that has no entry for the destination. -/
theorem findEntry_absent {table : List entry_t} {dest : Int}
    (h : ∀ e ∈ table, e.dest ≠ dest) : findEntry table dest = .error .out_of_bounds := by
  have hnone : table.find? (fun x => decide (x.dest = dest)) = none := by
    rw [List.find?_eq_none]
    intro x hx
    simpa using h x hx
  have hi := (findIndex_spec dest table table [] (table.length + 1) rfl (by omega)).2 hnone
  simp only [List.length_nil] at hi
  simp only [findEntry, hi]

theorem find_of_mem_nodup {table : List entry_t} (hnd : (table.map (·.dest)).Nodup)
    {e : entry_t} (he : e ∈ table) :
    table.find? (fun x => decide (x.dest = e.dest)) = some e := by
  induction table with
  | nil => simp at he
  | cons x table ih =>
    simp only [List.map_cons, List.nodup_cons] at hnd
    rcases List.mem_cons.mp he with rfl | he
    · exact List.find?_cons_of_pos _ (by simp)
    · have hne : x.dest ≠ e.dest := fun h =>
        hnd.1 (List.mem_map.mpr ⟨e, he, h.symm⟩)
      rw [List.find?_cons_of_neg _ (by simpa using hne)]
      exact ih hnd.2 he

/-! ## C9: the line of an unreachable destination -/

/-- C9: when the first entry for the destination in the table of the source has a cost
below 0, the text written for the message is the line of the unreachable form, whatever
the other tables hold and without a step of the hop loop. -/
theorem unreachable_trace_line (R : RoutingTable) (fuel : Nat) (msg : message_t)
    (e : entry_t)
    (hfind : (tableAt R msg.src).find? (fun x => decide (x.dest = msg.dest)) = some e)
    (hcost : e.path_cost < 0) :
    trace R fuel msg.src msg.dest = .ok .unreachable ∧
    sendOne R fuel msg = .ok ("from " ++ toString msg.src ++ " to " ++ toString msg.dest
      ++ " cost infinite hops unreachable message " ++ msg.message ++ "\n") := by
  have hne : ¬ (tableAt R msg.src).length = 0 := by
    intro h
    rw [List.eq_nil_of_length_eq_zero h] at hfind
    simp at hfind
  have hc : ¬ e.path_cost ≥ 0 := by omega
  have ht : trace R fuel msg.src msg.dest = .ok .unreachable := by
    simp only [trace, hne, if_false, findEntry_found hfind, hc]
  exact ⟨ht, by simp only [sendOne, ht, render]⟩

/-- Witness of C9: of two separate links 1 - 2 and 3 - 4, a message from 1 to 3. -/
theorem unreachable_trace_line_witness :
    (tableAt (tablesOf impl0 topoSplit) 1).find? (fun x => decide (x.dest = 3))
      = some ⟨3, -1, -1⟩ ∧
    (-1 : Int) < 0 ∧
    trace (tablesOf impl0 topoSplit) 4 1 3 = .ok .unreachable ∧
    sendOne (tablesOf impl0 topoSplit) 4 ⟨1, 3, "hello there"⟩ =
      .ok "from 1 to 3 cost infinite hops unreachable message hello there\n" :=
  ⟨by decide, by decide,
    (unreachable_trace_line (tablesOf impl0 topoSplit) 4 ⟨1, 3, "hello there"⟩ ⟨3, -1, -1⟩
      (by decide) (by decide)).1,
    (unreachable_trace_line (tablesOf impl0 topoSplit) 4 ⟨1, 3, "hello there"⟩ ⟨3, -1, -1⟩
      (by decide) (by decide)).2⟩

/-! ## C10: a destination without an entry -/

/-- C10, what the code does: when the table of the source is not empty and has no entry
for the destination, the search reads forward_table[index] at index = size. -/
theorem absent_destination_out_of_bounds (R : RoutingTable) (fuel : Nat) (msg : message_t)
    (hne : tableAt R msg.src ≠ [])
    (habs : ∀ e ∈ tableAt R msg.src, e.dest ≠ msg.dest) :
    findIndex (tableAt R msg.src) msg.dest ((tableAt R msg.src).length + 1) 0
      = .error .out_of_bounds ∧
    sendOne R fuel msg = .error .out_of_bounds := by
  have hlen : ¬ (tableAt R msg.src).length = 0 := fun h =>
    hne (List.eq_nil_of_length_eq_zero h)
  have hnone : (tableAt R msg.src).find? (fun x => decide (x.dest = msg.dest)) = none := by
    rw [List.find?_eq_none]
    intro x hx
    simpa using habs x hx
  have hi := (findIndex_spec msg.dest (tableAt R msg.src) (tableAt R msg.src) []
    ((tableAt R msg.src).length + 1) rfl (by omega)).2 hnone
  simp only [List.length_nil] at hi
  refine ⟨hi, ?_⟩
  simp only [sendOne, trace, hlen, if_false, findEntry_absent habs]

/-- Witness of C10 (Scenario 1): a message from node 1 to the unknown node 7. -/
theorem absent_destination_out_of_bounds_witness :
    tableAt (tablesOf impl0 scenario1) 1 ≠ [] ∧
    (∀ e ∈ tableAt (tablesOf impl0 scenario1) 1, e.dest ≠ 7) ∧
    findIndex (tableAt (tablesOf impl0 scenario1) 1) 7
      ((tableAt (tablesOf impl0 scenario1) 1).length + 1) 0 = .error .out_of_bounds ∧
    sendOne (tablesOf impl0 scenario1) 3 ⟨1, 7, "hello"⟩ = .error .out_of_bounds :=
  ⟨by decide, by decide,
    (absent_destination_out_of_bounds (tablesOf impl0 scenario1) 3 ⟨1, 7, "hello"⟩
      (by decide) (by decide)).1,
    (absent_destination_out_of_bounds (tablesOf impl0 scenario1) 3 ⟨1, 7, "hello"⟩
      (by decide) (by decide)).2⟩

/-! ## The hop walk over the tables of all nodes -/

theorem LeastCost.unique {T : Topology} {h d k k' : Int} (h1 : LeastCost T h d k)
    (h2 : LeastCost T h d k') : k = k' := by
  obtain ⟨⟨l, hl⟩, hmin⟩ := h1
  obtain ⟨⟨l', hl'⟩, hmin'⟩ := h2
  exact le_antisymm (hmin l' k' hl') (hmin' l k hl)

theorem findEntry_ok {table : List entry_t} {dest : Int} {e : entry_t}
    (h : findEntry table dest = .ok e) :
    table.find? (fun x => decide (x.dest = dest)) = some e := by
  cases hf : table.find? (fun x => decide (x.dest = dest)) with
  | none =>
    have habs : ∀ x ∈ table, x.dest ≠ dest := by
      intro x hx
      have := List.find?_eq_none.mp hf x hx
      simpa using this
    rw [findEntry_absent habs] at h
    cases h
  | some e' =>
    rw [findEntry_found hf] at h
    injection h with h
    rw [h]

/-- One step of the walk: the table of a node h other than the destination names a
neighbour from which the least cost to the destination is less by the cost of the link. -/
theorem table_step {T : Topology} (hwf : WellFormed T) (hpos : Positive T)
    (hno : NoOverflow T) (hid : NoSentinelId T) {impl : Impl} {R : RoutingTable}
    (hT : TablesOf impl T R) {h dest k : Int} (hh : h ∈ node_ids T) (hne : h ≠ dest)
    (hk : LeastCost T h dest k) :
    ∃ e c, findEntry (tableAt R h) dest = .ok e ∧ e.path_cost = k ∧
      linkCost T h e.next_hop = some c ∧ 0 < c ∧ LeastCost T e.next_hop dest (k - c) := by
  obtain ⟨table, ht, hR⟩ := hT h hh
  obtain ⟨table', ht', hmap, hall⟩ := Dijkstra_entries hwf hpos hno impl hh
  rw [ht] at ht'
  injection ht' with ht'
  subst ht'
  obtain ⟨l0, hl0⟩ := hk.1
  obtain ⟨e, he, hed⟩ := entry_of_known hmap (path_end_known hwf hh hl0)
  have hnd : (table.map (·.dest)).Nodup := by rw [hmap]; exact node_ids_nodup hwf
  have hfind := find_of_mem_nodup hnd he
  rw [hed] at hfind
  have hes : e.dest ≠ h := by rw [hed]; exact fun h' => hne h'.symm
  obtain ⟨_, h2, h3, h4⟩ := ((hall e he).2 hes).2 ⟨l0, k, by rw [hed]; exact hl0⟩
  rw [hed] at h2 h3 h4
  obtain ⟨c0, l1, hc0, hl1⟩ := h4 hid
  have hpc : e.path_cost = k := LeastCost.unique ⟨h2, h3⟩ hk
  refine ⟨e, c0, by rw [hR]; exact findEntry_found hfind, hpc, hc0, linkCost_pos hpos hc0, ?_⟩
  rw [← hpc]
  refine ⟨⟨l1, hl1⟩, ?_⟩
  intro l k' hl
  have := h3 _ _ (path_cons hc0 hl)
  omega

/-- From a node on a path there is a path to the same end that costs no more. -/
theorem path_suffix {T : Topology} (hpos : Positive T) {d : Int} :
    ∀ (p : List Int) (k x : Int), pathCost T p = some k → p.getLast? = some d → x ∈ p →
      ∃ p2 k2, IsPath T x d p2 k2 ∧ k2 ≤ k := by
  intro p
  induction p with
  | nil => intro k x h; simp [pathCost] at h
  | cons a p ih =>
    intro k x hpc hl hx
    by_cases hxa : x = a
    · subst hxa
      exact ⟨x :: p, k, ⟨rfl, hl, hpc⟩, le_refl _⟩
    · have hxp : x ∈ p := by
        rcases List.mem_cons.mp hx with h | h
        · exact absurd h hxa
        · exact h
      cases p with
      | nil => simp at hxp
      | cons b rest =>
        obtain ⟨c, k1, hc, hk1, rfl⟩ := pathCost_cons_cons hpc
        have hl1 : (b :: rest).getLast? = some d := by
          simpa [List.getLast?_cons_cons] using hl
        obtain ⟨p2, k2, hp2, hle⟩ := ih k1 x hk1 hl1 hxp
        have := linkCost_pos hpos hc
        exact ⟨p2, k2, hp2, by omega⟩

theorem followHops_done (R : RoutingTable) (dest : Int) (fuel : Nat) (hops : List Int) :
    followHops R dest fuel dest hops = .ok hops := by
  cases fuel <;> simp [followHops]

theorem hops_shape {p : List Int} {h dest : Int} (hh : p.head? = some h)
    (hl : p.getLast? = some dest) (hne : h ≠ dest) (hops : List Int) :
    (hops ++ [h]) ++ p.tail.dropLast = hops ++ p.dropLast := by
  cases p with
  | nil => simp at hh
  | cons a rest =>
    have ha : a = h := by simpa using hh
    subst ha
    cases rest with
    | nil =>
      have : a = dest := by simpa using hl
      exact absurd this hne
    | cons r rs => simp [List.dropLast]

/-- The hop loop, started at a node h from which the destination can be reached, follows
a path of least cost that repeats no node, and leaves in the queue the nodes of that
path after h and before the destination. -/
theorem follow_walk {T : Topology} (hwf : WellFormed T) (hpos : Positive T)
    (hno : NoOverflow T) (hid : NoSentinelId T) {impl : Impl} {R : RoutingTable}
    (hT : TablesOf impl T R) (dest : Int) :
    ∀ (n : Nat) (h k : Int), k.toNat ≤ n → h ∈ node_ids T → LeastCost T h dest k →
      ∃ p, IsPath T h dest p k ∧ p.Nodup ∧ (∀ x ∈ p, x ∈ node_ids T) ∧
        (h = dest → p = [dest]) ∧
        ∀ fuel hops, p.length ≤ fuel + 1 →
          followHops R dest fuel h hops = .ok (hops ++ p.tail.dropLast) := by
  intro n
  induction n with
  | zero =>
    intro h k hn hh hk
    obtain ⟨⟨l0, hl0⟩, hmin⟩ := hk
    have h0 := pathCost_nonneg hpos l0 k hl0.2.2
    have hk0 : k = 0 := by omega
    by_cases hd : h = dest
    · subst hd
      subst hk0
      exact ⟨[h], ⟨rfl, rfl, rfl⟩, List.nodup_singleton h, by simpa using hh,
        fun _ => rfl, fun fuel hops _ => by simpa using followHops_done R h fuel hops⟩
    · obtain ⟨e, c, _, _, _, hcpos, hL⟩ :=
        table_step hwf hpos hno hid hT hh hd ⟨⟨l0, hl0⟩, hmin⟩
      obtain ⟨⟨l1, hl1⟩, _⟩ := hL
      have := pathCost_nonneg hpos l1 _ hl1.2.2
      omega
  | succ n ih =>
    intro h k hn hh hk
    by_cases hd : h = dest
    · subst hd
      obtain ⟨⟨l0, hl0⟩, hmin⟩ := hk
      have h0 := pathCost_nonneg hpos l0 k hl0.2.2
      have h1 := hmin [h] 0 ⟨rfl, rfl, rfl⟩
      have hk0 : k = 0 := by omega
      subst hk0
      exact ⟨[h], ⟨rfl, rfl, rfl⟩, List.nodup_singleton h, by simpa using hh,
        fun _ => rfl, fun fuel hops _ => by simpa using followHops_done R h fuel hops⟩
    · obtain ⟨e, c, hfind, _, hc, hcpos, hL⟩ := table_step hwf hpos hno hid hT hh hd hk
      have hnk : e.next_hop ∈ node_ids T := linkCost_known_right hwf hc
      obtain ⟨l1, hl1⟩ := hL.1
      have h1 := pathCost_nonneg hpos l1 _ hl1.2.2
      obtain ⟨p1, hp1, hnd1, hkn1, hsingle, hrun⟩ := ih e.next_hop (k - c) (by omega) hnk hL
      have hp : IsPath T h dest (h :: p1) k := by
        have := path_cons hc hp1
        rwa [show c + (k - c) = k by ring] at this
      have hnotin : h ∉ p1 := by
        intro hmem
        obtain ⟨p2, k2, hp2, hle⟩ := path_suffix hpos p1 (k - c) h hp1.2.2 hp1.2.1 hmem
        have := hk.2 p2 k2 hp2
        omega
      refine ⟨h :: p1, hp, List.nodup_cons.mpr ⟨hnotin, hnd1⟩, ?_, fun h' => absurd h' hd, ?_⟩
      · intro x hx
        rcases List.mem_cons.mp hx with rfl | hx
        · exact hh
        · exact hkn1 x hx
      · intro fuel hops hlen
        have hp1len : 1 ≤ p1.length := by
          cases p1 with
          | nil => exact absurd hp1.1 (by simp)
          | cons a r => simp
        obtain ⟨f, rfl⟩ : ∃ f, fuel = f + 1 := ⟨fuel - 1, by
          simp only [List.length_cons] at hlen; omega⟩
        have hlen1 : p1.length ≤ f + 1 := by
          simp only [List.length_cons] at hlen; omega
        simp only [followHops, ne_eq, hd, not_false_eq_true, if_true, hfind, List.tail_cons]
        by_cases hnd : e.next_hop = dest
        · have hp1s := hsingle hnd
          rw [hrun f _ hlen1, hp1s]
          simp [hnd]
        · rw [hrun f _ hlen1, if_pos hnd]
          rw [hops_shape hp1.1 hp1.2.1 hnd hops]

theorem dropLast_snoc {p : List Int} {d : Int} (h : p.getLast? = some d) :
    p.dropLast ++ [d] = p :=
  List.dropLast_append_getLast? d h

theorem TablesOf_of_update {impl : Impl} {T : Topology} {R : RoutingTable}
    (hup : ∃ R0 out, update_tables impl T R0 = .ok (R, out)) : TablesOf impl T R := by
  obtain ⟨R0, out, h⟩ := hup
  intro k hk
  exact ((updateLoop_spec impl T T (R0, "") (R, out) h) k).1 hk

/-- The trace of a message whose entry in the table of the source has a cost of 0 or
more: the hop loop follows a path of least cost from the source to the destination and
the queue holds that path without its last node (the source alone when the message is
for the source itself). -/
theorem trace_walk {T : Topology} (hwf : WellFormed T) (hpos : Positive T)
    (hno : NoOverflow T) (hid : NoSentinelId T) {impl : Impl} {R : RoutingTable}
    (hT : TablesOf impl T R) {src dest : Int} (hsrc : src ∈ node_ids T) {e : entry_t}
    (hfind : findEntry (tableAt R src) dest = .ok e) (hcost : 0 ≤ e.path_cost)
    (fuel : Nat) (hfuel : T.length ≤ fuel) :
    ∃ p, IsPath T src dest p e.path_cost ∧ p.Nodup ∧ (∀ x ∈ p, x ∈ node_ids T) ∧
      LeastCost T src dest e.path_cost ∧
      trace R fuel src dest =
        .ok (.delivered e.path_cost (if src = dest then [src] else p.dropLast)) := by
  obtain ⟨table, ht, hR⟩ := hT src hsrc
  obtain ⟨table', ht', _, hall⟩ := Dijkstra_entries hwf hpos hno impl hsrc
  rw [ht] at ht'
  injection ht' with ht'
  subst ht'
  have hf := findEntry_ok hfind
  have hed : e.dest = dest := by simpa using List.find?_some hf
  have he : e ∈ table := hR ▸ List.mem_of_find?_eq_some hf
  have hlen : ¬ (tableAt R src).length = 0 := by
    intro h
    rw [List.eq_nil_of_length_eq_zero h] at hf
    simp at hf
  have hc : e.path_cost ≥ 0 := hcost
  by_cases hsd : src = dest
  · subst hsd
    obtain ⟨hnh, hpc⟩ := (hall e he).1 hed
    refine ⟨[src], ⟨rfl, rfl, by rw [hpc]; rfl⟩, List.nodup_singleton src,
      by simpa using hsrc, ?_, ?_⟩
    · rw [hpc]
      exact ⟨⟨[src], rfl, rfl, rfl⟩, fun l k hl => pathCost_nonneg hpos l k hl.2.2⟩
    · simp only [trace, hlen, if_false, hfind, hc, if_true, hnh, ne_eq, not_true_eq_false,
        followHops_done]
  · have hes : e.dest ≠ src := by rw [hed]; exact fun h => hsd h.symm
    obtain ⟨hun, hre⟩ := (hall e he).2 hes
    have hreach : ∃ l k, IsPath T src e.dest l k := by
      by_contra hn
      have := (hun hn).1
      omega
    obtain ⟨_, h2, h3, _⟩ := hre hreach
    rw [hed] at h2 h3
    have hL : LeastCost T src dest e.path_cost := ⟨h2, h3⟩
    obtain ⟨p, hp, hnd, hkn, _, hrun⟩ :=
      follow_walk hwf hpos hno hid hT dest e.path_cost.toNat src e.path_cost (le_refl _)
        hsrc hL
    have hplen : p.length ≤ (fuel + 1) + 1 := by
      have := length_le_of_known hnd hkn
      omega
    have hstep : followHops R dest (fuel + 1) src [src] =
        followHops R dest fuel e.next_hop
          (if e.next_hop ≠ dest then [src, e.next_hop] else [src]) := by
      simp only [followHops, ne_eq, hsd, not_false_eq_true, if_true, hfind]
      rfl
    have hq : [src] ++ p.tail.dropLast = p.dropLast := by
      have := hops_shape hp.1 hp.2.1 hsd []
      simpa using this
    refine ⟨p, hp, hnd, hkn, hL, ?_⟩
    simp only [trace, hlen, if_false, hfind, hc, if_true, hsd]
    rw [← hstep, hrun (fuel + 1) [src] hplen, hq]

/-! ## C3: the trace agrees with the tables of all nodes -/

/-- C3, amended: for a symmetric topology with positive link costs, no path cost of
INT_MAX or more and no node with the identifier -1, whose tables were computed by
update_tables, the hop walk for a message from a known source visits a path of directly
linked nodes whose costs sum to the cost in the entry of the source. -/
theorem trace_consistent (impl : Impl) (T : Topology) (hwf : WellFormed T)
    (_hsym : Symmetric T) (hpos : Positive T) (hno : NoOverflow T) (hid : NoSentinelId T)
    (R : RoutingTable) (hup : ∃ R0 out, update_tables impl T R0 = .ok (R, out))
    (src dest : Int) (hsrc : src ∈ node_ids T) (fuel : Nat) (hfuel : T.length ≤ fuel) :
    TraceConsistent T R fuel src dest := by
  intro e hfind hcost
  obtain ⟨p, hp, _, _, _, htr⟩ :=
    trace_walk hwf hpos hno hid (TablesOf_of_update hup) hsrc hfind hcost fuel hfuel
  exact ⟨p, hp, htr⟩

/-- Witness of C3 (Scenario 1): the message from 1 to 3 walks 1, 2, 3 at cost 2. -/
theorem trace_consistent_witness :
    WellFormed scenario1 ∧ Symmetric scenario1 ∧ Positive scenario1 ∧ NoOverflow scenario1 ∧
    NoSentinelId scenario1 ∧
    (∃ R0 out, update_tables impl0 scenario1 R0 = .ok (tablesOf impl0 scenario1, out)) ∧
    (1 : Int) ∈ node_ids scenario1 ∧ scenario1.length ≤ 3 ∧
    TraceConsistent scenario1 (tablesOf impl0 scenario1) 3 1 3 ∧
    IsPath scenario1 1 3 [1, 2, 3] 2 ∧
    trace (tablesOf impl0 scenario1) 3 1 3 = .ok (.delivered 2 [1, 2]) :=
  ⟨by decide, by decide, by decide, scenario1_noOverflow, by decide, ⟨[], _, rfl⟩,
    by decide, by decide,
    trace_consistent impl0 scenario1 (by decide) (by decide) (by decide)
      scenario1_noOverflow (by decide) (tablesOf impl0 scenario1) ⟨[], _, rfl⟩ 1 3
      (by decide) 3 (by decide),
    by decide, rfl⟩

/-- C3 as stated fails: on the line 1 - 3 - (-1) - 2 the entry of node 1 for destination 2
has cost 3 and next hop -1, so the walk for a message from 1 to 2 goes from node 1 to
node -1, which are not linked. -/
theorem trace_consistent_counterexample :
    WellFormed topoSentinel ∧ Symmetric topoSentinel ∧ Positive topoSentinel ∧
    (∃ R0 out, update_tables impl0 topoSentinel R0
      = .ok (tablesOf impl0 topoSentinel, out)) ∧
    findEntry (tableAt (tablesOf impl0 topoSentinel) 1) 2 = .ok ⟨2, -1, 3⟩ ∧
    trace (tablesOf impl0 topoSentinel) 4 1 2 = .ok (.delivered 3 [1, -1]) ∧
    linkCost topoSentinel 1 (-1) = none ∧
    ¬ TraceConsistent topoSentinel (tablesOf impl0 topoSentinel) 4 1 2 := by
  refine ⟨by decide, by decide, by decide, ⟨[], _, rfl⟩, rfl, rfl, by decide, ?_⟩
  intro h
  obtain ⟨p, hp, htr⟩ := h ⟨2, -1, 3⟩ rfl (by decide)
  have htr1 : trace (tablesOf impl0 topoSentinel) 4 1 2 = .ok (.delivered 3 [1, -1]) := rfl
  rw [htr1] at htr
  injection htr with htr
  injection htr with _ hq
  rw [if_neg (by decide)] at hq
  have hp3 := dropLast_snoc hp.2.1
  rw [← hq] at hp3
  have hpc := hp.2.2
  rw [← hp3] at hpc
  revert hpc
  decide

/-! ## C4: the hop sequence of a delivered message -/

theorem dropLast_head {p : List Int} {s d : Int} (hh : p.head? = some s)
    (hl : p.getLast? = some d) (hne : s ≠ d) : p.dropLast.head? = some s := by
  cases p with
  | nil => simp at hh
  | cons a rest =>
    have ha : a = s := by simpa using hh
    subst ha
    cases rest with
    | nil =>
      have : a = d := by simpa using hl
      exact absurd this hne
    | cons r rs => simp [List.dropLast]

/-- C4, amended: under the conditions of C3, the hops written for a delivered message
are the nodes of the path from the source in order, without the destination. -/
theorem hops_up_to_destination (impl : Impl) (T : Topology) (hwf : WellFormed T)
    (_hsym : Symmetric T) (hpos : Positive T) (hno : NoOverflow T) (hid : NoSentinelId T)
    (R : RoutingTable) (hup : ∃ R0 out, update_tables impl T R0 = .ok (R, out))
    (msg : message_t) (hsrc : msg.src ∈ node_ids T) (fuel : Nat) (hfuel : T.length ≤ fuel) :
    HopsUpToDestination T R fuel msg := by
  intro e hfind hcost
  obtain ⟨p, hp, hnd, _, _, htr⟩ :=
    trace_walk hwf hpos hno hid (TablesOf_of_update hup) hsrc hfind hcost fuel hfuel
  refine ⟨if msg.src = msg.dest then [msg.src] else p.dropLast, ?_, ?_, ?_, ?_⟩
  · simp only [sendOne, htr, render]
  · by_cases hsd : msg.src = msg.dest
    · rw [if_pos hsd]; rfl
    · rw [if_neg hsd]; exact dropLast_head hp.1 hp.2.1 hsd
  · intro hsd
    rw [if_pos hsd]
  · intro hsd
    rw [if_neg hsd, dropLast_snoc hp.2.1]
    exact ⟨hnd, hp⟩

/-- Witness of C4 (Scenario 1): the line of the message from 1 to 3. -/
theorem hops_up_to_destination_witness :
    WellFormed scenario1 ∧ Symmetric scenario1 ∧ Positive scenario1 ∧ NoOverflow scenario1 ∧
    NoSentinelId scenario1 ∧
    (∃ R0 out, update_tables impl0 scenario1 R0 = .ok (tablesOf impl0 scenario1, out)) ∧
    (1 : Int) ∈ node_ids scenario1 ∧ scenario1.length ≤ 3 ∧
    HopsUpToDestination scenario1 (tablesOf impl0 scenario1) 3 ⟨1, 3, "hi"⟩ ∧
    sendOne (tablesOf impl0 scenario1) 3 ⟨1, 3, "hi"⟩
      = .ok "from 1 to 3 cost 2 hops 1 2 message hi\n" :=
  ⟨by decide, by decide, by decide, scenario1_noOverflow, by decide, ⟨[], _, rfl⟩,
    by decide, by decide,
    hops_up_to_destination impl0 scenario1 (by decide) (by decide) (by decide)
      scenario1_noOverflow (by decide) (tablesOf impl0 scenario1) ⟨[], _, rfl⟩
      ⟨1, 3, "hi"⟩ (by decide) 3 (by decide),
    rfl⟩

/-- C4 as stated fails (Scenario 1): the hops of the message from 1 to 3 are 1 and 2; the
destination 3 is not among them. -/
theorem hops_complete_counterexample :
    trace (tablesOf impl0 scenario1) 3 1 3 = .ok (.delivered 2 [1, 2]) ∧
    sendOne (tablesOf impl0 scenario1) 3 ⟨1, 3, "hi"⟩
      = .ok "from 1 to 3 cost 2 hops 1 2 message hi\n" ∧
    ¬ HopsComplete (tablesOf impl0 scenario1) 3 1 3 := by
  refine ⟨rfl, rfl, ?_⟩
  intro h
  have h1 := (h 2 [1, 2] rfl).2
  revert h1
  decide

/-! ## The main loop: ties -/

theorem select_no_wrap {T : Topology} (hpos : Positive T) (hno : NoOverflow T) {s : Int}
    {st : DState} (hS : SInv T s st) (hC : CInv T s st) {m x : Int}
    (hmD : mapFind st.D m = some x) (hmN : m ∉ st.N) :
    ∀ v c, v ∉ m :: st.N → linkCost T m v = some c →
      wrap32 (mapAt st.D m + c) = x + c := by
  intro v c hv hc
  obtain ⟨l, _, h2, h3, h4, h5⟩ := front_path hS hC hmN hmD
  have hpc := pathCost_snoc l x m v c h5 h2 hc
  have hnd : (l ++ [v]).Nodup := by
    refine List.Nodup.append h3 (List.nodup_singleton v) ?_
    intro a ha ha'
    have : a = v := by simpa using ha'
    exact hv (this ▸ h4 a ha)
  rw [mapAt_of_find hmD]
  exact wrap32_id (pathCost_nonneg hpos _ _ hpc) (hno _ _ hnd hpc)

/-- A selection keeps the tie invariant. -/
theorem TInv_select {T : Topology} (hwf : WellFormed T) (hpos : Positive T)
    (hno : NoOverflow T) {s : Int} {st : DState} (hS : SInv T s st) (hC : CInv T s st)
    (hT : TInv T s st) {m x : Int} {node : node_t} (hmD : mapFind st.D m = some x)
    (hmN : m ∉ st.N) (hnode : topoFind T m = some node) : TInv T s (relaxed st m node) := by
  have hms : m ≠ s := fun h => hmN (h ▸ hS.tree.src)
  have hxm : mapAt st.D m = x := mapAt_of_find hmD
  have hdm : dist0 s st.D m = x := by simp only [dist0, hms, if_false, hxm]
  have keep := fun v (hv : v ∈ m :: st.N) => relaxed_keep hwf st m node hnode v (Or.inl hv)
  have hd0 : ∀ v ∈ m :: st.N, dist0 s (relaxed st m node).D v = dist0 s st.D v :=
    fun v hv => dist0_congr (keep v hv).1
  have hP0 : ∀ v ∈ m :: st.N, mapAt (relaxed st m node).P v = mapAt st.P v :=
    fun v hv => mapAt_congr (keep v hv).2
  have hNN : (relaxed st m node).N = m :: st.N := rfl
  have hW := select_no_wrap hpos hno hS hC hmD hmN
  constructor
  · intro v hv x' hx' u hu c hc heq
    have hvN : v ∉ st.N := fun h => hv (List.mem_cons_of_mem _ h)
    rw [hd0 u hu] at heq
    rcases relaxed_cases hwf st m node hnode v hv with ⟨e1, e2, h3⟩ | ⟨cm, hl, e1, e2, h4⟩
    · rw [e1] at hx'
      rw [mapAt_congr e2]
      rcases List.mem_cons.mp hu with rfl | huN
      · obtain ⟨y, hy, _, htie⟩ := h3 c hc
        rw [hx'] at hy
        cases hy
        apply htie
        rw [hW v c hv hc, ← heq, hdm]
      · exact hT.front v hvN x' hx' u huN c hc heq
    · rw [mapAt_of_find e2]
      rcases List.mem_cons.mp hu with rfl | huN
      · exact le_refl _
      · rw [e1, hW v cm hv hl] at hx'
        have hx'' := Option.some.inj hx'
        obtain ⟨y, hy, hyle⟩ := hC.frontier u huN v hvN c hc
        rcases h4 y hy with h | ⟨h, hlt⟩
        · rw [hW v cm hv hl] at h
          omega
        · rw [hW v cm hv hl] at h
          have := hT.front v hvN y hy u huN c hc (by omega)
          omega
  · intro v hv hvs u hu c hc heq
    rw [hNN] at hv hu
    rw [hd0 u hu, hd0 v hv] at heq
    rw [hP0 v hv]
    have hcpos := linkCost_pos hpos hc
    rcases List.mem_cons.mp hv with rfl | hvN
    · rcases List.mem_cons.mp hu with rfl | huN
      · omega
      · exact hT.front v hmN x hmD u huN c hc (by rw [heq, hdm])
    · rcases List.mem_cons.mp hu with rfl | huN
      · have := hC.mono v hvN u hmN x hmD
        rw [hdm] at heq
        omega
      · exact hT.done v hvN hvs u huN c hc heq

/-- The initial state satisfies the tie invariant. -/
theorem TInv_init {T : Topology} (hwf : WellFormed T) {s : Int} {node : node_t}
    (hnode : topoFind T s = some node) : TInv T s (initState s node) := by
  have hN := initState_N s node
  have hD := initState_D hwf hnode
  constructor
  · intro v _ x hx u hu _ _ _
    rw [hN] at hu
    rw [hD] at hx
    have hmem : v ∈ node.neighbors.map Prod.fst :=
      List.mem_map.mpr ⟨(v, x), mapFind_some_mem hx, rfl⟩
    have hP := initState_P s node v
    rw [if_pos hmem] at hP
    rw [mapAt_of_find hP, List.mem_singleton.mp hu]
  · intro v hv hvs
    rw [hN] at hv
    exact absurd (List.mem_singleton.mp hv) hvs

theorem TieFinal_congr {T : Topology} {s : Int} {st st1 : DState} {R : List Int}
    (h : ∀ v ∈ R, v ≠ s → ∀ u ∈ R, ∀ c,
      linkCost T u v = some c → dist0 s st.D u + c = dist0 s st.D v → mapAt st.P v ≤ u)
    (hkeep : ∀ v ∈ R, mapFind st1.D v = mapFind st.D v ∧ mapFind st1.P v = mapFind st.P v) :
    TieFinal T s st1 R := by
  intro v hv hvs u hu c hc heq
  rw [dist0_congr (hkeep u hu).1, dist0_congr (hkeep v hv).1] at heq
  rw [mapAt_congr (hkeep v hv).2]
  exact h v hv hvs u hu c hc heq

/-- The main loop ends in a state that satisfies the structure, cost and tie properties
of the reached nodes. -/
theorem mainLoop_final {T : Topology} (hwf : WellFormed T) (hpos : Positive T)
    (hno : NoOverflow T) (impl : Impl) {s : Int} {node : node_t}
    (hnode : topoFind T s = some node) :
    ∃ st, mainLoop impl T T.length (initState s node) = .ok st ∧
      ∃ R, SFinal T s st R ∧ CFinal T s st R ∧ TieFinal T s st R := by
  refine mainLoop_induct impl T (fun st => SInv T s st ∧ CInv T s st ∧ TInv T s st)
    (fun st1 => ∃ R, SFinal T s st1 R ∧ CFinal T s st1 R ∧ TieFinal T s st1 R) ?_ ?_ ?_
    T.length (initState s node)
    ⟨SInv_init hwf hnode, CInv_init hwf hpos hnode, TInv_init hwf hnode⟩
    (initState_fuel s node)
  · intro k st hI _ hne
    obtain ⟨node1, hnode1, hit, hS1⟩ := SInv_select hwf hI.1 impl k hne
    obtain ⟨hmD, hmN, _⟩ := (scan_spec impl k st.N st.D hI.1.keysD).2.2 hne
    have hmin := (scan_spec impl k st.N st.D hI.1.keysD).2.1
    exact ⟨_, hit, ⟨hS1, CInv_select hwf hpos hno hI.1 hI.2.1 hmD hmN hmin hnode1,
      TInv_select hwf hpos hno hI.1 hI.2.1 hI.2.2 hmD hmN hnode1⟩, rfl⟩
  · intro k st hI _ he
    exact ⟨⟨st.N, (SFinal_of_mark hwf hI.1).1, CFinal_of_mark hno hI.1 hI.2.1 impl k he,
      TieFinal_congr hI.2.2.done (mark_fold T st).2.2⟩, (SFinal_of_mark hwf hI.1).2⟩
  · intro st hI hn
    exact ⟨st.N, SFinal_of_exit hI.1 hn, CFinal_of_exit hwf hI.1 hI.2.1 hn, hI.2.2.done⟩

/-- In the final state the cost of a reached node is the least cost of a path to it. -/
theorem leastCost_of_final {T : Topology} {s : Int} {st : DState} {R : List Int}
    (hS : SFinal T s st R) (hC : CFinal T s st R) {v : Int} (hv : v ∈ R) :
    LeastCost T s v (dist0 s st.D v) := by
  obtain ⟨l, h1, h2, _, _, h5⟩ := tree_path_mem hS.tree hC.treeCost hv
  refine ⟨⟨l, h1, h2, h5⟩, ?_⟩
  intro l' k' hl'
  have := (path_lower_bound hC l' k' s v hS.tree.src hl'.1 hl'.2.1 hl'.2.2).2
  rw [dist0_src] at this
  omega

theorem chain_of_prev_src {P : List (Int × Int)} {s h u : Int} (hch : Chain P s h u)
    (hu : mapAt P u = s) : h = u := by
  cases hch with
  | base _ _ => rfl
  | step u' _ hch' _ hP =>
    rw [hu] at hP
    exact absurd hP.symm hch'.ne.2.1

/-! ## C7: destinations with several cheapest paths -/

theorem topoTie_noOverflow : NoOverflow topoTie :=
  noOverflow_of_bound (by decide) 1 (by decide) (by decide) (by decide)

theorem topoDiamond_noOverflow : NoOverflow topoDiamond :=
  noOverflow_of_bound (by decide) 1 (by decide) (by decide) (by decide)

theorem length_ge_two {l : List Int} {s w : Int} (hh : l.head? = some s)
    (hl : l.getLast? = some w) (hne : w ≠ s) : 2 ≤ l.length := by
  cases l with
  | nil => simp at hh
  | cons a rest =>
    cases rest with
    | nil =>
      have h1 : a = s := by simpa using hh
      have h2 : a = w := by simpa using hl
      exact absurd (h2.symm.trans h1) hne
    | cons b r => simp

/-- C7, amended: for a symmetric topology with positive link costs and no path cost of
INT_MAX or more, the next hop entered for a destination all of whose cheapest paths
have two links is the neighbour with the least identifier among those on such a
path. -/
theorem two_link_tie_break (impl : Impl) (T : Topology) (hwf : WellFormed T)
    (_hsym : Symmetric T) (hpos : Positive T) (hno : NoOverflow T)
    (s : Int) (hs : s ∈ node_ids T) : TwoLinkTieBreak impl T s := by
  obtain ⟨node, hnode⟩ := topoFind_of_known hs
  by_cases hiso : node.neighbors = []
  · refine ⟨_, Dijkstra_isolated hwf impl hnode hiso, ?_⟩
    intro d k hds hL
    obtain ⟨l0, hl0⟩ := hL.1
    exact absurd ⟨l0, k, hl0⟩ (no_path_of_isolated hnode hiso hds)
  · obtain ⟨st, hloop, R, hS, hC, hTie⟩ := mainLoop_final hwf hpos hno impl hnode
    obtain ⟨table, ht, hmap, hall⟩ := fillTable_spec hS impl T
      (fun p hp => List.mem_map.mpr ⟨p, hp, rfl⟩)
    refine ⟨table, by rw [Dijkstra_linked hwf impl hnode hiso hloop]; exact ht, ?_⟩
    intro d k hds hL h3 e he hed
    subst hed
    obtain ⟨l0, hl0⟩ := hL.1
    have hsR := hS.tree.src
    have hdR : e.dest ∈ R :=
      (path_lower_bound hC l0 k s e.dest hsR hl0.1 hl0.2.1 hl0.2.2).1
    have hk : dist0 s st.D e.dest = k := LeastCost.unique (leastCost_of_final hS hC hdR) hL
    obtain ⟨c2, hc2, hD2⟩ := hC.treeCost e.dest hdR hds
    have huR := hS.tree.prev_mem hdR hds
    rw [dist0_other _ hds] at hk
    have hus : mapAt st.P e.dest ≠ s := by
      intro hu
      rw [hu] at hc2 hD2
      rw [dist0_src] at hD2
      have hp : IsPath T s e.dest [s, e.dest] k :=
        ⟨rfl, rfl, by simp only [pathCost, hc2]; congr 1; omega⟩
      have := h3 _ hp
      simp at this
    obtain ⟨c1, hc1, hD1⟩ := hC.treeCost _ huR hus
    rw [dist0_other _ hus] at hD2
    have hwR := hS.tree.prev_mem huR hus
    have hws : mapAt st.P (mapAt st.P e.dest) = s := by
      by_contra hw
      obtain ⟨lw, g1, g2, _, _, g5⟩ := tree_path_mem hS.tree hC.treeCost hwR
      have q1 := pathCost_snoc lw _ _ _ c1 g5 g2 hc1
      have q2 := pathCost_snoc (lw ++ [mapAt st.P e.dest]) _ _ e.dest c2 q1
        (last_snoc lw _) hc2
      have hp : IsPath T s e.dest (lw ++ [mapAt st.P e.dest] ++ [e.dest]) k := by
        refine ⟨head_snoc (head_snoc g1 _) _, last_snoc _ _, ?_⟩
        rw [q2]
        congr 1
        omega
      have h4 := h3 _ hp
      have h5 := length_ge_two g1 g2 hw
      simp only [List.length_append, List.length_singleton] at h4
      omega
    rw [hws] at hc1 hD1
    rw [dist0_src] at hD1
    have hd : e.dest ∈ node_ids T := hS.tree.known _ hdR
    obtain ⟨e1, he1, _, _, hspec⟩ := fillEntry_spec hS impl e.dest hd
    rw [hall e he] at he1
    have hee : e = e1 := by injection he1
    subst hee
    obtain ⟨_, _, hnh2, hnh3⟩ := hspec hds
    have hnh : e.next_hop = mapAt st.P e.dest := by
      by_cases hne1 : mapAt st.P e.dest = -1
      · rw [hnh2 hus hne1, hne1]
      · exact chain_of_prev_src (hnh3 hus hne1) hws
    constructor
    · rw [hnh]
      refine ⟨rfl, rfl, ?_⟩
      simp only [pathCost, hc1, hc2]
      congr 1
      omega
    · intro a ha
      obtain ⟨ca1, k1, hca1, hk1, hka⟩ := pathCost_cons_cons ha.2.2
      obtain ⟨ca2, k2, hca2, hk2, hkb⟩ := pathCost_cons_cons hk1
      simp only [pathCost, Option.some.injEq] at hk2
      have haR := hC.closed s hsR a ca1 hca1
      have f1 := hC.feas s hsR a haR ca1 hca1
      have f2 := hC.feas a haR e.dest hdR ca2 hca2
      rw [dist0_src] at f1
      rw [dist0_other _ hds] at f2
      have heq : dist0 s st.D a + ca2 = dist0 s st.D e.dest := by
        rw [dist0_other _ hds]
        omega
      rw [hnh]
      exact hTie e.dest hdR hds a haR ca2 hca2 heq

theorem pathCost_ge_length {T : Topology} (hpos : Positive T) :
    ∀ (l : List Int) (k : Int), pathCost T l = some k → (l.length : Int) - 1 ≤ k := by
  intro l
  induction l with
  | nil => intro k h; simp [pathCost] at h
  | cons a l ih =>
    intro k h
    cases l with
    | nil =>
      simp only [pathCost, Option.some.injEq] at h
      simp [← h]
    | cons b rest =>
      obtain ⟨c, k1, hc, hk, rfl⟩ := pathCost_cons_cons h
      have h1 := ih k1 hk
      have h2 := linkCost_pos hpos hc
      simp only [List.length_cons] at h1 ⊢
      push_cast at h1 ⊢
      omega

theorem topoDiamond_two_links : ∀ l, IsPath topoDiamond 1 4 l 2 → l.length = 3 := by
  intro l hl
  have h1 := @pathCost_le_bound topoDiamond 1 (by decide) l 2 hl.2.2
  have h2 := @pathCost_ge_length topoDiamond (by decide) l 2 hl.2.2
  omega

theorem topoDiamondSentinel_noOverflow : NoOverflow topoDiamondSentinel :=
  noOverflow_of_bound (by decide) 1 (by decide) (by decide) (by decide)

/-- Witness of C7: with the two ways 1 - 2 - 4 and 1 - 3 - 4, which are all the cheapest
paths from 1 to 4, the next hop to 4 is 2; and with the node -1 in the place of node 2
the next hop to 4 is -1, the smaller neighbour. -/
theorem two_link_tie_break_witness :
    WellFormed topoDiamond ∧ Symmetric topoDiamond ∧ Positive topoDiamond ∧
    NoOverflow topoDiamond ∧ (1 : Int) ∈ node_ids topoDiamond ∧
    TwoLinkTieBreak impl0 topoDiamond 1 ∧
    IsPath topoDiamond 1 4 [1, 2, 4] 2 ∧ IsPath topoDiamond 1 4 [1, 3, 4] 2 ∧
    (∀ l, IsPath topoDiamond 1 4 l 2 → l.length = 3) ∧
    Dijkstra impl0 topoDiamond 1 = .ok [⟨1, 1, 0⟩, ⟨2, 2, 1⟩, ⟨3, 3, 1⟩, ⟨4, 2, 2⟩] ∧
    TwoLinkTieBreak impl0 topoDiamondSentinel 1 ∧
    Dijkstra impl0 topoDiamondSentinel 1
      = .ok [⟨-1, -1, 1⟩, ⟨1, 1, 0⟩, ⟨3, 3, 1⟩, ⟨4, -1, 2⟩] :=
  ⟨by decide, by decide, by decide, topoDiamond_noOverflow, by decide,
    two_link_tie_break impl0 topoDiamond (by decide) (by decide) (by decide)
      topoDiamond_noOverflow 1 (by decide),
    by decide, by decide, topoDiamond_two_links, rfl,
    two_link_tie_break impl0 topoDiamondSentinel (by decide) (by decide) (by decide)
      topoDiamondSentinel_noOverflow 1 (by decide),
    rfl⟩

/-- C7 as stated fails: destination 6 has the two cheapest paths 1 - 2 - 5 - 6 and
1 - 3 - 4 - 6 without a common link; the entry of source 1 has next hop 3, not 2,
because the previous node 4 of node 6 has a smaller identifier than 5. -/
theorem next_hop_tie_break_counterexample :
    WellFormed topoTie ∧ Symmetric topoTie ∧ Positive topoTie ∧
    IsPath topoTie 1 6 [1, 2, 5, 6] 3 ∧ IsPath topoTie 1 6 [1, 3, 4, 6] 3 ∧
    EdgeDisjoint [1, 2, 5, 6] [1, 3, 4, 6] ∧ LeastCost topoTie 1 6 3 ∧
    Dijkstra impl0 topoTie 1
      = .ok [⟨1, 1, 0⟩, ⟨2, 2, 1⟩, ⟨3, 3, 1⟩, ⟨4, 3, 2⟩, ⟨5, 2, 2⟩, ⟨6, 3, 3⟩] ∧
    ¬ NextHopTieBreak impl0 topoTie 1 := by
  have ht1 : Dijkstra impl0 topoTie 1
      = .ok [⟨1, 1, 0⟩, ⟨2, 2, 1⟩, ⟨3, 3, 1⟩, ⟨4, 3, 2⟩, ⟨5, 2, 2⟩, ⟨6, 3, 3⟩] := rfl
  have hL : LeastCost topoTie 1 6 3 := by
    refine ⟨⟨[1, 2, 5, 6], by decide⟩, ?_⟩
    intro l k hl
    obtain ⟨table, ht, _, hall⟩ :=
      @Dijkstra_entries topoTie (by decide) (by decide) topoTie_noOverflow impl0 1 (by decide)
    rw [ht1] at ht
    injection ht with ht
    subst ht
    exact (((hall ⟨6, 3, 3⟩ (by decide)).2 (by decide)).2 ⟨l, k, hl⟩).2.2.1 l k hl
  refine ⟨by decide, by decide, by decide, by decide, by decide, by decide, hL, ht1, ?_⟩
  rintro ⟨table, ht, h⟩
  rw [ht1] at ht
  injection ht with ht
  subst ht
  have := h 6 3 2 3 [5, 6] [4, 6] hL (by decide) (by decide) (by decide) ⟨6, 3, 3⟩
    (by decide) rfl
  revert this
  decide

/-! ## Two runs that differ in the enumeration orders -/

theorem same_keys {T1 T2 : Topology} (h : SameUpToOrder T1 T2) :
    T1.map Prod.fst = T2.map Prod.fst := by
  unfold SameUpToOrder at h
  induction h with
  | nil => rfl
  | cons hpq _ ih => simp [hpq.1, ih]

theorem same_find {T1 T2 : Topology} (h : SameUpToOrder T1 T2) (k : Int) :
    (topoFind T1 k = none ∧ topoFind T2 k = none) ∨
    (∃ n1 n2, topoFind T1 k = some n1 ∧ topoFind T2 k = some n2 ∧
      n1.neighbors.Perm n2.neighbors) := by
  unfold SameUpToOrder at h
  induction h with
  | nil => left; exact ⟨rfl, rfl⟩
  | @cons p q T1 T2 hpq _ ih =>
    obtain ⟨k1, n1⟩ := p
    obtain ⟨k2, n2⟩ := q
    obtain ⟨hk, _, hperm⟩ := hpq
    simp only at hk hperm
    subst hk
    by_cases hkk : k = k1
    · right
      exact ⟨n1, n2, by simp [topoFind, hkk], by simp [topoFind, hkk], hperm⟩
    · simpa [topoFind, hkk] using ih

theorem mapFind_perm {l1 l2 : List (Int × Int)} (hperm : l1.Perm l2)
    (hnd : (l1.map Prod.fst).Nodup) (k : Int) : mapFind l1 k = mapFind l2 k := by
  have hnd2 : (l2.map Prod.fst).Nodup := (hperm.map Prod.fst).nodup_iff.mp hnd
  cases h1 : mapFind l1 k with
  | none =>
    have hk : k ∉ l1.map Prod.fst := (mapFind_none_iff l1 k).mp h1
    have hk2 : k ∉ l2.map Prod.fst := fun h => hk ((hperm.map Prod.fst).mem_iff.mpr h)
    exact ((mapFind_none_iff l2 k).mpr hk2).symm
  | some v =>
    exact (mapFind_of_mem hnd2 (hperm.mem_iff.mp (mapFind_some_mem h1))).symm

theorem scan_agree (impl1 impl2 : Impl) (k1 k2 : Nat) (N : List Int)
    {D1 D2 : List (Int × Int)} (hD : ∀ v, mapFind D1 v = mapFind D2 v)
    (h1 : (D1.map Prod.fst).Nodup) (h2 : (D2.map Prod.fst).Nodup) :
    (scan impl1 k1 N D1).2 = (scan impl2 k2 N D2).2 ∧
    ((scan impl1 k1 N D1).2 ≠ INT_MAX → (scan impl1 k1 N D1).1 = (scan impl2 k2 N D2).1) := by
  obtain ⟨a1, a2, a3⟩ := scan_spec impl1 k1 N D1 h1
  obtain ⟨b1, b2, b3⟩ := scan_spec impl2 k2 N D2 h2
  have hsnd : (scan impl1 k1 N D1).2 = (scan impl2 k2 N D2).2 := by
    by_cases ha : (scan impl1 k1 N D1).2 = INT_MAX
    · by_cases hb : (scan impl2 k2 N D2).2 = INT_MAX
      · rw [ha, hb]
      · obtain ⟨hbD, hbN, _⟩ := b3 hb
        have := a2 _ _ hbN (by rw [hD]; exact hbD)
        omega
    · obtain ⟨haD, haN, _⟩ := a3 ha
      have hle := b2 _ _ haN (by rw [← hD]; exact haD)
      have hb : (scan impl2 k2 N D2).2 ≠ INT_MAX := by omega
      obtain ⟨hbD, hbN, _⟩ := b3 hb
      have := a2 _ _ hbN (by rw [hD]; exact hbD)
      omega
  refine ⟨hsnd, ?_⟩
  intro ha
  have hb : (scan impl2 k2 N D2).2 ≠ INT_MAX := by rw [← hsnd]; exact ha
  obtain ⟨haD, haN, hamin⟩ := a3 ha
  obtain ⟨hbD, hbN, hbmin⟩ := b3 hb
  have e1 := hamin _ hbN (by rw [hD, hsnd]; exact hbD)
  have e2 := hbmin _ haN (by rw [← hD, ← hsnd]; exact haD)
  omega

theorem relax_agree {nb1 nb2 : List (Int × Int)} (hperm : nb1.Perm nb2)
    (hnd : (nb1.map Prod.fst).Nodup) (N : List Int) (m : Int) (hm : m ∈ N)
    (acc1 acc2 : List (Int × Int) × List (Int × Int))
    (hD : ∀ v, mapFind acc1.1 v = mapFind acc2.1 v)
    (hP : ∀ v, mapFind acc1.2 v = mapFind acc2.2 v) (v : Int) :
    mapFind (nb1.foldl (relaxStep N m) acc1).1 v = mapFind (nb2.foldl (relaxStep N m) acc2).1 v ∧
    mapFind (nb1.foldl (relaxStep N m) acc1).2 v
      = mapFind (nb2.foldl (relaxStep N m) acc2).2 v := by
  have hnd2 : (nb2.map Prod.fst).Nodup := (hperm.map Prod.fst).nodup_iff.mp hnd
  have hf := mapFind_perm hperm hnd v
  obtain ⟨a1, a2⟩ := relax_fold_spec N m hm nb1 hnd acc1 v
  obtain ⟨b1, b2⟩ := relax_fold_spec N m hm nb2 hnd2 acc2 v
  by_cases hv : v ∈ N ∨ mapFind nb1 v = none
  · obtain ⟨x1, x2⟩ := a1 hv
    obtain ⟨y1, y2⟩ := b1 (by rw [← hf]; exact hv)
    rw [x1, x2, y1, y2]
    exact ⟨hD v, hP v⟩
  · have hvN : v ∉ N := fun h => hv (Or.inl h)
    cases hc : mapFind nb1 v with
    | none => exact absurd (Or.inr hc) hv
    | some c =>
      have x := a2 c hvN hc
      have y := b2 c hvN (by rw [← hf]; exact hc)
      have hmm : mapAt acc1.1 m = mapAt acc2.1 m := mapAt_congr (hD m)
      rw [hD v, hP v, hmm, ← y] at x
      exact ⟨(Prod.mk.inj x).1, (Prod.mk.inj x).2⟩

theorem StEq_markStep {a b : DState} (h : StEq a b) (p q : Int × node_t) (hpq : p.1 = q.1) :
    StEq (markStep a p) (markStep b q) := by
  unfold markStep
  rw [← hpq, ← h.N]
  by_cases hp : p.1 ∈ a.N
  · simpa [hp] using h
  · simp only [hp, not_false_eq_true, if_true]
    refine ⟨rfl, ?_, ?_, keys_mapSet_nodup _ _ h.keysA, keys_mapSet_nodup _ _ h.keysB⟩
    · intro v
      by_cases hv : v = p.1
      · rw [hv, mapFind_mapSet_self, mapFind_mapSet_self]
      · rw [mapFind_mapSet_other _ _ _ _ hv, mapFind_mapSet_other _ _ _ _ hv]
        exact h.D v
    · intro v
      by_cases hv : v = p.1
      · rw [hv, mapFind_mapSet_self, mapFind_mapSet_self]
      · rw [mapFind_mapSet_other _ _ _ _ hv, mapFind_mapSet_other _ _ _ _ hv]
        exact h.P v

theorem StEq_mark {T1 T2 : Topology} (hsame : SameUpToOrder T1 T2) :
    ∀ {a b : DState}, StEq a b → StEq (T1.foldl markStep a) (T2.foldl markStep b) := by
  unfold SameUpToOrder at hsame
  induction hsame with
  | nil => intro a b h; exact h
  | cons hpq _ ih =>
    intro a b h
    exact ih (StEq_markStep h _ _ hpq.1)

theorem StEq_iterate {T1 T2 : Topology} (hwf : WellFormed T1) (hsame : SameUpToOrder T1 T2)
    (impl1 impl2 : Impl) (k : Nat) {a b : DState} (h : StEq a b) :
    ExEq (iterate impl1 T1 k a) (iterate impl2 T2 k b) := by
  obtain ⟨hs2, hs1⟩ := scan_agree impl1 impl2 k k a.N (h.D) h.keysA h.keysB
  unfold iterate
  simp only []
  rw [← h.N, ← hs2]
  by_cases hne : (scan impl1 k a.N a.D).2 ≠ INT_MAX
  · rw [if_pos hne, if_pos hne, ← hs1 hne]
    rcases same_find hsame (scan impl1 k a.N a.D).1 with ⟨f1, f2⟩ | ⟨n1, n2, f1, f2, hperm⟩
    · rw [f1, f2]
      exact rfl
    · rw [f1, f2]
      simp only [ExEq]
      have hmem : (scan impl1 k a.N a.D).1 ∈ setN a.N (scan impl1 k a.N a.D).1 := by
        unfold setN
        split
        · assumption
        · exact List.mem_cons_self _ _
      have hag := relax_agree hperm (neighbors_nodup hwf f1) _ _ hmem (a.D, a.P) (b.D, b.P)
        h.D h.P
      exact ⟨rfl, fun v => (hag v).1, fun v => (hag v).2,
        relax_fold_keys _ _ _ _ h.keysA, relax_fold_keys _ _ _ _ h.keysB⟩
  · rw [if_neg hne, if_neg hne]
    exact StEq_mark hsame h

theorem StEq_mainLoop {T1 T2 : Topology} (hwf : WellFormed T1) (hsame : SameUpToOrder T1 T2)
    (impl1 impl2 : Impl) :
    ∀ (fuel : Nat) {a b : DState}, StEq a b →
      ExEq (mainLoop impl1 T1 fuel a) (mainLoop impl2 T2 fuel b) := by
  have hlen : T1.length = T2.length := by
    have := congrArg List.length (same_keys hsame)
    simpa using this
  intro fuel
  induction fuel with
  | zero =>
    intro a b h
    simp only [mainLoop, ← h.N, ← hlen]
    split
    · exact rfl
    · exact h
  | succ fuel ih =>
    intro a b h
    simp only [mainLoop, ← h.N, ← hlen]
    split
    · have hit := StEq_iterate hwf hsame impl1 impl2 fuel h
      cases h1 : iterate impl1 T1 fuel a with
      | error e1 =>
        cases h2 : iterate impl2 T2 fuel b with
        | error e2 =>
          rw [h1, h2] at hit
          simpa [ExEq] using hit
        | ok b1 =>
          rw [h1, h2] at hit
          exact hit.elim
      | ok a1 =>
        cases h2 : iterate impl2 T2 fuel b with
        | error e2 =>
          rw [h1, h2] at hit
          exact hit.elim
        | ok b1 =>
          rw [h1, h2] at hit
          exact ih hit
    · exact h

theorem hopLoop_congr {P1 P2 : List (Int × Int)} (hP : ∀ v, mapAt P1 v = mapAt P2 v)
    (s : Int) : ∀ (fuel : Nat) (prev nh : Int),
      hopLoop P1 s fuel prev nh = hopLoop P2 s fuel prev nh := by
  intro fuel
  induction fuel with
  | zero => intro prev nh; rfl
  | succ fuel ih =>
    intro prev nh
    simp only [hopLoop, hP prev, ih]

theorem hopLoop_garbage (P : List (Int × Int)) (s : Int) :
    ∀ (fuel : Nat) (prev nh1 nh2 : Int), prev ≠ s →
      hopLoop P s fuel prev nh1 = hopLoop P s fuel prev nh2 := by
  intro fuel
  induction fuel with
  | zero => intro prev nh1 nh2 h; simp [hopLoop, h]
  | succ fuel ih =>
    intro prev nh1 nh2 h
    simp only [hopLoop, ne_eq, h, not_false_eq_true, if_true]
    by_cases hp : mapAt P prev = s
    · rw [if_pos hp, if_pos hp]
    · rw [if_neg hp, if_neg hp]
      exact ih _ _ _ hp

theorem fillEntry_agree (impl1 impl2 : Impl) (fuel : Nat) (s : Int) {a b : DState}
    (h : StEq a b) (d : Int) :
    fillEntry impl1 fuel s a d = fillEntry impl2 fuel s b d := by
  have hD : ∀ v, mapAt a.D v = mapAt b.D v := fun v => mapAt_congr (h.D v)
  have hP : ∀ v, mapAt a.P v = mapAt b.P v := fun v => mapAt_congr (h.P v)
  unfold fillEntry
  simp only [hD, hP]
  by_cases h1 : d = s
  · simp [h1]
  · by_cases h2 : mapAt b.P d = s
    · simp [h1, h2]
    · simp only [h1, h2, if_false]
      rw [hopLoop_congr hP s, hopLoop_garbage b.P s fuel _ impl1.next_hop0 impl2.next_hop0 h2]

theorem fillTable_agree (impl1 impl2 : Impl) (fuel : Nat) (s : Int) {a b : DState}
    (h : StEq a b) :
    ∀ (L1 L2 : List (Int × node_t)), L1.map Prod.fst = L2.map Prod.fst →
      fillTable impl1 fuel s a L1 = fillTable impl2 fuel s b L2 := by
  intro L1
  induction L1 with
  | nil =>
    intro L2 hL
    cases L2 with
    | nil => rfl
    | cons q L2 => simp at hL
  | cons p L1 ih =>
    intro L2 hL
    cases L2 with
    | nil => simp at hL
    | cons q L2 =>
      simp only [List.map_cons, List.cons.injEq] at hL
      simp only [fillTable, hL.1, fillEntry_agree impl1 impl2 fuel s h, ih L2 hL.2]

theorem isolatedTable_agree {T1 T2 : Topology} (h : T1.map Prod.fst = T2.map Prod.fst)
    (s : Int) : isolatedTable T1 s = isolatedTable T2 s := by
  have hT : ∀ T : Topology, isolatedTable T s =
      (T.map Prod.fst).map (fun k => if k = s then (⟨k, s, 0⟩ : entry_t) else ⟨k, -1, -1⟩) := by
    intro T
    simp [isolatedTable, List.map_map, Function.comp]
  rw [hT T1, hT T2, h]

theorem initState_D_of_nodup (s : Int) {node : node_t}
    (hnd : (node.neighbors.map Prod.fst).Nodup) : (initState s node).D = node.neighbors := by
  have h := seed_fold_D s node.neighbors [] [] (by simpa using hnd)
  simpa [initState] using h

theorem StEq_init (s : Int) {n1 n2 : node_t} (hperm : n1.neighbors.Perm n2.neighbors)
    (hnd : (n1.neighbors.map Prod.fst).Nodup) : StEq (initState s n1) (initState s n2) := by
  have hnd2 : (n2.neighbors.map Prod.fst).Nodup := (hperm.map Prod.fst).nodup_iff.mp hnd
  refine ⟨by rw [initState_N, initState_N], ?_, ?_, ?_, ?_⟩
  · intro v
    rw [initState_D_of_nodup s hnd, initState_D_of_nodup s hnd2]
    exact mapFind_perm hperm hnd v
  · intro v
    rw [initState_P, initState_P]
    have : v ∈ n1.neighbors.map Prod.fst ↔ v ∈ n2.neighbors.map Prod.fst :=
      (hperm.map Prod.fst).mem_iff
    by_cases hv : v ∈ n1.neighbors.map Prod.fst
    · rw [if_pos hv, if_pos (this.mp hv)]
    · rw [if_neg hv, if_neg (fun h => hv (this.mpr h))]
  · rw [initState_D_of_nodup s hnd]; exact hnd
  · rw [initState_D_of_nodup s hnd2]; exact hnd2

/-- Two runs of Dijkstra that differ in the enumeration orders return the same. -/
theorem Dijkstra_agree {T1 T2 : Topology} (hwf : WellFormed T1)
    (hsame : SameUpToOrder T1 T2) (impl1 impl2 : Impl) (s : Int) :
    Dijkstra impl1 T1 s = Dijkstra impl2 T2 s := by
  have hkeys := same_keys hsame
  have hlen : T1.length = T2.length := by
    have := congrArg List.length hkeys
    simpa using this
  unfold Dijkstra
  rcases same_find hsame s with ⟨f1, f2⟩ | ⟨n1, n2, f1, f2, hperm⟩
  · rw [f1, f2]
  · rw [f1, f2]
    simp only []
    have hnd := neighbors_nodup hwf f1
    have hnd2 : (n2.neighbors.map Prod.fst).Nodup := (hperm.map Prod.fst).nodup_iff.mp hnd
    have hst := StEq_init s hperm hnd
    rw [initState_D_of_nodup s hnd, initState_D_of_nodup s hnd2, hperm.length_eq]
    by_cases h0 : n2.neighbors.length = 0
    · rw [if_pos h0, if_pos h0, isolatedTable_agree hkeys]
    · rw [if_neg h0, if_neg h0]
      have hml := StEq_mainLoop hwf hsame impl1 impl2 T1.length hst
      rw [← hlen]
      cases h1 : mainLoop impl1 T1 T1.length (initState s n1) with
      | error e1 =>
        cases h2 : mainLoop impl2 T2 T1.length (initState s n2) with
        | error e2 =>
          rw [h1, h2] at hml
          have : e1 = e2 := hml
          rw [this]
        | ok b1 =>
          rw [h1, h2] at hml
          exact hml.elim
      | ok a1 =>
        cases h2 : mainLoop impl2 T2 T1.length (initState s n2) with
        | error e2 =>
          rw [h1, h2] at hml
          exact hml.elim
        | ok b1 =>
          rw [h1, h2] at hml
          exact fillTable_agree impl1 impl2 T1.length s hml T1 T2 hkeys

/-! ## C8: the enumeration order does not influence the table -/

/-- C8, amended: two runs of Dijkstra that differ only in the enumeration order of D and
of the neighbour maps (and in what uninitialised ints hold) return the same table; their
scans return the same min_cost, which is INT_MAX exactly when no unfinished node has a
cost below INT_MAX, and otherwise the same node: the unfinished node of least cost and,
among those of that cost, of least identifier. -/
theorem iteration_order_independent (impl1 impl2 : Impl) (T1 T2 : Topology)
    (hwf : WellFormed T1) (hsame : SameUpToOrder T1 T2) (s : Int) :
    Dijkstra impl1 T1 s = Dijkstra impl2 T2 s ∧
    ∀ (k1 k2 : Nat) (N : List Int) (D : List (Int × Int)), (D.map Prod.fst).Nodup →
      (scan impl1 k1 N D).2 = (scan impl2 k2 N D).2 ∧
      ((scan impl1 k1 N D).2 = INT_MAX ↔
        ¬ ∃ v x, v ∉ N ∧ mapFind D v = some x ∧ x < INT_MAX) ∧
      ((scan impl1 k1 N D).2 ≠ INT_MAX →
        (scan impl1 k1 N D).1 = (scan impl2 k2 N D).1 ∧ (scan impl1 k1 N D).1 ∉ N ∧
        mapFind D (scan impl1 k1 N D).1 = some (scan impl1 k1 N D).2 ∧
        ∀ v x, v ∉ N → mapFind D v = some x →
          (scan impl1 k1 N D).2 ≤ x ∧
          (x = (scan impl1 k1 N D).2 → (scan impl1 k1 N D).1 ≤ v)) := by
  refine ⟨Dijkstra_agree hwf hsame impl1 impl2 s, ?_⟩
  intro k1 k2 N D hnd
  obtain ⟨a1, a2, a3⟩ := scan_spec impl1 k1 N D hnd
  obtain ⟨e2, e1⟩ := scan_agree impl1 impl2 k1 k2 N (fun _ => rfl) hnd hnd
  refine ⟨e2, ⟨?_, ?_⟩, ?_⟩
  · rintro hmax ⟨v, x, hv, hx, hlt⟩
    have := a2 v x hv hx
    omega
  · intro hno
    by_contra hne
    obtain ⟨hD, hN, _⟩ := a3 hne
    exact hno ⟨_, _, hN, hD, by omega⟩
  · intro hne
    obtain ⟨hD, hN, hmin⟩ := a3 hne
    refine ⟨e1 hne, hN, hD, ?_⟩
    intro v x hv hx
    exact ⟨a2 v x hv hx, fun hxe => hmin v hv (hxe ▸ hx)⟩

/-- Witness of C8: Scenario 3 with all enumeration orders reversed gives the same table. -/
theorem iteration_order_independent_witness :
    WellFormed scenario3 ∧ SameUpToOrder scenario3 scenario3Rev ∧
    (Dijkstra impl0 scenario3 1 = Dijkstra implRev scenario3Rev 1 ∧
      ∀ (k1 k2 : Nat) (N : List Int) (D : List (Int × Int)), (D.map Prod.fst).Nodup →
        (scan impl0 k1 N D).2 = (scan implRev k2 N D).2 ∧
        ((scan impl0 k1 N D).2 = INT_MAX ↔
          ¬ ∃ v x, v ∉ N ∧ mapFind D v = some x ∧ x < INT_MAX) ∧
        ((scan impl0 k1 N D).2 ≠ INT_MAX →
          (scan impl0 k1 N D).1 = (scan implRev k2 N D).1 ∧ (scan impl0 k1 N D).1 ∉ N ∧
          mapFind D (scan impl0 k1 N D).1 = some (scan impl0 k1 N D).2 ∧
          ∀ v x, v ∉ N → mapFind D v = some x →
            (scan impl0 k1 N D).2 ≤ x ∧
            (x = (scan impl0 k1 N D).2 → (scan impl0 k1 N D).1 ≤ v))) ∧
    Dijkstra implRev scenario3Rev 1 = .ok [⟨1, 1, 0⟩, ⟨2, 2, 1⟩, ⟨3, 2, 2⟩] :=
  ⟨by decide, by decide,
    iteration_order_independent impl0 implRev scenario3 scenario3Rev (by decide) (by decide) 1,
    rfl⟩

/-- C8 as stated fails in its part on the scan: with the links (1,2,INT_MAX-1) and (2,3,1),
whose costs are below INT_MAX, the first iteration for source 1 leaves the unfinished
node 3 with cost INT_MAX; the scan of the second iteration then returns min_cost INT_MAX
and a min_id that is not node 3, and node 3 ends as unreachable. -/
theorem scan_returns_least_counterexample :
    WellFormed topoNearMax ∧ CostsBelow topoNearMax 2147483646 ∧
    iterate impl0 topoNearMax 2 (initState 1 ⟨1, [(2, 2147483646)]⟩)
      = .ok ⟨[2, 1], [(2, 2147483646), (3, 2147483647)], [(2, 1), (3, 2)]⟩ ∧
    scan impl0 1 [2, 1] [(2, 2147483646), (3, 2147483647)] = (0, 2147483647) ∧
    ¬ ScanReturnsLeast impl0 1 [2, 1] [(2, 2147483646), (3, 2147483647)] ∧
    Dijkstra impl0 topoNearMax 1 = .ok [⟨1, 1, 0⟩, ⟨2, 2, 2147483646⟩, ⟨3, -1, -1⟩] := by
  refine ⟨by decide, by decide, rfl, rfl, ?_, rfl⟩
  intro h
  have h1 := (h 3 2147483647 (by decide) (by decide)).2.1
  revert h1
  decide

/-! ## C13: the shape of the table -/

/-- C13: for every well-formed topology and every known source, Dijkstra returns a table
with as many entries as there are known nodes, exactly one entry per known node, and
the destinations of the entries are the node identifiers in strictly ascending order;
this covers the source without neighbours as well as the general path. -/
theorem table_shape {T : Topology} (hwf : WellFormed T) (impl : Impl) {s : Int}
    (hs : s ∈ node_ids T) :
    ∃ table, Dijkstra impl T s = .ok table ∧
      table.length = (node_ids T).length ∧
      table.map (·.dest) = node_ids T ∧
      (table.map (·.dest)).Pairwise (· < ·) ∧
      ∀ d ∈ node_ids T, ∃ e ∈ table, e.dest = d ∧ ∀ e1 ∈ table, e1.dest = d → e1 = e := by
  obtain ⟨table, ht, hmap⟩ := Dijkstra_total hwf impl hs
  refine ⟨table, ht, ?_, hmap, by rw [hmap]; exact hwf.1, ?_⟩
  · rw [← hmap, List.length_map]
  · intro d hd
    rw [← hmap] at hd
    obtain ⟨e, he, hed⟩ := List.mem_map.mp hd
    refine ⟨e, he, hed, ?_⟩
    intro e1 he1 he1d
    have hnd : (table.map (·.dest)).Nodup := by rw [hmap]; exact node_ids_nodup hwf
    have h1 := find_of_mem_nodup hnd he
    have h2 := find_of_mem_nodup hnd he1
    rw [he1d, ← hed] at h2
    rw [h1] at h2
    injection h2 with h2
    exact h2.symm

/-- Witness of C13: the table of node 1 in Scenario 1 (general path) and the table of
the node without neighbours in a topology of three nodes (short-circuit path). -/
theorem table_shape_witness :
    (WellFormed scenario1 ∧ (1 : Int) ∈ node_ids scenario1 ∧
      ∃ table, Dijkstra impl0 scenario1 1 = .ok table ∧
        table.length = (node_ids scenario1).length ∧
        table.map (·.dest) = node_ids scenario1 ∧
        (table.map (·.dest)).Pairwise (· < ·) ∧
        ∀ d ∈ node_ids scenario1, ∃ e ∈ table, e.dest = d ∧
          ∀ e1 ∈ table, e1.dest = d → e1 = e) ∧
    (WellFormed topoIsolated ∧ (1 : Int) ∈ node_ids topoIsolated ∧
      Dijkstra impl0 topoIsolated 1 = .ok (isolatedTable topoIsolated 1) ∧
      ∃ table, Dijkstra impl0 topoIsolated 1 = .ok table ∧
        table.length = (node_ids topoIsolated).length ∧
        table.map (·.dest) = node_ids topoIsolated ∧
        (table.map (·.dest)).Pairwise (· < ·) ∧
        ∀ d ∈ node_ids topoIsolated, ∃ e ∈ table, e.dest = d ∧
          ∀ e1 ∈ table, e1.dest = d → e1 = e) :=
  ⟨⟨by decide, by decide, table_shape (by decide) impl0 (by decide)⟩,
    ⟨by decide, by decide, rfl, table_shape (by decide) impl0 (by decide)⟩⟩

/-! ## C12: the entries that print_table leaves out -/

theorem chain_mem {T : Topology} {s : Int} {P : List (Int × Int)} {R : List Int}
    (htree : Tree T s P R) {h v : Int} (hch : Chain P s h v) : v ∈ R → h ∈ R := by
  induction hch with
  | base _ _ => exact fun hv => hv
  | step u v _ hvs hPv ih =>
    intro hv
    exact ih (hPv ▸ htree.prev_mem hv hvs)

/-- In a topology without a node -1, an entry of the table of Dijkstra whose next hop is
-1 has the path cost -1. -/
theorem next_hop_sentinel {T : Topology} (hwf : WellFormed T) (hid : NoSentinelId T)
    (impl : Impl) {s : Int} (hs : s ∈ node_ids T) {table : List entry_t}
    (ht : Dijkstra impl T s = .ok table) :
    ∀ e ∈ table, e.next_hop = -1 → e.path_cost = -1 := by
  have hne : ∀ v ∈ node_ids T, v ≠ -1 := fun v hv h => hid (h ▸ hv)
  obtain ⟨node, hnode⟩ := topoFind_of_known hs
  by_cases hiso : node.neighbors = []
  · rw [Dijkstra_isolated hwf impl hnode hiso] at ht
    injection ht with ht
    subst ht
    intro e he hnh
    obtain ⟨p, _, hp⟩ := List.mem_map.mp he
    by_cases hps : p.1 = s
    · rw [if_pos hps] at hp
      rw [← hp] at hnh
      exact absurd hnh (hne s hs)
    · rw [if_neg hps] at hp
      rw [← hp]
  · obtain ⟨st, hloop, R, hF⟩ := mainLoop_total hwf impl s T.length (initState s node)
      (SInv_init hwf hnode) (initState_fuel s node)
    obtain ⟨table1, ht1, hmap, hall⟩ := fillTable_spec hF impl T
      (fun p hp => List.mem_map.mpr ⟨p, hp, rfl⟩)
    rw [Dijkstra_linked hwf impl hnode hiso hloop, ht1] at ht
    injection ht with ht
    subst ht
    intro e he hnh
    have hd : e.dest ∈ node_ids T := by
      show e.dest ∈ List.map Prod.fst T
      rw [← hmap]
      exact List.mem_map.mpr ⟨e, he, rfl⟩
    obtain ⟨e1, he1, _, hself, hother⟩ := fillEntry_spec hF impl e.dest hd
    rw [hall e he] at he1
    have hee : e = e1 := by injection he1
    subst hee
    by_cases hds : e.dest = s
    · rw [(hself hds).1] at hnh
      exact absurd hnh (hne s hs)
    · obtain ⟨hcost, hdirect, _, hchain⟩ := hother hds
      rw [hcost]
      by_cases hdR : e.dest ∈ R
      · have hpR := hF.tree.prev_mem hdR hds
        by_cases hP : mapAt st.P e.dest = s
        · rw [hdirect hP] at hnh
          exact absurd hnh (hne _ hd)
        · have hP1 : mapAt st.P e.dest ≠ -1 := hne _ (hF.tree.known _ hpR)
          have := chain_mem hF.tree (hchain hP hP1) hpR
          exact absurd hnh (hne _ (hF.tree.known _ this))
      · exact (hF.rest _ hd hdR).1

theorem foldl_append_acc (l : List String) (acc : String) :
    l.foldl (fun r s => r ++ s) acc = acc ++ l.foldl (fun r s => r ++ s) "" := by
  induction l generalizing acc with
  | nil => simp
  | cons a l ih =>
    simp only [List.foldl_cons]
    rw [ih (acc ++ a), ih ("" ++ a), String.empty_append, String.append_assoc]

theorem join_cons (a : String) (l : List String) :
    String.join (a :: l) = a ++ String.join l := by
  simp only [String.join, List.foldl_cons]
  rw [foldl_append_acc, String.empty_append]

theorem print_table_of_sentinel (table : List entry_t)
    (h : ∀ e ∈ table, e.next_hop = -1 → e.path_cost = -1) :
    print_table table
      = String.join ((table.filter fun e => decide (e.path_cost ≠ -1)).map tableLine) := by
  induction table with
  | nil => rfl
  | cons e table ih =>
    have ih1 := ih (fun x hx => h x (List.mem_cons_of_mem _ hx))
    simp only [print_table] at ih1 ⊢
    rw [List.map_cons, join_cons, ih1]
    by_cases hc : e.path_cost = -1
    · have hp : printEntry e = "" := by simp [printEntry, hc]
      rw [hp, String.empty_append, List.filter_cons_of_neg (by simpa using hc)]
    · have hn : ¬ e.next_hop = -1 := fun hn => hc (h e (List.mem_cons_self _ _) hn)
      have hp : printEntry e = tableLine e := by simp [printEntry, tableLine, hc, hn]
      rw [hp, List.filter_cons_of_pos (by simpa using hc), List.map_cons, join_cons]

/-- C12, amended: for every well-formed topology without a node -1 and every known
source, the text print_table writes for the table of Dijkstra is, in table order, the
line of every entry whose path_cost is not -1, the entry of the source among them; the
filter of the code drops exactly the entries whose path_cost is -1; and update_tables
stores the table with all its entries. -/
theorem print_table_suppresses {T : Topology} (hwf : WellFormed T) (hid : NoSentinelId T)
    (impl : Impl) {s : Int} (hs : s ∈ node_ids T) :
    ∃ table, Dijkstra impl T s = .ok table ∧
      print_table table
        = String.join ((table.filter fun e => decide (e.path_cost ≠ -1)).map tableLine) ∧
      (∀ e ∈ table, (e.path_cost = -1 ∨ e.next_hop = -1) ↔ e.path_cost = -1) ∧
      (∃ e ∈ table.filter fun e => decide (e.path_cost ≠ -1), e.dest = s) ∧
      ∀ R0, ∃ r, update_tables impl T R0 = .ok r ∧ tableAt r.1 s = table := by
  obtain ⟨table, ht, hmap⟩ := Dijkstra_total hwf impl hs
  have hsent := next_hop_sentinel hwf hid impl hs ht
  refine ⟨table, ht, print_table_of_sentinel table hsent, ?_, ?_, ?_⟩
  · intro e he
    constructor
    · rintro (h | h)
      · exact h
      · exact hsent e he h
    · exact Or.inl
  · obtain ⟨e, he, hes⟩ := entry_of_known hmap hs
    obtain ⟨node, hnode⟩ := topoFind_of_known hs
    refine ⟨e, List.mem_filter.mpr ⟨he, ?_⟩, hes⟩
    have hcost : e.path_cost = 0 := by
      by_cases hiso : node.neighbors = []
      · rw [Dijkstra_isolated hwf impl hnode hiso] at ht
        injection ht with ht
        subst ht
        obtain ⟨p, _, hp⟩ := List.mem_map.mp he
        by_cases hps : p.1 = s
        · rw [if_pos hps] at hp
          rw [← hp]
        · rw [if_neg hps] at hp
          rw [← hp] at hes
          exact absurd hes hps
      · obtain ⟨st, hloop, R, hF⟩ := mainLoop_total hwf impl s T.length (initState s node)
          (SInv_init hwf hnode) (initState_fuel s node)
        obtain ⟨table1, ht1, _, hall⟩ := fillTable_spec hF impl T
          (fun p hp => List.mem_map.mpr ⟨p, hp, rfl⟩)
        rw [Dijkstra_linked hwf impl hnode hiso hloop, ht1] at ht
        injection ht with ht
        subst ht
        obtain ⟨e1, he1, _, hself, _⟩ := fillEntry_spec hF impl e.dest (hes ▸ hs)
        rw [hall e he] at he1
        have hee : e = e1 := by injection he1
        subst hee
        exact (hself hes).2
    rw [hcost]
    decide
  · intro R0
    obtain ⟨r, hr, _⟩ := update_tables_spec hwf impl R0
    obtain ⟨table1, ht1, htab⟩ := ((updateLoop_spec impl T T (R0, "") r hr) s).1 hs
    rw [ht] at ht1
    injection ht1 with ht1
    exact ⟨r, hr, by rw [htab, ht1]⟩

/-- Witness of C12: the table of node 1 for two separate links 1 - 2 and 3 - 4; the
entries of 3 and 4 are left out of the text. -/
theorem print_table_suppresses_witness :
    WellFormed topoSplit ∧ NoSentinelId topoSplit ∧ (1 : Int) ∈ node_ids topoSplit ∧
    (∃ table, Dijkstra impl0 topoSplit 1 = .ok table ∧
      print_table table
        = String.join ((table.filter fun e => decide (e.path_cost ≠ -1)).map tableLine) ∧
      (∀ e ∈ table, (e.path_cost = -1 ∨ e.next_hop = -1) ↔ e.path_cost = -1) ∧
      (∃ e ∈ table.filter fun e => decide (e.path_cost ≠ -1), e.dest = 1) ∧
      ∀ R0, ∃ r, update_tables impl0 topoSplit R0 = .ok r ∧ tableAt r.1 1 = table) ∧
    Dijkstra impl0 topoSplit 1 = .ok [⟨1, 1, 0⟩, ⟨2, 2, 1⟩, ⟨3, -1, -1⟩, ⟨4, -1, -1⟩] ∧
    print_table [⟨1, 1, 0⟩, ⟨2, 2, 1⟩, ⟨3, -1, -1⟩, ⟨4, -1, -1⟩] = "1 1 0\n2 2 1\n" :=
  ⟨by decide, by decide, by decide,
    print_table_suppresses (by decide) (by decide) impl0 (by decide), rfl, by decide⟩

/-- C12 as stated fails where a node has the identifier -1: on the line
1 - 3 - (-1) - 2 the table of node 1 reaches node 2 at cost 3 through the node -1, the
entry reads next_hop = -1, and print_table writes no line for it. -/
theorem emits_reachable_counterexample :
    WellFormed topoSentinel ∧ Symmetric topoSentinel ∧ Positive topoSentinel ∧
    Dijkstra impl0 topoSentinel 1 = .ok [⟨-1, 3, 2⟩, ⟨1, 1, 0⟩, ⟨2, -1, 3⟩, ⟨3, 3, 1⟩] ∧
    print_table [⟨-1, 3, 2⟩, ⟨1, 1, 0⟩, ⟨2, -1, 3⟩, ⟨3, 3, 1⟩] = "-1 3 2\n1 1 0\n3 3 1\n" ∧
    String.join (([⟨-1, 3, 2⟩, ⟨1, 1, 0⟩, ⟨2, -1, 3⟩, ⟨3, 3, 1⟩].filter
      fun e => decide (e.path_cost ≠ -1)).map tableLine) = "-1 3 2\n1 1 0\n2 -1 3\n3 3 1\n" ∧
    ¬ EmitsReachable [⟨-1, 3, 2⟩, ⟨1, 1, 0⟩, ⟨2, -1, 3⟩, ⟨3, 3, 1⟩] :=
  ⟨by decide, by decide, by decide, rfl, by decide, by decide,
    fun h => absurd ((h.2 ⟨2, -1, 3⟩ (by decide)).mp (Or.inr rfl)) (by decide)⟩

/-! ## C11: a message whose source has no routing table -/

theorem sendLoop_acc (R : RoutingTable) (fuel : Nat) (l : List message_t) (acc : String) :
    sendLoop R fuel l acc =
      match sendLoop R fuel l "" with
      | .ok out => .ok (acc ++ out)
      | .error e => .error e := by
  induction l generalizing acc with
  | nil => simp [sendLoop]
  | cons msg l ih =>
    simp only [sendLoop]
    cases sendOne R fuel msg with
    | error e => rfl
    | ok line =>
      simp only
      rw [ih (acc ++ line), ih ("" ++ line)]
      cases sendLoop R fuel l "" with
      | error e => rfl
      | ok out => simp only [String.empty_append, String.append_assoc]

theorem send_messages_cons (R : RoutingTable) (fuel : Nat) (msg : message_t)
    (rest : List message_t) {line out : String} (h1 : sendOne R fuel msg = .ok line)
    (h2 : send_messages R fuel rest = .ok out) :
    send_messages R fuel (msg :: rest) = .ok (line ++ out) := by
  simp only [send_messages] at h2 ⊢
  simp only [sendLoop, h1]
  rw [sendLoop_acc]
  cases h : sendLoop R fuel rest "" with
  | error e => simp [h] at h2
  | ok o =>
    simp only [h, Except.ok.injEq] at h2
    simp only [← h2, String.empty_append, String.append_assoc]

/-- C11, what the code does: for a message whose source has an empty or no routing
table, send_messages writes the words from, src, to, dest without an end of line
before it goes on to the next message; the text written for a list that starts with
such a message is that fragment followed by the text written for the rest of the
list, and differs from it. -/
theorem skipped_message_leaves_fragment (R : RoutingTable) (fuel : Nat) (msg : message_t)
    (rest : List message_t) (h : tableAt R msg.src = []) :
    trace R fuel msg.src msg.dest = .ok .no_table ∧
    sendOne R fuel msg = .ok ("from " ++ toString msg.src ++ " to " ++ toString msg.dest) ∧
    ∀ out, send_messages R fuel rest = .ok out →
      send_messages R fuel (msg :: rest)
        = .ok ("from " ++ toString msg.src ++ " to " ++ toString msg.dest ++ out) ∧
      "from " ++ toString msg.src ++ " to " ++ toString msg.dest ++ out ≠ out := by
  have ht : trace R fuel msg.src msg.dest = .ok .no_table := by simp [trace, h]
  have hone : sendOne R fuel msg
      = .ok ("from " ++ toString msg.src ++ " to " ++ toString msg.dest) := by
    simp only [sendOne, ht, render]
  refine ⟨ht, hone, fun out hout => ⟨send_messages_cons R fuel msg rest hone hout, ?_⟩⟩
  intro heq
  have hlen := congrArg String.length heq
  simp only [String.length_append] at hlen
  have h5 : "from ".length = 5 := by decide
  omega

/-- Witness of C11 (tables of Scenario 1): node 7 is unknown, so the message from 7 is
skipped; its fragment stays in front of the line of the message from 1 to 3. -/
theorem skipped_message_leaves_fragment_witness :
    tableAt (tablesOf impl0 scenario1) 7 = [] ∧
    send_messages (tablesOf impl0 scenario1) 3 [⟨1, 3, "hi"⟩]
      = .ok "from 1 to 3 cost 2 hops 1 2 message hi\n\n" ∧
    send_messages (tablesOf impl0 scenario1) 3 [⟨7, 1, "q"⟩, ⟨1, 3, "hi"⟩]
      = .ok "from 7 to 1from 1 to 3 cost 2 hops 1 2 message hi\n\n" ∧
    (∀ out, send_messages (tablesOf impl0 scenario1) 3 [⟨1, 3, "hi"⟩] = .ok out →
      send_messages (tablesOf impl0 scenario1) 3 [⟨7, 1, "q"⟩, ⟨1, 3, "hi"⟩]
        = .ok ("from " ++ toString (7 : Int) ++ " to " ++ toString (1 : Int) ++ out) ∧
      "from " ++ toString (7 : Int) ++ " to " ++ toString (1 : Int) ++ out ≠ out) :=
  ⟨by decide, rfl, rfl,
    (skipped_message_leaves_fragment (tablesOf impl0 scenario1) 3 ⟨7, 1, "q"⟩
      [⟨1, 3, "hi"⟩] (by decide)).2.2⟩

/-! ## The mutations of the topology -/

theorem topoSetLink_eq (T : Topology) (a b c : Int) :
    topoSetLink T a b c = topoModify T a (fun m => mapSet m b c) := by
  induction T with
  | nil => rfl
  | cons p T ih =>
    obtain ⟨k, n⟩ := p
    simp only [topoSetLink, topoModify, ih]

theorem topoEraseLink_eq (T : Topology) (a b : Int) :
    topoEraseLink T a b = topoModify T a (fun m => mapErase m b) := by
  induction T with
  | nil => rfl
  | cons p T ih =>
    obtain ⟨k, n⟩ := p
    simp only [topoEraseLink, topoModify, ih]

theorem node_ids_modify (T : Topology) (a : Int) (f : List (Int × Int) → List (Int × Int)) :
    node_ids (topoModify T a f) = node_ids T := by
  induction T with
  | nil => rfl
  | cons p T ih =>
    obtain ⟨k, n⟩ := p
    simp only [node_ids] at ih
    by_cases h : a = k
    · simp [topoModify, node_ids, h]
    · simp [topoModify, node_ids, h, ih]

theorem topoFind_modify (T : Topology) (a : Int) (f : List (Int × Int) → List (Int × Int))
    (k : Int) :
    topoFind (topoModify T a f) k =
      if k = a then (topoFind T a).map (fun n => { n with neighbors := f n.neighbors })
      else topoFind T k := by
  induction T with
  | nil => simp [topoModify, topoFind]
  | cons p T ih =>
    obtain ⟨k1, n1⟩ := p
    by_cases h : a = k1
    · subst h
      by_cases hk : k = a
      · simp [topoModify, topoFind, hk]
      · simp [topoModify, topoFind, hk]
    · by_cases hk : k = k1
      · subst hk
        have hka : ¬ k = a := fun h1 => h h1.symm
        simp [topoModify, topoFind, h, hka]
      · simp only [topoModify, h, if_false, topoFind, hk, ih]

theorem mem_modify {T : Topology} {a : Int} {f : List (Int × Int) → List (Int × Int)}
    {p : Int × node_t} (h : p ∈ topoModify T a f) :
    p ∈ T ∨ ∃ n, (a, n) ∈ T ∧ p = (a, { n with neighbors := f n.neighbors }) := by
  induction T with
  | nil => simp [topoModify] at h
  | cons q T ih =>
    obtain ⟨k, n⟩ := q
    by_cases hk : a = k
    · subst hk
      simp only [topoModify, if_true, List.mem_cons] at h
      rcases h with h | h
      · exact Or.inr ⟨n, List.mem_cons_self _ _, h⟩
      · exact Or.inl (List.mem_cons_of_mem _ h)
    · simp only [topoModify, hk, if_false, List.mem_cons] at h
      rcases h with h | h
      · exact Or.inl (h ▸ List.mem_cons_self _ _)
      · rcases ih h with h1 | ⟨n1, h1, h2⟩
        · exact Or.inl (List.mem_cons_of_mem _ h1)
        · exact Or.inr ⟨n1, List.mem_cons_of_mem _ h1, h2⟩

theorem wellFormed_modify {T : Topology} (hwf : WellFormed T) (a : Int)
    (f : List (Int × Int) → List (Int × Int))
    (hnd : ∀ m : List (Int × Int), (m.map Prod.fst).Nodup → ((f m).map Prod.fst).Nodup)
    (hk : ∀ m : List (Int × Int), ∀ q ∈ f m, q ∈ m ∨ q.1 ∈ node_ids T) :
    WellFormed (topoModify T a f) := by
  refine ⟨by rw [node_ids_modify]; exact hwf.1, ?_⟩
  intro p hp
  rw [node_ids_modify]
  rcases mem_modify hp with h | ⟨n, h1, h2⟩
  · exact hwf.2 p h
  · subst h2
    obtain ⟨h3, h4⟩ := hwf.2 _ h1
    refine ⟨hnd _ h3, ?_⟩
    intro q hq
    rcases hk _ q hq with h5 | h5
    · exact h4 q h5
    · exact h5

theorem positive_modify {T : Topology} (hpos : Positive T) (a : Int)
    (f : List (Int × Int) → List (Int × Int))
    (hf : ∀ m : List (Int × Int), ∀ q ∈ f m, q ∈ m ∨ 0 < q.2) :
    Positive (topoModify T a f) := by
  intro p hp q hq
  rcases mem_modify hp with h | ⟨n, h1, h2⟩
  · exact hpos p h q hq
  · subst h2
    rcases hf _ q hq with h5 | h5
    · exact hpos _ h1 q h5
    · exact h5

theorem linkCost_modify (T : Topology) (a : Int) (f : List (Int × Int) → List (Int × Int))
    (x y : Int) :
    linkCost (topoModify T a f) x y =
      if x = a then
        match topoFind T a with
        | none => none
        | some n => mapFind (f n.neighbors) y
      else linkCost T x y := by
  unfold linkCost
  rw [topoFind_modify]
  by_cases hx : x = a
  · simp only [hx, if_true]
    cases topoFind T a <;> rfl
  · simp only [hx, if_false]

theorem mem_mapSet {m : List (Int × Int)} {k v : Int} {q : Int × Int}
    (h : q ∈ mapSet m k v) : q ∈ m ∨ q = (k, v) := by
  induction m with
  | nil =>
    simp only [mapSet, List.mem_singleton] at h
    exact Or.inr h
  | cons p m ih =>
    obtain ⟨k1, v1⟩ := p
    by_cases hk : k = k1
    · subst hk
      simp only [mapSet, if_true, List.mem_cons] at h
      rcases h with h | h
      · exact Or.inr h
      · exact Or.inl (List.mem_cons_of_mem _ h)
    · simp only [mapSet, hk, if_false, List.mem_cons] at h
      rcases h with h | h
      · exact Or.inl (h ▸ List.mem_cons_self _ _)
      · rcases ih h with h1 | h1
        · exact Or.inl (List.mem_cons_of_mem _ h1)
        · exact Or.inr h1

theorem mem_mapErase {m : List (Int × Int)} {k : Int} {q : Int × Int}
    (h : q ∈ mapErase m k) : q ∈ m := by
  induction m with
  | nil => simp [mapErase] at h
  | cons p m ih =>
    obtain ⟨k1, v1⟩ := p
    by_cases hk : k = k1
    · simp only [mapErase, hk, if_true] at h
      exact List.mem_cons_of_mem _ h
    · simp only [mapErase, hk, if_false, List.mem_cons] at h
      rcases h with h | h
      · exact h ▸ List.mem_cons_self _ _
      · exact List.mem_cons_of_mem _ (ih h)

theorem keys_mapErase_nodup {m : List (Int × Int)} (k : Int)
    (h : (m.map Prod.fst).Nodup) : ((mapErase m k).map Prod.fst).Nodup := by
  induction m with
  | nil => simp [mapErase]
  | cons p m ih =>
    obtain ⟨k1, v1⟩ := p
    simp only [List.map_cons, List.nodup_cons] at h
    by_cases hk : k = k1
    · simp only [mapErase, hk, if_true]
      exact h.2
    · simp only [mapErase, hk, if_false, List.map_cons, List.nodup_cons]
      refine ⟨?_, ih h.2⟩
      intro hmem
      obtain ⟨q, hq, hq1⟩ := List.mem_map.mp hmem
      exact h.1 (List.mem_map.mpr ⟨q, mem_mapErase hq, hq1⟩)

theorem mapFind_mapErase_other (m : List (Int × Int)) (k k1 : Int) (h : k1 ≠ k) :
    mapFind (mapErase m k) k1 = mapFind m k1 := by
  induction m with
  | nil => rfl
  | cons p m ih =>
    obtain ⟨k2, v2⟩ := p
    by_cases hk : k = k2
    · subst hk
      simp [mapErase, mapFind, h]
    · simp only [mapErase, hk, if_false, mapFind, ih]

theorem mapFind_mapErase_self {m : List (Int × Int)} (k : Int)
    (h : (m.map Prod.fst).Nodup) : mapFind (mapErase m k) k = none := by
  induction m with
  | nil => rfl
  | cons p m ih =>
    obtain ⟨k2, v2⟩ := p
    simp only [List.map_cons, List.nodup_cons] at h
    by_cases hk : k = k2
    · subst hk
      simp only [mapErase, if_true]
      exact (mapFind_none_iff m k).mpr h.1
    · simp only [mapErase, hk, if_false, mapFind, ih h.2]

theorem mapErase_of_absent {m : List (Int × Int)} {k : Int} (h : mapFind m k = none) :
    mapErase m k = m := by
  induction m with
  | nil => rfl
  | cons p m ih =>
    obtain ⟨k2, v2⟩ := p
    by_cases hk : k = k2
    · simp [mapFind, hk] at h
    · simp only [mapFind, hk, if_false] at h
      simp only [mapErase, hk, if_false, ih h]

theorem mem_ensure {T : Topology} {a : Int} {p : Int × node_t} (h : p ∈ topoEnsure T a) :
    p ∈ T ∨ p = (a, ⟨a, []⟩) := by
  induction T with
  | nil =>
    simp only [topoEnsure, List.mem_singleton] at h
    exact Or.inr h
  | cons q T ih =>
    obtain ⟨k, n⟩ := q
    by_cases h1 : a = k
    · simp only [topoEnsure, h1, if_true] at h
      exact Or.inl h
    · by_cases h2 : a < k
      · simp only [topoEnsure, h1, h2, if_false, if_true, List.mem_cons] at h
        rcases h with h | h | h
        · exact Or.inr h
        · exact Or.inl (h ▸ List.mem_cons_self _ _)
        · exact Or.inl (List.mem_cons_of_mem _ h)
      · simp only [topoEnsure, h1, h2, if_false, List.mem_cons] at h
        rcases h with h | h
        · exact Or.inl (h ▸ List.mem_cons_self _ _)
        · rcases ih h with h3 | h3
          · exact Or.inl (List.mem_cons_of_mem _ h3)
          · exact Or.inr h3

theorem node_ids_ensure (T : Topology) (a v : Int) :
    v ∈ node_ids (topoEnsure T a) ↔ v = a ∨ v ∈ node_ids T := by
  induction T with
  | nil => simp [topoEnsure, node_ids]
  | cons q T ih =>
    obtain ⟨k, n⟩ := q
    simp only [node_ids] at ih
    by_cases h1 : a = k
    · subst h1
      simp [topoEnsure, node_ids]
    · by_cases h2 : a < k
      · simp [topoEnsure, node_ids, h1, h2]
      · simp only [topoEnsure, h1, h2, if_false, node_ids, List.map_cons, List.mem_cons, ih]
        tauto

theorem sorted_ensure {T : Topology} (h : (node_ids T).Pairwise (· < ·)) (a : Int) :
    (node_ids (topoEnsure T a)).Pairwise (· < ·) := by
  induction T with
  | nil => simp [topoEnsure, node_ids]
  | cons q T ih =>
    obtain ⟨k, n⟩ := q
    have h0 := h
    simp only [node_ids, List.map_cons, List.pairwise_cons] at h
    by_cases h1 : a = k
    · simp only [topoEnsure, h1, if_true]
      exact h0
    · by_cases h2 : a < k
      · simp only [topoEnsure, h1, h2, if_false, if_true]
        show (a :: node_ids ((k, n) :: T)).Pairwise (· < ·)
        refine List.pairwise_cons.mpr ⟨?_, h0⟩
        intro x hx
        simp only [node_ids, List.map_cons, List.mem_cons] at hx
        rcases hx with hx | hx
        · rw [hx]; exact h2
        · exact lt_trans h2 (h.1 x hx)
      · simp only [topoEnsure, h1, h2, if_false]
        show (k :: node_ids (topoEnsure T a)).Pairwise (· < ·)
        refine List.pairwise_cons.mpr ⟨?_, ih h.2⟩
        intro x hx
        rcases (node_ids_ensure T a x).mp hx with hx | hx
        · rw [hx]
          omega
        · exact h.1 x hx

theorem topoFind_ensure {T : Topology} (h : (node_ids T).Pairwise (· < ·)) (a k : Int) :
    topoFind (topoEnsure T a) k =
      if k = a then some ((topoFind T a).getD ⟨a, []⟩) else topoFind T k := by
  induction T with
  | nil => simp [topoEnsure, topoFind]
  | cons q T ih =>
    obtain ⟨k1, n1⟩ := q
    have h0 := h
    simp only [node_ids, List.map_cons, List.pairwise_cons] at h
    by_cases h1 : a = k1
    · subst h1
      by_cases hk : k = a
      · simp [topoEnsure, topoFind, hk]
      · simp [topoEnsure, topoFind, hk]
    · by_cases h2 : a < k1
      · have hnone : topoFind T a = none := by
          rw [topoFind_none_iff]
          intro hmem
          have := h.1 a hmem
          omega
        by_cases hk : k = a
        · simp [topoEnsure, topoFind, h1, h2, hk, hnone]
        · simp [topoEnsure, topoFind, h1, h2, hk]
      · by_cases hk : k = k1
        · subst hk
          have hka : ¬ k = a := fun h3 => h1 h3.symm
          simp [topoEnsure, topoFind, h1, h2, hka]
        · simp only [topoEnsure, h1, h2, if_false, topoFind, hk, ih h.2]

theorem topoEnsure_of_known {T : Topology} (h : (node_ids T).Pairwise (· < ·)) {a : Int}
    (ha : a ∈ node_ids T) : topoEnsure T a = T := by
  induction T with
  | nil => simp [node_ids] at ha
  | cons q T ih =>
    obtain ⟨k1, n1⟩ := q
    simp only [node_ids, List.map_cons, List.pairwise_cons, List.mem_cons] at h ha
    by_cases h1 : a = k1
    · simp [topoEnsure, h1]
    · have ha1 : a ∈ List.map Prod.fst T := by
        rcases ha with ha | ha
        · exact absurd ha h1
        · exact ha
      have h2 : ¬ a < k1 := by
        have := h.1 a ha1
        omega
      simp only [topoEnsure, h1, h2, if_false]
      rw [ih h.2 ha1]

theorem wellFormed_ensure {T : Topology} (hwf : WellFormed T) (a : Int) :
    WellFormed (topoEnsure T a) := by
  refine ⟨sorted_ensure hwf.1 a, ?_⟩
  intro p hp
  rcases mem_ensure hp with h | h
  · refine ⟨(hwf.2 p h).1, fun q hq => ?_⟩
    exact (node_ids_ensure T a q.1).mpr (Or.inr ((hwf.2 p h).2 q hq))
  · subst h
    exact ⟨by simp, by simp⟩

theorem positive_ensure {T : Topology} (hpos : Positive T) (a : Int) :
    Positive (topoEnsure T a) := by
  intro p hp q hq
  rcases mem_ensure hp with h | h
  · exact hpos p h q hq
  · subst h
    simp at hq

theorem linkCost_ensure {T : Topology} (h : (node_ids T).Pairwise (· < ·)) (a x y : Int) :
    linkCost (topoEnsure T a) x y = linkCost T x y := by
  unfold linkCost
  rw [topoFind_ensure h]
  by_cases hx : x = a
  · subst hx
    simp only [if_true]
    cases topoFind T x <;> rfl
  · simp only [hx, if_false]

theorem node_ids_setLink (T : Topology) (a b c : Int) :
    node_ids (topoSetLink T a b c) = node_ids T := by
  rw [topoSetLink_eq, node_ids_modify]

theorem node_ids_eraseLink (T : Topology) (a b : Int) :
    node_ids (topoEraseLink T a b) = node_ids T := by
  rw [topoEraseLink_eq, node_ids_modify]

theorem linkCost_setLink {T : Topology} {a : Int} (ha : a ∈ node_ids T) (b c x y : Int) :
    linkCost (topoSetLink T a b c) x y =
      if x = a ∧ y = b then some c else linkCost T x y := by
  obtain ⟨n, hn⟩ := topoFind_of_known ha
  rw [topoSetLink_eq, linkCost_modify]
  by_cases hx : x = a
  · subst hx
    simp only [if_true, hn, true_and]
    by_cases hy : y = b
    · subst hy
      simp only [if_true, mapFind_mapSet_self]
    · simp only [hy, if_false, mapFind_mapSet_other _ _ _ _ hy, linkCost_of_find hn]
  · simp only [hx, if_false, false_and]

theorem linkCost_eraseLink {T : Topology} (hwf : WellFormed T) (a b x y : Int) :
    linkCost (topoEraseLink T a b) x y =
      if x = a ∧ y = b then none else linkCost T x y := by
  rw [topoEraseLink_eq, linkCost_modify]
  by_cases hx : x = a
  · subst hx
    simp only [if_true, true_and]
    cases hn : topoFind T x with
    | none => simp [linkCost, hn]
    | some n =>
      simp only
      by_cases hy : y = b
      · subst hy
        simp only [if_true, mapFind_mapErase_self _ (neighbors_nodup hwf hn)]
      · simp only [hy, if_false, mapFind_mapErase_other _ _ _ hy, linkCost_of_find hn]
  · simp only [hx, if_false, false_and]

theorem wellFormed_setLink {T : Topology} (hwf : WellFormed T) (a : Int) {b : Int}
    (hb : b ∈ node_ids T) (c : Int) : WellFormed (topoSetLink T a b c) := by
  rw [topoSetLink_eq]
  refine wellFormed_modify hwf a _ (fun m hm => keys_mapSet_nodup b c hm) ?_
  intro m q hq
  rcases mem_mapSet hq with h | h
  · exact Or.inl h
  · subst h
    exact Or.inr hb

theorem wellFormed_eraseLink {T : Topology} (hwf : WellFormed T) (a b : Int) :
    WellFormed (topoEraseLink T a b) := by
  rw [topoEraseLink_eq]
  exact wellFormed_modify hwf a _ (fun m hm => keys_mapErase_nodup b hm)
    (fun m q hq => Or.inl (mem_mapErase hq))

theorem positive_setLink {T : Topology} (hpos : Positive T) (a b : Int) {c : Int}
    (hc : 0 < c) : Positive (topoSetLink T a b c) := by
  rw [topoSetLink_eq]
  refine positive_modify hpos a _ ?_
  intro m q hq
  rcases mem_mapSet hq with h | h
  · exact Or.inl h
  · subst h
    exact Or.inr hc

theorem positive_eraseLink {T : Topology} (hpos : Positive T) (a b : Int) :
    Positive (topoEraseLink T a b) := by
  rw [topoEraseLink_eq]
  exact positive_modify hpos a _ (fun m q hq => Or.inl (mem_mapErase hq))

theorem topoEraseLink_of_absent {T : Topology} {a b : Int} (h : linkCost T a b = none) :
    topoEraseLink T a b = T := by
  induction T with
  | nil => rfl
  | cons q T ih =>
    obtain ⟨k, n⟩ := q
    by_cases hk : a = k
    · subst hk
      simp only [linkCost, topoFind, if_true] at h
      simp only [topoEraseLink, if_true, mapErase_of_absent h]
    · simp only [linkCost, topoFind, hk, if_false] at h
      simp only [topoEraseLink, hk, if_false]
      rw [ih (by simpa [linkCost] using h)]

theorem linkCost_setBoth {T : Topology} {a b : Int} (ha : a ∈ node_ids T)
    (hb : b ∈ node_ids T) (c x y : Int) :
    linkCost (topoSetLink (topoSetLink T a b c) b a c) x y =
      if (x = a ∧ y = b) ∨ (x = b ∧ y = a) then some c else linkCost T x y := by
  rw [linkCost_setLink (by rw [node_ids_setLink]; exact hb), linkCost_setLink ha]
  by_cases h1 : x = b ∧ y = a
  · simp [h1]
  · by_cases h2 : x = a ∧ y = b
    · simp [h2]
    · simp [h1, h2]

theorem linkCost_eraseBoth {T : Topology} (hwf : WellFormed T) (a b x y : Int) :
    linkCost (topoEraseLink (topoEraseLink T a b) b a) x y =
      if (x = a ∧ y = b) ∨ (x = b ∧ y = a) then none else linkCost T x y := by
  rw [linkCost_eraseLink (wellFormed_eraseLink hwf a b), linkCost_eraseLink hwf]
  by_cases h1 : x = b ∧ y = a
  · simp [h1]
  · by_cases h2 : x = a ∧ y = b
    · simp [h2]
    · simp [h1, h2]

theorem wellFormed_setBoth {T : Topology} (hwf : WellFormed T) {a b : Int}
    (ha : a ∈ node_ids T) (hb : b ∈ node_ids T) (c : Int) :
    WellFormed (topoSetLink (topoSetLink T a b c) b a c) :=
  wellFormed_setLink (wellFormed_setLink hwf a hb c) b
    (by rw [node_ids_setLink]; exact ha) c

theorem linkSym_setBoth {T : Topology} (hsym : LinkSym T) {a b : Int}
    (ha : a ∈ node_ids T) (hb : b ∈ node_ids T) (c : Int) :
    LinkSym (topoSetLink (topoSetLink T a b c) b a c) := by
  intro x y
  rw [linkCost_setBoth ha hb, linkCost_setBoth ha hb, hsym x y]
  by_cases h1 : (x = a ∧ y = b) ∨ (x = b ∧ y = a)
  · have h2 : (y = a ∧ x = b) ∨ (y = b ∧ x = a) := by tauto
    simp only [h1, h2, if_true]
  · have h2 : ¬ ((y = a ∧ x = b) ∨ (y = b ∧ x = a)) := by tauto
    simp only [h1, h2, if_false]

theorem linkSym_eraseBoth {T : Topology} (hwf : WellFormed T) (hsym : LinkSym T)
    (a b : Int) : LinkSym (topoEraseLink (topoEraseLink T a b) b a) := by
  intro x y
  rw [linkCost_eraseBoth hwf, linkCost_eraseBoth hwf, hsym x y]
  by_cases h1 : (x = a ∧ y = b) ∨ (x = b ∧ y = a)
  · have h2 : (y = a ∧ x = b) ∨ (y = b ∧ x = a) := by tauto
    simp only [h1, h2, if_true]
  · have h2 : ¬ ((y = a ∧ x = b) ∨ (y = b ∧ x = a)) := by tauto
    simp only [h1, h2, if_false]

theorem node_ids_mutate (T : Topology) (r : Int × Int × Int) :
    node_ids (mutate T r) = node_ids T := by
  unfold mutate
  split
  · rw [node_ids_setLink, node_ids_setLink]
  · split
    · rw [node_ids_eraseLink, node_ids_eraseLink]
    · rfl

theorem wellFormed_mutate {T : Topology} (hwf : WellFormed T) (r : Int × Int × Int)
    (hk : r.2.2 > 0 → r.1 ∈ node_ids T ∧ r.2.1 ∈ node_ids T) : WellFormed (mutate T r) := by
  unfold mutate
  split
  · next h => exact wellFormed_setBoth hwf (hk h).1 (hk h).2 _
  · split
    · exact wellFormed_eraseLink (wellFormed_eraseLink hwf _ _) _ _
    · exact hwf

theorem linkSym_mutate {T : Topology} (hwf : WellFormed T) (hsym : LinkSym T)
    (r : Int × Int × Int) (hk : r.2.2 > 0 → r.1 ∈ node_ids T ∧ r.2.1 ∈ node_ids T) :
    LinkSym (mutate T r) := by
  unfold mutate
  split
  · next h => exact linkSym_setBoth hsym (hk h).1 (hk h).2 _
  · split
    · exact linkSym_eraseBoth hwf hsym _ _
    · exact hsym

theorem positive_mutate {T : Topology} (hpos : Positive T) (r : Int × Int × Int) :
    Positive (mutate T r) := by
  unfold mutate
  split
  · next h => exact positive_setLink (positive_setLink hpos _ _ h) _ _ h
  · split
    · exact positive_eraseLink (positive_eraseLink hpos _ _) _ _
    · exact hpos

/-- The extraction from a stream in which a record is left reads that record. -/
theorem extract_record (uninit : Int × Int × Int) {f : changes_stream}
    {r : Int × Int × Int} {rest : List (Int × Int × Int)} (h : f.records = r :: rest) :
    (extract uninit f).1 = r ∧ (extract uninit f).2.records = rest ∧
    (extract uninit f).2.is_open = f.is_open ∧
    (extract uninit f).2.trailing = f.trailing ∧
    (extract uninit f).2.eofbit = (rest.isEmpty && !f.trailing) := by
  simp [extract, h]

/-- Function apply_changes reads nothing and returns 0 when the file is not open or
eofbit is set. -/
theorem apply_changes_end (uninit : Int × Int × Int) (T : Topology) {f : changes_stream}
    (h : f.is_open = false ∨ f.eofbit = true) : apply_changes uninit T f = .ok (T, f, 0) := by
  have hn : ¬ (f.is_open = true ∧ f.eofbit = false) := by
    rintro ⟨h1, h2⟩
    rcases h with h | h
    · rw [h] at h1; cases h1
    · rw [h] at h2; cases h2
  simp only [apply_changes, hn, if_false]

/-- What apply_changes does when the extraction leaves values over known nodes. -/
theorem apply_changes_known {T : Topology} {a b : Int} (ha : a ∈ node_ids T)
    (hb : b ∈ node_ids T) (c : Int) (uninit : Int × Int × Int) {f : changes_stream}
    (hopen : f.is_open = true) (heof : f.eofbit = false)
    (hx : (extract uninit f).1 = (a, b, c)) :
    apply_changes uninit T f =
      .ok (mutate T (a, b, c), (extract uninit f).2, if c > 0 ∨ c = -999 then 1 else 0) := by
  obtain ⟨na, hna⟩ := topoFind_of_known ha
  have hb1 : b ∈ node_ids (topoSetLink T a b c) := by rw [node_ids_setLink]; exact hb
  have hb2 : b ∈ node_ids (topoEraseLink T a b) := by rw [node_ids_eraseLink]; exact hb
  obtain ⟨n1, hn1⟩ := topoFind_of_known hb1
  obtain ⟨n2, hn2⟩ := topoFind_of_known hb2
  have hex : extract uninit f = ((a, b, c), (extract uninit f).2) := by
    rw [← hx]
  have hcond : f.is_open = true ∧ f.eofbit = false := ⟨hopen, heof⟩
  unfold apply_changes
  rw [if_pos hcond, hex]
  by_cases h1 : c > 0
  · simp only [mutate, h1, if_true, hna, hn1, true_or]
  · by_cases h2 : c = -999
    · subst h2
      simp only [mutate, hna, hn2]
      rfl
    · simp only [mutate, h1, h2, if_false, or_self]

/-- Function apply_changes dereferences a null pointer when the extraction leaves
values that set or remove a link of an unknown node. -/
theorem apply_changes_unknown (T : Topology) (a b c : Int) (uninit : Int × Int × Int)
    {f : changes_stream} (hopen : f.is_open = true) (heof : f.eofbit = false)
    (hx : (extract uninit f).1 = (a, b, c))
    (hc : c > 0 ∨ c = -999) (hab : a ∉ node_ids T ∨ b ∉ node_ids T) :
    apply_changes uninit T f = .error .null_deref := by
  have hex : extract uninit f = ((a, b, c), (extract uninit f).2) := by
    rw [← hx]
  have hcond : f.is_open = true ∧ f.eofbit = false := ⟨hopen, heof⟩
  unfold apply_changes
  rw [if_pos hcond, hex]
  cases hfa : topoFind T a with
  | none =>
    rcases hc with h1 | h1
    · simp only [h1, if_true, hfa]
    · subst h1
      simp only [hfa]
      rfl
  | some na =>
    have hb : b ∉ node_ids T := by
      rcases hab with h | h
      · exact absurd (known_of_topoFind hfa) h
      · exact h
    have hb1 : topoFind (topoSetLink T a b c) b = none := by
      rw [topoFind_none_iff, node_ids_setLink]; exact hb
    have hb2 : topoFind (topoEraseLink T a b) b = none := by
      rw [topoFind_none_iff, node_ids_eraseLink]; exact hb
    rcases hc with h1 | h1
    · simp only [h1, if_true, hfa, hb1]
    · subst h1
      simp only [hfa, hb2]
      rfl

/-- A call of apply_changes that returns has read nothing, the file being closed or at
its end, or has applied the values the extraction left, whose nodes were known when
they set or remove a link. -/
theorem apply_changes_ok {uninit : Int × Int × Int} {T T1 : Topology}
    {f f1 : changes_stream} {ret : Int}
    (h : apply_changes uninit T f = .ok (T1, f1, ret)) :
    ((f.is_open = false ∨ f.eofbit = true) ∧ T1 = T ∧ f1 = f ∧ ret = 0) ∨
    (f.is_open = true ∧ f.eofbit = false ∧ f1 = (extract uninit f).2 ∧
      T1 = mutate T (extract uninit f).1 ∧
      (((extract uninit f).1.2.2 > 0 ∨ (extract uninit f).1.2.2 = -999) →
        (extract uninit f).1.1 ∈ node_ids T ∧ (extract uninit f).1.2.1 ∈ node_ids T) ∧
      ret = if (extract uninit f).1.2.2 > 0 ∨ (extract uninit f).1.2.2 = -999
        then 1 else 0) := by
  by_cases hcond : f.is_open = true ∧ f.eofbit = false
  · right
    obtain ⟨hopen, heof⟩ := hcond
    obtain ⟨⟨a, b, c⟩, hr⟩ : ∃ r, (extract uninit f).1 = r := ⟨_, rfl⟩
    rw [hr]
    by_cases hc : c > 0 ∨ c = -999
    · by_cases hab : a ∈ node_ids T ∧ b ∈ node_ids T
      · rw [apply_changes_known hab.1 hab.2 c uninit hopen heof hr] at h
        simp only [Except.ok.injEq, Prod.mk.injEq] at h
        exact ⟨hopen, heof, h.2.1.symm, h.1.symm, fun _ => hab, h.2.2.symm⟩
      · rw [apply_changes_unknown T a b c uninit hopen heof hr hc (by tauto)] at h
        cases h
    · have h1 : ¬ c > 0 := fun h1 => hc (Or.inl h1)
      have h2 : ¬ c = -999 := fun h2 => hc (Or.inr h2)
      have hex : extract uninit f = ((a, b, c), (extract uninit f).2) := by
        rw [← hr]
      unfold apply_changes at h
      rw [if_pos ⟨hopen, heof⟩, hex] at h
      simp only [h1, h2, if_false, Except.ok.injEq, Prod.mk.injEq] at h
      refine ⟨hopen, heof, h.2.1.symm, ?_, fun h3 => absurd h3 hc, ?_⟩
      · simp only [mutate, h1, h2, if_false]
        exact h.1.symm
      · simp only [hc, if_false]
        exact h.2.2.symm
  · left
    have hend : f.is_open = false ∨ f.eofbit = true := by
      by_cases ho : f.is_open = true
      · right
        by_contra he
        exact hcond ⟨ho, by simpa using he⟩
      · left
        simpa using ho
    rw [apply_changes_end uninit T hend] at h
    simp only [Except.ok.injEq, Prod.mk.injEq] at h
    exact ⟨hend, h.1.symm, h.2.1.symm, h.2.2.symm⟩

theorem addLink_eq (T : Topology) (a b c : Int) :
    addLink T (a, b, c) =
      topoSetLink (topoSetLink (topoEnsure (topoEnsure T a) b) a b c) b a c := rfl

theorem known_addLink (T : Topology) (a b c v : Int) :
    v ∈ node_ids (addLink T (a, b, c)) ↔ v = a ∨ v = b ∨ v ∈ node_ids T := by
  rw [addLink_eq, node_ids_setLink, node_ids_setLink, node_ids_ensure, node_ids_ensure]
  tauto

theorem wellFormed_addLink {T : Topology} (hwf : WellFormed T) (r : Int × Int × Int) :
    WellFormed (addLink T r) := by
  obtain ⟨a, b, c⟩ := r
  rw [addLink_eq]
  refine wellFormed_setBoth (wellFormed_ensure (wellFormed_ensure hwf a) b) ?_ ?_ c
  · exact (node_ids_ensure _ b a).mpr (Or.inr ((node_ids_ensure T a a).mpr (Or.inl rfl)))
  · exact (node_ids_ensure _ b b).mpr (Or.inl rfl)

/-- The links after a record of read_topology: the link of the record both ways, every
other link as before. -/
theorem linkCost_addLink {T : Topology} (hwf : WellFormed T) (a b c x y : Int) :
    linkCost (addLink T (a, b, c)) x y =
      if (x = a ∧ y = b) ∨ (x = b ∧ y = a) then some c else linkCost T x y := by
  rw [addLink_eq, linkCost_setBoth
    ((node_ids_ensure _ b a).mpr (Or.inr ((node_ids_ensure T a a).mpr (Or.inl rfl))))
    ((node_ids_ensure _ b b).mpr (Or.inl rfl)),
    linkCost_ensure (wellFormed_ensure hwf a).1, linkCost_ensure hwf.1]

theorem linkSym_addLink {T : Topology} (hwf : WellFormed T) (hsym : LinkSym T)
    (r : Int × Int × Int) : LinkSym (addLink T r) := by
  obtain ⟨a, b, c⟩ := r
  intro x y
  rw [linkCost_addLink hwf, linkCost_addLink hwf, hsym x y]
  by_cases h1 : (x = a ∧ y = b) ∨ (x = b ∧ y = a)
  · have h2 : (y = a ∧ x = b) ∨ (y = b ∧ x = a) := by tauto
    simp only [h1, h2, if_true]
  · have h2 : ¬ ((y = a ∧ x = b) ∨ (y = b ∧ x = a)) := by tauto
    simp only [h1, h2, if_false]

theorem wellFormed_nil : WellFormed [] := by
  refine ⟨by simp [node_ids], ?_⟩
  intro p hp
  simp at hp

theorem linkSym_nil : LinkSym [] := fun _ _ => rfl

theorem foldl_addLink_inv (records : List (Int × Int × Int)) :
    ∀ T : Topology, WellFormed T → LinkSym T →
      WellFormed (records.foldl addLink T) ∧ LinkSym (records.foldl addLink T) := by
  induction records with
  | nil => exact fun T h1 h2 => ⟨h1, h2⟩
  | cons r records ih =>
    intro T h1 h2
    exact ih (addLink T r) (wellFormed_addLink h1 r) (linkSym_addLink h1 h2 r)

/-- The topology read_topology builds is well formed, whatever the records are. -/
theorem read_topology_wellFormed (records : List (Int × Int × Int)) :
    WellFormed (read_topology records) :=
  (foldl_addLink_inv records [] wellFormed_nil linkSym_nil).1

theorem read_topology_linkSym (records : List (Int × Int × Int)) :
    LinkSym (read_topology records) :=
  (foldl_addLink_inv records [] wellFormed_nil linkSym_nil).2

/-- A call of apply_changes that returns keeps the node set, the well-formedness and
the symmetry of the links, whatever the extraction leaves. -/
theorem apply_changes_inv {uninit : Int × Int × Int} {T T1 : Topology}
    {f f1 : changes_stream} {ret : Int}
    (h : apply_changes uninit T f = .ok (T1, f1, ret)) (hwf : WellFormed T) :
    node_ids T1 = node_ids T ∧ WellFormed T1 ∧ (LinkSym T → LinkSym T1) ∧
      (Positive T → Positive T1) := by
  rcases apply_changes_ok h with ⟨_, h1, _, _⟩ | ⟨_, _, _, h1, hk, _⟩
  · subst h1
    exact ⟨rfl, hwf, id, id⟩
  · subst h1
    have hk1 : (extract uninit f).1.2.2 > 0 →
        (extract uninit f).1.1 ∈ node_ids T ∧ (extract uninit f).1.2.1 ∈ node_ids T :=
      fun h3 => hk (Or.inl h3)
    exact ⟨node_ids_mutate T _, wellFormed_mutate hwf _ hk1,
      fun hsym => linkSym_mutate hwf hsym _ hk1, fun hpos => positive_mutate hpos _⟩

theorem applyCalls_inv (uninit : Int × Int × Int) (n : Nat) :
    ∀ {T T1 : Topology} {f f1 : changes_stream},
      applyCalls uninit n T f = .ok (T1, f1) → WellFormed T →
      node_ids T1 = node_ids T ∧ WellFormed T1 ∧ (LinkSym T → LinkSym T1) ∧
        (Positive T → Positive T1) := by
  induction n with
  | zero =>
    intro T T1 f f1 h hwf
    simp only [applyCalls, Except.ok.injEq, Prod.mk.injEq] at h
    rw [← h.1]
    exact ⟨rfl, hwf, id, id⟩
  | succ n ih =>
    intro T T1 f f1 h hwf
    simp only [applyCalls] at h
    cases hc : apply_changes uninit T f with
    | error e => simp [hc] at h
    | ok res =>
      obtain ⟨T2, f2, ret⟩ := res
      simp only [hc] at h
      obtain ⟨h1, h2, h3, h4⟩ := apply_changes_inv hc hwf
      obtain ⟨h5, h6, h7, h8⟩ := ih h h2
      exact ⟨h5.trans h1, h6, fun hs => h7 (h3 hs), fun hp => h8 (h4 hp)⟩

theorem symmetric_of_linkSym {T : Topology} (hwf : WellFormed T) (hsym : LinkSym T) :
    Symmetric T := by
  intro p hp q hq
  have hfind : topoFind T p.1 = some p.2 := by
    have hk : p.1 ∈ node_ids T := List.mem_map.mpr ⟨p, hp, rfl⟩
    obtain ⟨n, hn⟩ := topoFind_of_known hk
    have hmem := topoFind_some_mem hn
    have hnd := node_ids_nodup hwf
    have : (p.1, n) = p := by
      have hinj := List.inj_on_of_nodup_map hnd hmem hp rfl
      exact hinj
    rw [hn]
    rw [← this]
  rw [← hsym, linkCost_of_find hfind]
  exact mapFind_of_mem (hwf.2 p hp).1 hq

/-! ## C14: a link record that names an unknown node -/

/-- For known nodes a and b and a cost above 0, apply_changes sets the link both ways,
whatever it was before, leaves every other link and the node set as they were, and
returns 1. -/
theorem apply_changes_upsert {T : Topology} {a b : Int} (ha : a ∈ node_ids T)
    (hb : b ∈ node_ids T) {cost : Int} (hc : cost > 0) (uninit : Int × Int × Int)
    (rest : List (Int × Int × Int)) (trailing : Bool) :
    ∃ T1, apply_changes uninit T ⟨true, (a, b, cost) :: rest, trailing, false⟩
        = .ok (T1, ⟨true, rest, trailing, rest.isEmpty && !trailing⟩, 1) ∧
      node_ids T1 = node_ids T ∧
      linkCost T1 a b = some cost ∧ linkCost T1 b a = some cost ∧
      ∀ x y, ¬ ((x = a ∧ y = b) ∨ (x = b ∧ y = a)) → linkCost T1 x y = linkCost T x y := by
  refine ⟨mutate T (a, b, cost), ?_, node_ids_mutate T _, ?_, ?_, ?_⟩
  · rw [@apply_changes_known T a b ha hb cost uninit
      ⟨true, (a, b, cost) :: rest, trailing, false⟩ rfl rfl rfl]
    simp only [hc, true_or, if_true]
    rfl
  · simp only [mutate, hc, if_true]
    rw [linkCost_setBoth ha hb]
    simp
  · simp only [mutate, hc, if_true]
    rw [linkCost_setBoth ha hb]
    simp
  · intro x y hxy
    simp only [mutate, hc, if_true]
    rw [linkCost_setBoth ha hb]
    simp only [hxy, if_false]

/-- C14, what the code does: for a change record with a cost above 0 that names a node
the topology does not know, apply_changes dereferences a null pointer and creates no
node, while read_topology, given the same record, creates the missing nodes and sets
the link both ways. -/
theorem upsert_unknown_node {T : Topology} (hwf : WellFormed T) (a b cost : Int)
    (uninit : Int × Int × Int) (rest : List (Int × Int × Int)) (trailing : Bool)
    (hc : cost > 0) (hab : a ∉ node_ids T ∨ b ∉ node_ids T) :
    apply_changes uninit T ⟨true, (a, b, cost) :: rest, trailing, false⟩
      = .error .null_deref ∧
    a ∈ node_ids (addLink T (a, b, cost)) ∧ b ∈ node_ids (addLink T (a, b, cost)) ∧
    linkCost (addLink T (a, b, cost)) a b = some cost ∧
    linkCost (addLink T (a, b, cost)) b a = some cost :=
  ⟨apply_changes_unknown T a b cost uninit rfl rfl rfl (Or.inl hc) hab,
    (known_addLink T a b cost a).mpr (Or.inl rfl),
    (known_addLink T a b cost b).mpr (Or.inr (Or.inl rfl)),
    by rw [linkCost_addLink hwf]; simp,
    by rw [linkCost_addLink hwf]; simp⟩

/-- Witness of C14 (Scenario 1): the record (1, 7, 5) names the unknown node 7. -/
theorem upsert_unknown_node_witness :
    WellFormed scenario1 ∧ (5 : Int) > 0 ∧ (7 : Int) ∉ node_ids scenario1 ∧
    apply_changes (0, 0, 0) scenario1 ⟨true, [(1, 7, 5)], false, false⟩
      = .error .null_deref ∧
    (1 : Int) ∈ node_ids (addLink scenario1 (1, 7, 5)) ∧
    (7 : Int) ∈ node_ids (addLink scenario1 (1, 7, 5)) ∧
    linkCost (addLink scenario1 (1, 7, 5)) 1 7 = some 5 ∧
    linkCost (addLink scenario1 (1, 7, 5)) 7 1 = some 5 :=
  ⟨by decide, by decide, by decide,
    upsert_unknown_node (by decide) 1 7 5 (0, 0, 0) [] false (by decide)
      (Or.inr (by decide))⟩

/-! ## C15: the removal of a link that does not exist -/

/-- For known nodes a and b without a link between them, the deletion record leaves the
topology as it was and returns 1. -/
theorem remove_absent_link_known {T : Topology} {a b : Int} (ha : a ∈ node_ids T)
    (hb : b ∈ node_ids T) (h1 : linkCost T a b = none) (h2 : linkCost T b a = none)
    (uninit : Int × Int × Int) (rest : List (Int × Int × Int)) (trailing : Bool) :
    apply_changes uninit T ⟨true, (a, b, -999) :: rest, trailing, false⟩
      = .ok (T, ⟨true, rest, trailing, rest.isEmpty && !trailing⟩, 1) := by
  rw [@apply_changes_known T a b ha hb (-999) uninit
    ⟨true, (a, b, -999) :: rest, trailing, false⟩ rfl rfl rfl]
  have hm : mutate T (a, b, -999) = T := by
    have hdef : mutate T (a, b, -999) = topoEraseLink (topoEraseLink T a b) b a := rfl
    rw [hdef, topoEraseLink_of_absent h1, topoEraseLink_of_absent h2]
  rw [hm]
  rfl

/-- C15, what the code does: for a pair of which one node is unknown, and which
therefore has no link between them, the deletion record makes apply_changes dereference
a null pointer. -/
theorem remove_link_unknown_node {T : Topology} (hwf : WellFormed T) (a b : Int)
    (uninit : Int × Int × Int) (rest : List (Int × Int × Int)) (trailing : Bool)
    (hab : a ∉ node_ids T ∨ b ∉ node_ids T) :
    linkCost T a b = none ∧ linkCost T b a = none ∧
    apply_changes uninit T ⟨true, (a, b, -999) :: rest, trailing, false⟩
      = .error .null_deref := by
  refine ⟨?_, ?_, apply_changes_unknown T a b (-999) uninit rfl rfl rfl (Or.inr rfl) hab⟩
  · cases h : linkCost T a b with
    | none => rfl
    | some c =>
      rcases hab with h1 | h1
      · exact absurd (linkCost_known_left h) h1
      · exact absurd (linkCost_known_right hwf h) h1
  · cases h : linkCost T b a with
    | none => rfl
    | some c =>
      rcases hab with h1 | h1
      · exact absurd (linkCost_known_right hwf h) h1
      · exact absurd (linkCost_known_left h) h1

/-- Witness of C15 (Scenario 1): the deletion record (1, 7, -999) names the unknown
node 7; the deletion record (1, 3, -999) over known nodes changes nothing. -/
theorem remove_link_unknown_node_witness :
    WellFormed scenario1 ∧ (7 : Int) ∉ node_ids scenario1 ∧
    (linkCost scenario1 1 7 = none ∧ linkCost scenario1 7 1 = none ∧
      apply_changes (0, 0, 0) scenario1 ⟨true, [(1, 7, -999)], false, false⟩
        = .error .null_deref) ∧
    apply_changes (0, 0, 0) scenario1 ⟨true, [(1, 3, -999)], false, false⟩
      = .ok (scenario1, ⟨true, [], false, true⟩, 1) :=
  ⟨by decide, by decide,
    remove_link_unknown_node (by decide) 1 7 (0, 0, 0) [] false (Or.inr (by decide)), rfl⟩

/-! ## C16: the two directions of a link -/

/-- C16: in the topology that read_topology builds from any list of records, and after
any number of calls of apply_changes on it with any changes file, whatever a read of an
uninitialised int yields, b is a neighbour of a with cost c exactly when a is a
neighbour of b with cost c. -/
theorem adjacency_symmetric (records : List (Int × Int × Int)) (uninit : Int × Int × Int)
    (changesfile : changes_stream) (n : Nat) (T : Topology) (rest : changes_stream)
    (h : applyCalls uninit n (read_topology records) changesfile = .ok (T, rest)) :
    (∀ a b c, linkCost T a b = some c ↔ linkCost T b a = some c) ∧ Symmetric T := by
  obtain ⟨_, hwf, hsym, _⟩ := applyCalls_inv uninit n h (read_topology_wellFormed records)
  have hs := hsym (read_topology_linkSym records)
  exact ⟨fun a b c => by rw [hs a b], symmetric_of_linkSym hwf hs⟩

/-- Witness of C16: Scenario 1 as read, and after the removal of the link 2 - 3 and the
addition of a link 1 - 3, the second from a record of the file that ends with it and
the first from the uninitialised values that are left when the file ends in white
space. -/
theorem adjacency_symmetric_witness :
    applyCalls (0, 0, 0) 0 (read_topology [(1, 2, 1), (2, 3, 1)])
        ⟨true, [(2, 3, -999), (1, 3, 4)], false, false⟩
      = .ok (scenario1, ⟨true, [(2, 3, -999), (1, 3, 4)], false, false⟩) ∧
    ((∀ a b c, linkCost scenario1 a b = some c ↔ linkCost scenario1 b a = some c) ∧
      Symmetric scenario1) ∧
    applyCalls (2, 3, -999) 2 (read_topology [(1, 2, 1), (2, 3, 1)])
        ⟨true, [(1, 3, 4)], true, false⟩
      = .ok ([(1, ⟨1, [(2, 1), (3, 4)]⟩), (2, ⟨2, [(1, 1)]⟩), (3, ⟨3, [(1, 4)]⟩)],
          ⟨true, [], true, true⟩) ∧
    ((∀ a b c,
        linkCost [(1, ⟨1, [(2, 1), (3, 4)]⟩), (2, ⟨2, [(1, 1)]⟩), (3, ⟨3, [(1, 4)]⟩)] a b
          = some c ↔
        linkCost [(1, ⟨1, [(2, 1), (3, 4)]⟩), (2, ⟨2, [(1, 1)]⟩), (3, ⟨3, [(1, 4)]⟩)] b a
          = some c) ∧
      Symmetric [(1, ⟨1, [(2, 1), (3, 4)]⟩), (2, ⟨2, [(1, 1)]⟩), (3, ⟨3, [(1, 4)]⟩)]) :=
  ⟨rfl,
    adjacency_symmetric [(1, 2, 1), (2, 3, 1)] (0, 0, 0)
      ⟨true, [(2, 3, -999), (1, 3, 4)], false, false⟩ 0 _ _ (by rfl),
    rfl,
    adjacency_symmetric [(1, 2, 1), (2, 3, 1)] (2, 3, -999)
      ⟨true, [(1, 3, 4)], true, false⟩ 2 _ ⟨true, [], true, true⟩ (by rfl)⟩

/-! ## C18: a change record with a cost that is neither above 0 nor -999 -/

/-- C18, what the code does: for a record whose cost is neither above 0 nor -999,
apply_changes consumes the record, leaves the topology as it was and returns 0, the
value it returns at the end of the file; the loop of main then ends after the round,
with the records behind the invalid one unread. -/
theorem invalid_change_returns_zero (T : Topology) (a b cost : Int)
    (uninit : Int × Int × Int) (rest : List (Int × Int × Int)) (trailing : Bool)
    (h1 : ¬ cost > 0) (h2 : cost ≠ -999) :
    apply_changes uninit T ⟨true, (a, b, cost) :: rest, trailing, false⟩
      = .ok (T, ⟨true, rest, trailing, rest.isEmpty && !trailing⟩, 0) ∧
    (∀ changesfile : changes_stream,
      changesfile.is_open = false ∨ changesfile.eofbit = true →
      apply_changes uninit T changesfile = .ok (T, changesfile, 0)) ∧
    ∀ impl fuel message_list n R rounds,
      simLoop impl uninit fuel message_list (n + 1)
          ⟨T, R, ⟨true, (a, b, cost) :: rest, trailing, false⟩⟩ = .ok rounds →
      rounds.length = 1 ∧ ∀ r ∈ rounds, r.returned = 0 := by
  have hap : apply_changes uninit T ⟨true, (a, b, cost) :: rest, trailing, false⟩
      = .ok (T, ⟨true, rest, trailing, rest.isEmpty && !trailing⟩, 0) := by
    simp [apply_changes, extract, h1, h2]
  refine ⟨hap, fun f hf => apply_changes_end uninit T hf, ?_⟩
  intro impl fuel message_list n R rounds h
  simp only [simLoop, simRound, hap] at h
  cases hu : update_tables impl T R with
  | error e => simp [hu] at h
  | ok res =>
    obtain ⟨R1, tables⟩ := res
    simp only [hu] at h
    cases hs : send_messages R1 fuel message_list with
    | error e => simp [hs] at h
    | ok traces =>
      simp only [hs, ne_eq, not_true_eq_false, if_false, Except.ok.injEq] at h
      subst h
      simp

/-- Witness of C18 (Scenario 1): the changes file holds the record (1, 2, 0) in front of
the record (2, 3, 5); main takes one round, never applies the second record, and writes
what it writes when there is no changes file. -/
theorem invalid_change_returns_zero_witness :
    ¬ ((0 : Int) > 0) ∧ (0 : Int) ≠ -999 ∧
    (apply_changes (0, 0, 0) scenario1 ⟨true, [(1, 2, 0), (2, 3, 5)], false, false⟩
        = .ok (scenario1, ⟨true, [(2, 3, 5)], false, false⟩, 0) ∧
      (∀ changesfile : changes_stream,
        changesfile.is_open = false ∨ changesfile.eofbit = true →
        apply_changes (0, 0, 0) scenario1 changesfile = .ok (scenario1, changesfile, 0)) ∧
      ∀ impl fuel message_list n R rounds,
        simLoop impl (0, 0, 0) fuel message_list (n + 1)
            ⟨scenario1, R, ⟨true, [(1, 2, 0), (2, 3, 5)], false, false⟩⟩ = .ok rounds →
        rounds.length = 1 ∧ ∀ r ∈ rounds, r.returned = 0) ∧
    (main impl0 (0, 0, 0) 3 [(1, 2, 1), (2, 3, 1)] [⟨1, 3, "hi"⟩]
        ⟨true, [(1, 2, 0), (2, 3, 5)], false, false⟩).map
        (fun rounds => rounds.map (·.text))
      = (main impl0 (0, 0, 0) 3 [(1, 2, 1), (2, 3, 1)] [⟨1, 3, "hi"⟩]
        ⟨false, [], false, false⟩).map
        (fun rounds => rounds.map (·.text)) :=
  ⟨by decide, by decide,
    invalid_change_returns_zero scenario1 1 2 0 (0, 0, 0) [(2, 3, 5)] false
      (by decide) (by decide), rfl⟩

/-! ## C17: a node that has lost all its links -/

theorem LInv_init {T : Topology} (hwf : WellFormed T) {s : Int} {node : node_t}
    (hnode : topoFind T s = some node) : LInv T s (initState s node) := by
  constructor
  · intro v hv hvs
    rw [initState_N] at hv
    exact absurd (by simpa using hv) hvs
  · intro v _ hD
    rw [initState_D hwf hnode] at hD
    cases hc : mapFind node.neighbors v with
    | none => exact absurd hc hD
    | some c => exact ⟨s, c, by rw [linkCost_of_find hnode]; exact hc⟩

theorem LInv_select {T : Topology} (hwf : WellFormed T) {s : Int} {st : DState}
    (hL : LInv T s st) {m : Int} (hmN : m ∉ st.N) (hmD : mapFind st.D m ≠ none)
    {node : node_t} (hnode : topoFind T m = some node) : LInv T s (relaxed st m node) := by
  constructor
  · intro v hv hvs
    rcases List.mem_cons.mp hv with h | h
    · rw [h]
      exact hL.2 m hmN hmD
    · exact hL.1 v h hvs
  · intro v hv hD
    cases hl : linkCost T m v with
    | none =>
      rw [(relaxed_keep hwf st m node hnode v (Or.inr hl)).1] at hD
      exact hL.2 v (fun h => hv (List.mem_cons_of_mem _ h)) hD
    | some c => exact ⟨m, c, hl⟩

/-- The main loop ends in a state whose reached nodes, the source apart, all have a link
from some node. -/
theorem mainLoop_links {T : Topology} (hwf : WellFormed T) (impl : Impl) {s : Int}
    {node : node_t} (hnode : topoFind T s = some node) :
    ∃ st, mainLoop impl T T.length (initState s node) = .ok st ∧
      ∃ R, SFinal T s st R ∧ ∀ v ∈ R, v ≠ s → ∃ u c, linkCost T u v = some c := by
  refine mainLoop_induct impl T (fun st => SInv T s st ∧ LInv T s st)
    (fun st1 => ∃ R, SFinal T s st1 R ∧ ∀ v ∈ R, v ≠ s → ∃ u c, linkCost T u v = some c)
    ?_ ?_ ?_ T.length (initState s node) ⟨SInv_init hwf hnode, LInv_init hwf hnode⟩
    (initState_fuel s node)
  · intro k st hI _ hne
    obtain ⟨node1, hnode1, hit, hS1⟩ := SInv_select hwf hI.1 impl k hne
    obtain ⟨hmD, hmN, _⟩ := (scan_spec impl k st.N st.D hI.1.keysD).2.2 hne
    exact ⟨_, hit, ⟨hS1, LInv_select hwf hI.2 hmN (by rw [hmD]; simp) hnode1⟩, rfl⟩
  · intro k st hI _ _
    exact ⟨⟨st.N, (SFinal_of_mark hwf hI.1).1, hI.2.1⟩, (SFinal_of_mark hwf hI.1).2⟩
  · intro st hI hn
    exact ⟨st.N, SFinal_of_exit hI.1 hn, hI.2.1⟩

/-- The table of a source holds the path cost -1 for a known node, other than the
source, that no node has as a neighbour. -/
theorem Dijkstra_no_link {T : Topology} (hwf : WellFormed T) (impl : Impl) {s x : Int}
    (hs : s ∈ node_ids T) (hx : x ∈ node_ids T) (hxs : x ≠ s)
    (hno : ∀ u, linkCost T u x = none) :
    ∃ table, Dijkstra impl T s = .ok table ∧ table.map (·.dest) = node_ids T ∧
      ∀ e ∈ table, e.dest = x → e.path_cost = -1 := by
  obtain ⟨node, hnode⟩ := topoFind_of_known hs
  by_cases hiso : node.neighbors = []
  · refine ⟨_, Dijkstra_isolated hwf impl hnode hiso, isolatedTable_dest T s, ?_⟩
    intro e he hex
    obtain ⟨p, _, hp⟩ := List.mem_map.mp he
    by_cases hps : p.1 = s
    · rw [if_pos hps] at hp
      rw [← hp] at hex
      exact absurd (hex.symm.trans hps) hxs
    · rw [if_neg hps] at hp
      rw [← hp]
  · obtain ⟨st, hloop, R, hF, hlinks⟩ := mainLoop_links hwf impl hnode
    obtain ⟨table, ht, hmap, hall⟩ := fillTable_spec hF impl T
      (fun p hp => List.mem_map.mpr ⟨p, hp, rfl⟩)
    refine ⟨table, by rw [Dijkstra_linked hwf impl hnode hiso hloop]; exact ht, hmap, ?_⟩
    intro e he hex
    obtain ⟨e1, he1, _, _, hother⟩ := fillEntry_spec hF impl e.dest (hex ▸ hx)
    rw [hall e he] at he1
    have hee : e = e1 := by injection he1
    subst hee
    rw [(hother (hex ▸ hxs)).1, hex]
    have hxR : x ∉ R := by
      intro hmem
      obtain ⟨u, c, hl⟩ := hlinks x hmem hxs
      rw [hno u] at hl
      cases hl
    exact (hF.rest x hx hxR).1

theorem noLinks_linkCost {T : Topology} {x : Int} (h : NoLinks T x) (u : Int) :
    linkCost T u x = none := by
  cases hl : linkCost T u x with
  | none => rfl
  | some c =>
    obtain ⟨n, hn, hb⟩ := linkCost_some hl
    exact absurd (List.mem_map.mpr ⟨(x, c), mapFind_some_mem hb, rfl⟩)
      (h _ (topoFind_some_mem hn)).2

/-- C17: when calls of apply_changes (deletion records, or any others, whatever a read of
an uninitialised int yields) have left a known node x of a well-formed topology without
a link, x is still a known node; the table that
Dijkstra computes for any other known node has an entry for x, with path_cost -1;
update_tables stores that table, and a message from that node to x is written in the
unreachable form. -/
theorem isolated_node_stays_known {T : Topology} (hwf : WellFormed T) (impl : Impl)
    (uninit : Int × Int × Int) (changesfile : changes_stream) (n : Nat) {T1 : Topology}
    {rest : changes_stream} (happ : applyCalls uninit n T changesfile = .ok (T1, rest))
    {x : Int} (hx : x ∈ node_ids T) (hiso : NoLinks T1 x) :
    x ∈ node_ids T1 ∧
    ∀ s ∈ node_ids T1, s ≠ x →
      ∃ table, Dijkstra impl T1 s = .ok table ∧
        (∃ e ∈ table, e.dest = x) ∧ (∀ e ∈ table, e.dest = x → e.path_cost = -1) ∧
        ∀ R0, ∃ r, update_tables impl T1 R0 = .ok r ∧ tableAt r.1 s = table ∧
          ∀ fuel payload, sendOne r.1 fuel ⟨s, x, payload⟩ =
            .ok ("from " ++ toString s ++ " to " ++ toString x
              ++ " cost infinite hops unreachable message " ++ payload ++ "\n") := by
  obtain ⟨hids, hwf1, _, _⟩ := applyCalls_inv uninit n happ hwf
  have hx1 : x ∈ node_ids T1 := by rw [hids]; exact hx
  refine ⟨hx1, ?_⟩
  intro s hs hsx
  obtain ⟨table, ht, hmap, hcost⟩ := Dijkstra_no_link hwf1 impl hs hx1 (Ne.symm hsx)
    (noLinks_linkCost hiso)
  obtain ⟨e, he, hex⟩ := entry_of_known hmap hx1
  refine ⟨table, ht, ⟨e, he, hex⟩, hcost, ?_⟩
  intro R0
  obtain ⟨r, hr, _⟩ := update_tables_spec hwf1 impl R0
  obtain ⟨table1, ht1, htab⟩ := ((updateLoop_spec impl T1 T1 (R0, "") r hr) s).1 hs
  rw [ht] at ht1
  injection ht1 with ht1
  subst ht1
  refine ⟨r, hr, htab, ?_⟩
  intro fuel payload
  have hnd : (table.map (·.dest)).Nodup := by rw [hmap]; exact node_ids_nodup hwf1
  have hfind : (tableAt r.1 s).find? (fun y => decide (y.dest = x)) = some e := by
    rw [htab, ← hex]
    exact find_of_mem_nodup hnd he
  have hne : ¬ (tableAt r.1 s).length = 0 := by
    intro h
    rw [List.eq_nil_of_length_eq_zero h] at hfind
    simp at hfind
  have hc : ¬ e.path_cost ≥ 0 := by
    rw [hcost e he hex]
    decide
  simp only [sendOne, trace, hne, if_false, findEntry_found hfind, hc, render]

/-- Witness of C17 (Scenario 2): from the edges (1, 2, 1), (2, 3, 1), the record
(2, 3, -999) leaves node 3 without a link; the table of node 1 keeps an entry for 3
with path_cost -1, and the message from 1 to 3 is written in the unreachable form. -/
theorem isolated_node_stays_known_witness :
    WellFormed scenario1 ∧
    applyCalls (0, 0, 0) 1 scenario1 ⟨true, [(2, 3, -999)], false, false⟩
      = .ok ([(1, ⟨1, [(2, 1)]⟩), (2, ⟨2, [(1, 1)]⟩), (3, ⟨3, []⟩)],
          ⟨true, [], false, true⟩) ∧
    (3 : Int) ∈ node_ids scenario1 ∧
    NoLinks [(1, ⟨1, [(2, 1)]⟩), (2, ⟨2, [(1, 1)]⟩), (3, ⟨3, []⟩)] 3 ∧
    ((3 : Int) ∈ node_ids [(1, ⟨1, [(2, 1)]⟩), (2, ⟨2, [(1, 1)]⟩), (3, ⟨3, []⟩)] ∧
      ∀ s ∈ node_ids [(1, ⟨1, [(2, 1)]⟩), (2, ⟨2, [(1, 1)]⟩), (3, ⟨3, []⟩)], s ≠ 3 →
      ∃ table,
        Dijkstra impl0 [(1, ⟨1, [(2, 1)]⟩), (2, ⟨2, [(1, 1)]⟩), (3, ⟨3, []⟩)] s
          = .ok table ∧
        (∃ e ∈ table, e.dest = 3) ∧ (∀ e ∈ table, e.dest = 3 → e.path_cost = -1) ∧
        ∀ R0, ∃ r,
          update_tables impl0 [(1, ⟨1, [(2, 1)]⟩), (2, ⟨2, [(1, 1)]⟩), (3, ⟨3, []⟩)] R0
            = .ok r ∧
          tableAt r.1 s = table ∧
          ∀ fuel payload, sendOne r.1 fuel ⟨s, 3, payload⟩ =
            .ok ("from " ++ toString s ++ " to " ++ toString (3 : Int)
              ++ " cost infinite hops unreachable message " ++ payload ++ "\n")) ∧
    Dijkstra impl0 [(1, ⟨1, [(2, 1)]⟩), (2, ⟨2, [(1, 1)]⟩), (3, ⟨3, []⟩)] 1
      = .ok [⟨1, 1, 0⟩, ⟨2, 2, 1⟩, ⟨3, -1, -1⟩] ∧
    sendOne (tablesOf impl0 [(1, ⟨1, [(2, 1)]⟩), (2, ⟨2, [(1, 1)]⟩), (3, ⟨3, []⟩)]) 3
        ⟨1, 3, "hi"⟩
      = .ok "from 1 to 3 cost infinite hops unreachable message hi\n" :=
  ⟨by decide, rfl, by decide, by decide,
    isolated_node_stays_known (by decide) impl0 (0, 0, 0)
      ⟨true, [(2, 3, -999)], false, false⟩ 1
      (by rfl : applyCalls (0, 0, 0) 1 scenario1 ⟨true, [(2, 3, -999)], false, false⟩
        = .ok ([(1, ⟨1, [(2, 1)]⟩), (2, ⟨2, [(1, 1)]⟩), (3, ⟨3, []⟩)],
            ⟨true, [], false, true⟩))
      (by decide) (by decide),
    rfl, rfl⟩

/-! ## The hop walk when a node may have the identifier -1 -/

/-- The next hop of an entry for a destination to which a path exists, whether or not a
node has the identifier -1: a known node from which a path to the destination costs
less than the entry says.  It is the first node after the source on the path of the
tree or, when the previous node of the destination is the node -1, that node. -/
theorem next_hop_closer {T : Topology} (hwf : WellFormed T) (hpos : Positive T)
    (hno : NoOverflow T) (impl : Impl) {s : Int} (hs : s ∈ node_ids T) :
    ∃ table, Dijkstra impl T s = .ok table ∧ table.map (·.dest) = node_ids T ∧
      ∀ e ∈ table, e.dest ≠ s → (∃ l k, IsPath T s e.dest l k) →
        e.next_hop ∈ node_ids T ∧
        ∃ l1 k1, IsPath T e.next_hop e.dest l1 k1 ∧ k1 < e.path_cost := by
  obtain ⟨node, hnode⟩ := topoFind_of_known hs
  by_cases hiso : node.neighbors = []
  · refine ⟨_, Dijkstra_isolated hwf impl hnode hiso, isolatedTable_dest T s, ?_⟩
    intro e _ hes hpath
    exact absurd hpath (no_path_of_isolated hnode hiso hes)
  · obtain ⟨st, hloop, R, hS, hC⟩ := mainLoop_cost hwf hpos hno impl hnode
    obtain ⟨table, ht, hmap, hall⟩ := fillTable_spec hS impl T
      (fun p hp => List.mem_map.mpr ⟨p, hp, rfl⟩)
    refine ⟨table, by rw [Dijkstra_linked hwf impl hnode hiso hloop]; exact ht, hmap, ?_⟩
    rintro e he hes ⟨l, k, hl⟩
    have hsR := hS.tree.src
    obtain ⟨hdR, _⟩ := path_lower_bound hC l k s e.dest hsR hl.1 hl.2.1 hl.2.2
    have hd : e.dest ∈ node_ids T := hS.tree.known _ hdR
    obtain ⟨e1, he1, _, _, hspec⟩ := fillEntry_spec hS impl e.dest hd
    rw [hall e he] at he1
    have hee : e = e1 := by injection he1
    subst hee
    obtain ⟨hpc, hnh1, hnh2, hnh3⟩ := hspec hes
    obtain ⟨c, hc, hD⟩ := hC.treeCost e.dest hdR hes
    have hu := hS.tree.prev_mem hdR hes
    have hcpos := linkCost_pos hpos hc
    by_cases hcase : mapAt st.P e.dest = s ∨ mapAt st.P e.dest ≠ -1
    · have hch : Chain st.P s e.next_hop e.dest := by
        by_cases hps : mapAt st.P e.dest = s
        · rw [hnh1 hps]
          exact Chain.base _ hes hps
        · have hne1 : mapAt st.P e.dest ≠ -1 := by
            rcases hcase with h | h
            · exact absurd h hps
            · exact h
          exact Chain.step _ _ _ (hnh3 hps hne1) hes rfl
      obtain ⟨c0, l1, hc0, q1, q2, q3⟩ := chain_path hS.tree hC.treeCost hch hdR
      have hc0pos := linkCost_pos hpos hc0
      exact ⟨linkCost_known_right hwf hc0, l1, _, ⟨q1, q2, q3⟩, by rw [hpc]; omega⟩
    · have hps : mapAt st.P e.dest ≠ s := fun h => hcase (Or.inl h)
      have hm1 : mapAt st.P e.dest = -1 := by
        by_contra h
        exact hcase (Or.inr h)
      have hnh : e.next_hop = mapAt st.P e.dest := by rw [hnh2 hps hm1, hm1]
      obtain ⟨c1, hc1, hD1⟩ := hC.treeCost _ hu hps
      have hc1pos := linkCost_pos hpos hc1
      have hw := hS.tree.prev_mem hu hps
      obtain ⟨lw, _, _, _, _, hpw⟩ := tree_path_mem hS.tree hC.treeCost hw
      have h0 := pathCost_nonneg hpos _ _ hpw
      rw [dist0_other _ hps] at hD
      rw [hnh]
      refine ⟨hS.tree.known _ hu, [mapAt st.P e.dest, e.dest], c, ⟨rfl, rfl, ?_⟩, ?_⟩
      · simp [pathCost, hc]
      · rw [hpc]
        omega

/-- The least cost from a known node to a destination to which it has a path. -/
theorem leastCost_exists {T : Topology} (hwf : WellFormed T) (hpos : Positive T)
    (hno : NoOverflow T) {u d : Int} (hu : u ∈ node_ids T) {l : List Int} {k : Int}
    (hl : IsPath T u d l k) : ∃ k1, LeastCost T u d k1 ∧ k1 ≤ k := by
  by_cases hdu : d = u
  · subst hdu
    exact ⟨0, ⟨⟨[d], rfl, rfl, rfl⟩, fun l1 k1 hl1 => pathCost_nonneg hpos l1 k1 hl1.2.2⟩,
      pathCost_nonneg hpos l k hl.2.2⟩
  · obtain ⟨table, _, hmap, hall⟩ := Dijkstra_entries hwf hpos hno impl0 hu
    obtain ⟨e, he, hed⟩ := entry_of_known hmap (path_end_known hwf hu hl)
    have hes : e.dest ≠ u := by rw [hed]; exact hdu
    obtain ⟨_, h2, h3, _⟩ := ((hall e he).2 hes).2 ⟨l, k, by rw [hed]; exact hl⟩
    rw [hed] at h2 h3
    exact ⟨e.path_cost, ⟨h2, h3⟩, h3 l k hl⟩

/-- One step of the walk, whether or not a node has the identifier -1: the table of a
node h other than the destination names a known node from which the least cost to the
destination is less than from h. -/
theorem table_step_any {T : Topology} (hwf : WellFormed T) (hpos : Positive T)
    (hno : NoOverflow T) {impl : Impl} {R : RoutingTable}
    (hT : TablesOf impl T R) {h dest k : Int} (hh : h ∈ node_ids T) (hne : h ≠ dest)
    (hk : LeastCost T h dest k) :
    ∃ e k1, findEntry (tableAt R h) dest = .ok e ∧ e.path_cost = k ∧
      e.next_hop ∈ node_ids T ∧ LeastCost T e.next_hop dest k1 ∧ k1 < k := by
  obtain ⟨table, ht, hR⟩ := hT h hh
  obtain ⟨table1, ht1, hmap, hall⟩ := Dijkstra_entries hwf hpos hno impl hh
  obtain ⟨table2, ht2, _, hnext⟩ := next_hop_closer hwf hpos hno impl hh
  rw [ht] at ht1 ht2
  injection ht1 with ht1
  injection ht2 with ht2
  subst ht1
  subst ht2
  obtain ⟨l0, hl0⟩ := hk.1
  obtain ⟨e, he, hed⟩ := entry_of_known hmap (path_end_known hwf hh hl0)
  have hnd : (table.map (·.dest)).Nodup := by rw [hmap]; exact node_ids_nodup hwf
  have hfind := find_of_mem_nodup hnd he
  rw [hed] at hfind
  have hes : e.dest ≠ h := by rw [hed]; exact fun h1 => hne h1.symm
  have hpath : ∃ l k, IsPath T h e.dest l k := ⟨l0, k, by rw [hed]; exact hl0⟩
  obtain ⟨_, h2, h3, _⟩ := ((hall e he).2 hes).2 hpath
  rw [hed] at h2 h3
  have hpc : e.path_cost = k := LeastCost.unique ⟨h2, h3⟩ hk
  obtain ⟨hkn, l1, k1, hl1, hlt⟩ := hnext e he hes hpath
  rw [hed] at hl1
  obtain ⟨k2, hk2, hle⟩ := leastCost_exists hwf hpos hno hkn hl1
  exact ⟨e, k2, by rw [hR]; exact findEntry_found hfind, hpc, hkn, hk2, by omega⟩

/-- The hop loop, started at a known node h from which the destination can be reached,
visits known nodes with ever smaller least costs to the destination, none of them
twice, and ends at the destination; it leaves in the queue the nodes it visited after
h and before the destination. -/
theorem follow_visit {T : Topology} (hwf : WellFormed T) (hpos : Positive T)
    (hno : NoOverflow T) {impl : Impl} {R : RoutingTable}
    (hT : TablesOf impl T R) (dest : Int) :
    ∀ (n : Nat) (h k : Int), k.toNat ≤ n → h ∈ node_ids T → LeastCost T h dest k →
      ∃ w : List Int, w.head? = some h ∧ w.getLast? = some dest ∧ w.Nodup ∧
        (∀ x ∈ w, x ∈ node_ids T ∧ ∃ kx, LeastCost T x dest kx ∧ kx ≤ k) ∧
        (h = dest → w = [dest]) ∧
        ∀ fuel hops, w.length ≤ fuel + 1 →
          followHops R dest fuel h hops = .ok (hops ++ w.tail.dropLast) := by
  intro n
  induction n with
  | zero =>
    intro h k hn hh hk
    obtain ⟨⟨l0, hl0⟩, hmin⟩ := hk
    have h0 := pathCost_nonneg hpos l0 k hl0.2.2
    have hk0 : k = 0 := by omega
    by_cases hd : h = dest
    · subst hd
      subst hk0
      refine ⟨[h], rfl, rfl, List.nodup_singleton h, ?_, fun _ => rfl,
        fun fuel hops _ => by simpa using followHops_done R h fuel hops⟩
      intro x hx
      have hxh : x = h := by simpa using hx
      subst hxh
      exact ⟨hh, 0, ⟨⟨l0, hl0⟩, hmin⟩, le_refl _⟩
    · obtain ⟨e, k1, _, _, _, hL, hlt⟩ :=
        table_step_any hwf hpos hno hT hh hd ⟨⟨l0, hl0⟩, hmin⟩
      obtain ⟨⟨l1, hl1⟩, _⟩ := hL
      have := pathCost_nonneg hpos l1 _ hl1.2.2
      omega
  | succ n ih =>
    intro h k hn hh hk
    by_cases hd : h = dest
    · subst hd
      refine ⟨[h], rfl, rfl, List.nodup_singleton h, ?_, fun _ => rfl,
        fun fuel hops _ => by simpa using followHops_done R h fuel hops⟩
      intro x hx
      have hxh : x = h := by simpa using hx
      subst hxh
      exact ⟨hh, k, hk, le_refl _⟩
    · obtain ⟨e, k1, hfind, _, hnk, hL, hlt⟩ := table_step_any hwf hpos hno hT hh hd hk
      obtain ⟨l1, hl1⟩ := hL.1
      have h1 := pathCost_nonneg hpos l1 _ hl1.2.2
      obtain ⟨w1, hw1h, hw1l, hnd1, hall1, hsingle, hrun⟩ :=
        ih e.next_hop k1 (by omega) hnk hL
      have hnotin : h ∉ w1 := by
        intro hmem
        obtain ⟨_, kx, hkx, hle⟩ := hall1 h hmem
        have := LeastCost.unique hkx hk
        omega
      have hw1len : 1 ≤ w1.length := by
        cases w1 with
        | nil => simp at hw1h
        | cons a r => simp
      refine ⟨h :: w1, rfl, ?_, List.nodup_cons.mpr ⟨hnotin, hnd1⟩, ?_,
        fun h1 => absurd h1 hd, ?_⟩
      · cases w1 with
        | nil => simp at hw1h
        | cons a r => simpa [List.getLast?_cons_cons] using hw1l
      · intro x hx
        rcases List.mem_cons.mp hx with rfl | hx
        · exact ⟨hh, k, hk, le_refl _⟩
        · obtain ⟨g1, kx, g2, g3⟩ := hall1 x hx
          exact ⟨g1, kx, g2, by omega⟩
      · intro fuel hops hlen
        obtain ⟨f, rfl⟩ : ∃ f, fuel = f + 1 := ⟨fuel - 1, by
          simp only [List.length_cons] at hlen; omega⟩
        have hlen1 : w1.length ≤ f + 1 := by
          simp only [List.length_cons] at hlen; omega
        simp only [followHops, ne_eq, hd, not_false_eq_true, if_true, hfind, List.tail_cons]
        by_cases hnd : e.next_hop = dest
        · have hp1s := hsingle hnd
          rw [hrun f _ hlen1, hp1s]
          simp [hnd]
        · rw [hrun f _ hlen1, if_pos hnd]
          rw [hops_shape hw1h hw1l hnd hops]

/-- The trace of a message from a known source whose entry has a cost of 0 or more,
whether or not a node has the identifier -1: the hop loop visits known nodes, none of
them twice, and ends at the destination as soon as it may take two steps less than it
visits nodes, the source included. -/
theorem trace_visit {T : Topology} (hwf : WellFormed T) (hpos : Positive T)
    (hno : NoOverflow T) {impl : Impl} {R : RoutingTable}
    (hT : TablesOf impl T R) {src dest : Int} (hsrc : src ∈ node_ids T) {e : entry_t}
    (hfind : findEntry (tableAt R src) dest = .ok e) (hcost : 0 ≤ e.path_cost) :
    ∃ w : List Int, w.head? = some src ∧ w.getLast? = some dest ∧ w.Nodup ∧
      (∀ x ∈ w, x ∈ node_ids T) ∧
      ∀ fuel, w.length ≤ fuel + 2 →
        trace R fuel src dest =
          .ok (.delivered e.path_cost (if src = dest then [src] else w.dropLast)) := by
  obtain ⟨table, ht, hR⟩ := hT src hsrc
  obtain ⟨table1, ht1, _, hall⟩ := Dijkstra_entries hwf hpos hno impl hsrc
  rw [ht] at ht1
  injection ht1 with ht1
  subst ht1
  have hf := findEntry_ok hfind
  have hed : e.dest = dest := by simpa using List.find?_some hf
  have he : e ∈ table := hR ▸ List.mem_of_find?_eq_some hf
  have hlen : ¬ (tableAt R src).length = 0 := by
    intro h
    rw [List.eq_nil_of_length_eq_zero h] at hf
    simp at hf
  have hc : e.path_cost ≥ 0 := hcost
  by_cases hsd : src = dest
  · subst hsd
    obtain ⟨hnh, hpc⟩ := (hall e he).1 hed
    refine ⟨[src], rfl, rfl, List.nodup_singleton src, by simpa using hsrc, ?_⟩
    intro fuel _
    simp only [trace, hlen, if_false, hfind, hc, if_true, hnh, ne_eq, not_true_eq_false,
      followHops_done]
  · have hes : e.dest ≠ src := by rw [hed]; exact fun h => hsd h.symm
    obtain ⟨hun, hre⟩ := (hall e he).2 hes
    have hreach : ∃ l k, IsPath T src e.dest l k := by
      by_contra hn
      have := (hun hn).1
      omega
    obtain ⟨_, h2, h3, _⟩ := hre hreach
    rw [hed] at h2 h3
    have hL : LeastCost T src dest e.path_cost := ⟨h2, h3⟩
    obtain ⟨w, hwh, hwl, hnd, hkn, _, hrun⟩ :=
      follow_visit hwf hpos hno hT dest e.path_cost.toNat src e.path_cost (le_refl _)
        hsrc hL
    refine ⟨w, hwh, hwl, hnd, fun x hx => (hkn x hx).1, ?_⟩
    intro fuel hwlen
    have hstep : followHops R dest (fuel + 1) src [src] =
        followHops R dest fuel e.next_hop
          (if e.next_hop ≠ dest then [src, e.next_hop] else [src]) := by
      simp only [followHops, ne_eq, hsd, not_false_eq_true, if_true, hfind]
      rfl
    have hq : [src] ++ w.tail.dropLast = w.dropLast := by
      have := hops_shape hwh hwl hsd []
      simpa using this
    simp only [trace, hlen, if_false, hfind, hc, if_true, hsd]
    rw [← hstep, hrun (fuel + 1) [src] hwlen, hq]

/-! ## The rounds of main -/

/-- The trace of a message returns when the source is unknown or the destination is
known, for tables computed from a topology with positive costs and without overflow. -/
theorem trace_total {T : Topology} (hwf : WellFormed T) (hpos : Positive T)
    (hno : NoOverflow T) {impl : Impl} {R : RoutingTable}
    (hT : TablesExact impl T R) (src dest : Int)
    (hd : src ∈ node_ids T → dest ∈ node_ids T) (fuel : Nat) (hfuel : T.length ≤ fuel) :
    ∃ r, trace R fuel src dest = .ok r := by
  by_cases hsrc : src ∈ node_ids T
  · obtain ⟨table, ht, hR⟩ := hT.1 src hsrc
    obtain ⟨table1, ht1, hmap⟩ := Dijkstra_total hwf impl hsrc
    rw [ht] at ht1
    injection ht1 with ht1
    subst ht1
    obtain ⟨e, he, hed⟩ := entry_of_known hmap (hd hsrc)
    have hnd : (table.map (·.dest)).Nodup := by rw [hmap]; exact node_ids_nodup hwf
    have hfind : (tableAt R src).find? (fun y => decide (y.dest = dest)) = some e := by
      rw [hR, ← hed]
      exact find_of_mem_nodup hnd he
    by_cases hc : 0 ≤ e.path_cost
    · obtain ⟨w, _, _, hwnd, hwk, htr⟩ :=
        trace_visit hwf hpos hno hT.1 hsrc (findEntry_found hfind) hc
      have hlen : w.length ≤ T.length := by
        have h1 := (List.subperm_of_subset hwnd (fun x hx => hwk x hx)).length_le
        simpa [node_ids] using h1
      exact ⟨_, htr fuel (by omega)⟩
    · have hne : ¬ (tableAt R src).length = 0 := by
        intro h
        rw [List.eq_nil_of_length_eq_zero h] at hfind
        simp at hfind
      have hc1 : ¬ e.path_cost ≥ 0 := hc
      exact ⟨.unreachable, by simp only [trace, hne, if_false, findEntry_found hfind, hc1]⟩
  · exact ⟨.no_table, by simp [trace, hT.2 src hsrc]⟩

theorem sendLoop_total (R : RoutingTable) (fuel : Nat) :
    ∀ (l : List message_t) (acc : String),
      (∀ m ∈ l, ∃ r, trace R fuel m.src m.dest = .ok r) →
      ∃ out, sendLoop R fuel l acc = .ok out := by
  intro l
  induction l with
  | nil => exact fun acc _ => ⟨acc, rfl⟩
  | cons m l ih =>
    intro acc h
    obtain ⟨r, hr⟩ := h m (List.mem_cons_self _ _)
    obtain ⟨out, hout⟩ := ih (acc ++ render m r) (fun x hx => h x (List.mem_cons_of_mem _ hx))
    exact ⟨out, by simp only [sendLoop, sendOne, hr]; exact hout⟩

/-- Function send_messages returns when no message has a known source and an unknown
destination, under the same conditions on the topology. -/
theorem send_messages_total {T : Topology} (hwf : WellFormed T) (hpos : Positive T)
    (hno : NoOverflow T) {impl : Impl} {R : RoutingTable}
    (hT : TablesExact impl T R) (message_list : List message_t)
    (hd : ∀ m ∈ message_list, m.src ∈ node_ids T → m.dest ∈ node_ids T)
    (fuel : Nat) (hfuel : T.length ≤ fuel) :
    ∃ out, send_messages R fuel message_list = .ok out := by
  obtain ⟨out, hout⟩ := sendLoop_total R fuel message_list ""
    (fun m hm => trace_total hwf hpos hno hT m.src m.dest (hd m hm) fuel hfuel)
  exact ⟨out ++ "\n", by simp only [send_messages, hout]⟩

/-- Function update_tables returns tables for exactly the known nodes when it starts from
tables that hold none for an unknown node. -/
theorem update_tables_exact {T : Topology} (hwf : WellFormed T) (impl : Impl)
    {R0 : RoutingTable} (h0 : ∀ k, k ∉ node_ids T → tableAt R0 k = []) :
    ∃ R tables, update_tables impl T R0 = .ok (R, tables) ∧ TablesExact impl T R := by
  obtain ⟨r, hr, hT⟩ := update_tables_spec hwf impl R0
  refine ⟨r.1, r.2, hr, hT, ?_⟩
  intro k hk
  rw [((updateLoop_spec impl T T (R0, "") r hr) k).2 hk]
  exact h0 k hk

theorem length_of_node_ids {T T1 : Topology} (h : node_ids T1 = node_ids T) :
    T1.length = T.length := by
  have := congrArg List.length h
  simpa [node_ids] using this

/-- Function apply_changes returns 0 and leaves the topology as it was when the
extraction leaves a cost that is neither above 0 nor -999. -/
theorem apply_changes_invalid (uninit : Int × Int × Int) (T : Topology)
    {f : changes_stream} (hopen : f.is_open = true) (heof : f.eofbit = false)
    (hx : ¬ ((extract uninit f).1.2.2 > 0 ∨ (extract uninit f).1.2.2 = -999)) :
    apply_changes uninit T f = .ok (T, (extract uninit f).2, 0) := by
  obtain ⟨⟨a, b, c⟩, hr⟩ : ∃ r, (extract uninit f).1 = r := ⟨_, rfl⟩
  rw [hr] at hx
  have h1 : ¬ c > 0 := fun h1 => hx (Or.inl h1)
  have h2 : ¬ c = -999 := fun h2 => hx (Or.inr h2)
  have hex : extract uninit f = ((a, b, c), (extract uninit f).2) := by
    rw [← hr]
  unfold apply_changes
  rw [if_pos ⟨hopen, heof⟩, hex]
  simp only [h1, h2, if_false]

theorem SimOk.next {uninit : Int × Int × Int} {T : Topology}
    {message_list : List message_t} {f : changes_stream} {c : Int × Int × Int}
    {cs : List (Int × Int × Int)} (h : SimOk uninit T message_list f)
    (hrec : f.records = c :: cs) :
    apply_changes uninit T f = .ok (mutate T c, (extract uninit f).2, 1) ∧
    (extract uninit f).2.records = cs ∧
    SimOk uninit (mutate T c) message_list (extract uninit f).2 := by
  have hends := h.ends
  unfold ReadsToEnd at hends
  have hcond : ¬ (f.is_open = false ∨ f.eofbit = true) := by
    intro hc
    rw [if_pos hc, hrec] at hends
    cases hends
  rw [if_neg hcond] at hends
  have hopen : f.is_open = true := by
    cases ho : f.is_open with
    | true => rfl
    | false => exact absurd (Or.inl ho) hcond
  have heof : f.eofbit = false := by
    cases he : f.eofbit with
    | false => rfl
    | true => exact absurd (Or.inr he) hcond
  obtain ⟨hx1, hx2, hx3, hx4, hx5⟩ := extract_record uninit hrec
  obtain ⟨hv, ha, hb⟩ := h.valid c (by rw [hrec]; exact List.mem_cons_self _ _)
  have happ : apply_changes uninit T f = .ok (mutate T c, (extract uninit f).2, 1) := by
    obtain ⟨a, b, cost⟩ := c
    rw [apply_changes_known ha hb cost uninit hopen heof hx1, if_pos hv]
  have hids := node_ids_mutate T c
  refine ⟨happ, hx2, wellFormed_mutate h.wf c (fun _ => ⟨ha, hb⟩), positive_mutate h.pos c,
    ?_, ?_, ?_, ?_⟩
  · rw [hids]
    exact h.msgs
  · rw [hids, hx2]
    exact fun r hr => h.valid r (by rw [hrec]; exact List.mem_cons_of_mem _ hr)
  · unfold ReadsToEnd
    rw [hx2, hx3, hx4, hx5, hopen]
    by_cases he : (cs.isEmpty && !f.trailing) = true
    · rw [if_pos (Or.inr he)]
      simp only [Bool.and_eq_true, List.isEmpty_iff] at he
      exact he.1
    · have hn : ¬ (true = false ∨ (cs.isEmpty && !f.trailing) = true) := by
        rintro (h1 | h1)
        · cases h1
        · exact he h1
      rw [if_neg hn]
      rcases hends with ⟨ht, _⟩ | hu
      · left
        refine ⟨ht, ?_⟩
        intro hcs
        apply he
        rw [hcs, ht]
        rfl
      · exact Or.inr hu
  · intro k hk
    rw [hx2] at hk ⊢
    have := h.noOverflow (k + 1) (by rw [hrec]; simpa using hk)
    rw [hrec] at this
    simpa using this

/-- The loop of main, under the conditions SimOk: it goes through one round more than
the changes file has records, and every round is as C19 says. -/
theorem simLoop_rounds (impl : Impl) (uninit : Int × Int × Int) (fuel : Nat)
    (message_list : List message_t) :
    ∀ (cs : List (Int × Int × Int)) (f : changes_stream) (T : Topology)
      (R : RoutingTable) (n : Nat), f.records = cs →
      SimOk uninit T message_list f → T.length ≤ fuel →
      (∀ k, k ∉ node_ids T → tableAt R k = []) → cs.length < n →
      ∃ rounds, simLoop impl uninit fuel message_list n ⟨T, R, f⟩ = .ok rounds ∧
        rounds.length = cs.length + 1 ∧
        ∀ k r, rounds[k]? = some r → RoundOf impl uninit fuel message_list T f k r := by
  intro cs
  induction cs with
  | nil =>
    intro f T R n hrec hok hfuel hR hn
    obtain ⟨n1, rfl⟩ : ∃ n1, n = n1 + 1 := ⟨n - 1, by simp at hn; omega⟩
    obtain ⟨R1, tables, hup, hTE⟩ := update_tables_exact hok.wf impl hR
    have hno : NoOverflow T := by
      have := hok.noOverflow 0 (Nat.zero_le _)
      simpa using this
    obtain ⟨traces, hsend⟩ := send_messages_total hok.wf hok.pos hno hTE
      message_list hok.msgs fuel hfuel
    have happ : ∃ f1, apply_changes uninit T f = .ok (T, f1, 0) := by
      by_cases hcond : f.is_open = false ∨ f.eofbit = true
      · exact ⟨f, apply_changes_end uninit T hcond⟩
      · have hends := hok.ends
        unfold ReadsToEnd at hends
        rw [if_neg hcond] at hends
        have hopen : f.is_open = true := by
          cases ho : f.is_open with
          | true => rfl
          | false => exact absurd (Or.inl ho) hcond
        have heof : f.eofbit = false := by
          cases he : f.eofbit with
          | false => rfl
          | true => exact absurd (Or.inr he) hcond
        rcases hends with ⟨_, hne⟩ | hu
        · exact absurd hrec hne
        · have hx : (extract uninit f).1 = uninit := by simp [extract, hrec]
          exact ⟨_, apply_changes_invalid uninit T hopen heof (by rw [hx]; exact hu)⟩
    obtain ⟨f1, happ⟩ := happ
    refine ⟨[⟨T, R1, tables ++ traces, 0⟩], ?_, rfl, ?_⟩
    · simp [simLoop, simRound, hup, hsend, happ]
    · intro k r hk
      cases k with
      | zero =>
        simp only [List.getElem?_cons_zero, Option.some.injEq] at hk
        subst hk
        exact ⟨by simp, ⟨f, rfl, by simp⟩, hTE.1, ⟨R, tables, traces, hup, hsend, rfl⟩,
          by simp [hrec]⟩
      | succ k => simp at hk
  | cons c cs ih =>
    intro f T R n hrec hok hfuel hR hn
    obtain ⟨n1, rfl⟩ : ∃ n1, n = n1 + 1 := ⟨n - 1, by simp at hn; omega⟩
    obtain ⟨R1, tables, hup, hTE⟩ := update_tables_exact hok.wf impl hR
    have hno : NoOverflow T := by
      have := hok.noOverflow 0 (Nat.zero_le _)
      simpa using this
    obtain ⟨traces, hsend⟩ := send_messages_total hok.wf hok.pos hno hTE
      message_list hok.msgs fuel hfuel
    obtain ⟨happ, hrec1, hok1⟩ := hok.next hrec
    have hids := node_ids_mutate T c
    obtain ⟨rs, hrs, hlen, hall⟩ := ih (extract uninit f).2 (mutate T c) R1 n1 hrec1 hok1
      (by rw [length_of_node_ids hids]; exact hfuel)
      (by rw [hids]; exact hTE.2) (by simpa using hn)
    refine ⟨⟨T, R1, tables ++ traces, 1⟩ :: rs, ?_, by simp [hlen], ?_⟩
    · simp [simLoop, simRound, hup, hsend, happ, hrs]
    · intro k r hk
      cases k with
      | zero =>
        simp only [List.getElem?_cons_zero, Option.some.injEq] at hk
        subst hk
        exact ⟨by simp, ⟨f, rfl, by simp⟩, hTE.1, ⟨R, tables, traces, hup, hsend, rfl⟩,
          by simp [hrec]⟩
      | succ k =>
        simp only [List.getElem?_cons_succ] at hk
        obtain ⟨h0, ⟨fk, h1, h1r⟩, h2, h3, h4⟩ := hall k r hk
        refine ⟨?_, ⟨fk, ?_, ?_⟩, h2, h3, ?_⟩
        · rw [h0, hrec1, hrec]
          simp
        · simp only [applyCalls, happ]
          exact h1
        · rw [h1r, hrec1, hrec]
          simp
        · rw [h4, hrec1, hrec]
          simp

/-! ## C19: the rounds of the simulation -/

/-- C19, amended: for a topology read by read_topology with positive costs, a message
list without a message from a known node to an unknown one, and a changes file of n
records that each set (cost above 0) or remove (cost -999) a link between known nodes,
such that the reads of apply_changes end with the records (the file is absent, or ends
with the last digit of its last record, or the extraction that fails behind the last
record leaves an uninitialised cost that is neither above 0 nor -999) and no path cost
reaches INT_MAX in any of the topologies the records lead to, main goes through exactly
n + 1 rounds when the hop loop may take as many steps as there are nodes; round k works
on the topology that the first k records lead to, stores for every known node the table
of Dijkstra for that topology, writes the tables and then the traces of the whole
message list against them, and apply_changes returns 1 at the end of each of the first
n rounds. -/
theorem round_structure (impl : Impl) (uninit : Int × Int × Int) (fuel : Nat)
    (records : List (Int × Int × Int)) (message_list : List message_t)
    (changesfile : changes_stream)
    (hpos : Positive (read_topology records))
    (hmsgs : ∀ m ∈ message_list, m.src ∈ node_ids (read_topology records) →
      m.dest ∈ node_ids (read_topology records))
    (hvalid : ∀ r ∈ changesfile.records, (r.2.2 > 0 ∨ r.2.2 = -999) ∧
      r.1 ∈ node_ids (read_topology records) ∧ r.2.1 ∈ node_ids (read_topology records))
    (hends : ReadsToEnd uninit changesfile)
    (hno : ∀ k, k ≤ changesfile.records.length →
      NoOverflow ((changesfile.records.take k).foldl mutate (read_topology records)))
    (hfuel : (read_topology records).length ≤ fuel) :
    ∃ rounds, main impl uninit fuel records message_list changesfile = .ok rounds ∧
      rounds.length = changesfile.records.length + 1 ∧
      ∀ k r, rounds[k]? = some r →
        RoundOf impl uninit fuel message_list (read_topology records) changesfile k r :=
  simLoop_rounds impl uninit fuel message_list changesfile.records changesfile
    (read_topology records) [] (changesfile.records.length + 2) rfl
    ⟨read_topology_wellFormed records, hpos, hmsgs, hvalid, hends, hno⟩ hfuel
    (fun _ _ => rfl) (by omega)

theorem scenario2_noOverflow : ∀ k, k ≤ 2 →
    NoOverflow (([((2 : Int), (3 : Int), (-999 : Int)), (1, 3, -999)].take k).foldl mutate
      (read_topology [(1, 2, 1), (2, 3, 1)])) := by
  intro k hk
  interval_cases k
  · exact scenario1_noOverflow
  · show NoOverflow [(1, ⟨1, [(2, 1)]⟩), (2, ⟨2, [(1, 1)]⟩), (3, ⟨3, []⟩)]
    exact noOverflow_of_bound (by decide) 1 (by decide) (by decide) (by decide)
  · show NoOverflow [(1, ⟨1, [(2, 1)]⟩), (2, ⟨2, [(1, 1)]⟩), (3, ⟨3, []⟩)]
    exact noOverflow_of_bound (by decide) 1 (by decide) (by decide) (by decide)

/-- Witness of C19 (Scenario 2, with a second record that changes nothing): from the
edges (1, 2, 1), (2, 3, 1), the records (2, 3, -999) and (1, 3, -999) of a file that
ends with the last of them give three rounds; the message from the unknown node 7 is
skipped in each of them. -/
theorem round_structure_witness :
    Positive (read_topology [(1, 2, 1), (2, 3, 1)]) ∧
    ReadsToEnd (1, 3, -999) ⟨true, [(2, 3, -999), (1, 3, -999)], false, false⟩ ∧
    (∃ rounds,
      main impl0 (1, 3, -999) 3 [(1, 2, 1), (2, 3, 1)] [⟨1, 3, "hi"⟩, ⟨7, 1, "q"⟩]
        ⟨true, [(2, 3, -999), (1, 3, -999)], false, false⟩ = .ok rounds ∧
      rounds.length = [((2 : Int), (3 : Int), (-999 : Int)), (1, 3, -999)].length + 1 ∧
      ∀ k r, rounds[k]? = some r →
        RoundOf impl0 (1, 3, -999) 3 [⟨1, 3, "hi"⟩, ⟨7, 1, "q"⟩]
          (read_topology [(1, 2, 1), (2, 3, 1)])
          ⟨true, [(2, 3, -999), (1, 3, -999)], false, false⟩ k r) ∧
    (main impl0 (1, 3, -999) 3 [(1, 2, 1), (2, 3, 1)] [⟨1, 3, "hi"⟩, ⟨7, 1, "q"⟩]
        ⟨true, [(2, 3, -999), (1, 3, -999)], false, false⟩).map
        (fun rounds => rounds.map (·.text))
      = .ok ["1 1 0\n2 2 1\n3 2 2\n\n1 1 1\n2 2 0\n3 3 1\n\n1 2 2\n2 2 1\n3 3 0\n\n"
          ++ "from 1 to 3 cost 2 hops 1 2 message hi\nfrom 7 to 1\n",
        "1 1 0\n2 2 1\n\n1 1 1\n2 2 0\n\n3 3 0\n\n"
          ++ "from 1 to 3 cost infinite hops unreachable message hi\nfrom 7 to 1\n",
        "1 1 0\n2 2 1\n\n1 1 1\n2 2 0\n\n3 3 0\n\n"
          ++ "from 1 to 3 cost infinite hops unreachable message hi\nfrom 7 to 1\n"] :=
  ⟨by decide, by decide,
    round_structure impl0 (1, 3, -999) 3 [(1, 2, 1), (2, 3, 1)]
      [⟨1, 3, "hi"⟩, ⟨7, 1, "q"⟩] ⟨true, [(2, 3, -999), (1, 3, -999)], false, false⟩
      (by decide) (by decide) (by decide) (by decide) scenario2_noOverflow (by decide),
    rfl⟩

theorem topoLoop_walk : ∀ (fuel : Nat) (hops : List Int),
    followHops (tablesOf impl0 topoLoop) 3 fuel 2 hops = .error .out_of_fuel ∧
    followHops (tablesOf impl0 topoLoop) 3 fuel 1 hops = .error .out_of_fuel := by
  have h1 : findEntry (tableAt (tablesOf impl0 topoLoop) 1) 3 = .ok ⟨3, 2, 2⟩ := rfl
  have h2 : findEntry (tableAt (tablesOf impl0 topoLoop) 2) 3
      = .ok ⟨3, 1, -2147483648⟩ := rfl
  intro fuel
  induction fuel with
  | zero => exact fun hops => ⟨by simp [followHops], by simp [followHops]⟩
  | succ fuel ih =>
    intro hops
    constructor
    · simp only [followHops, h2]
      simp only [ne_eq, show ¬ ((2 : Int) = 3) by decide, not_false_eq_true, if_true]
      exact (ih _).2
    · simp only [followHops, h1]
      simp only [ne_eq, show ¬ ((1 : Int) = 3) by decide, not_false_eq_true, if_true]
      exact (ih _).1

/-- C19 as stated fails in two ways.  Where a path cost reaches INT_MAX: in the triangle
with the links 1 - 2 and 2 - 3 of cost 1 and 1 - 3 of cost INT_MAX, all costs positive
and no changes file, the hop loop for the message from 1 to 3 goes from node 1 to node
2 and from node 2 back to node 1 without end, so the first round is never completed.
Where white space follows the last record of the changes file: from the edges
(1, 2, 1), (2, 3, 1) and the one record (2, 3, -999) followed by a line end, the second
call of apply_changes finds eofbit unset, fails to read, and acts on the values its
three ints hold: with the values of the last record main goes through three rounds,
with a cost above 0 for the unknown node 7 it dereferences a null pointer. -/
theorem performs_rounds_counterexample :
    WellFormed topoLoop ∧ Symmetric topoLoop ∧ Positive topoLoop ∧ NoSentinelId topoLoop ∧
    (update_tables impl0 topoLoop []).map (·.1)
      = .ok [(1, [⟨1, 1, 0⟩, ⟨2, 2, 1⟩, ⟨3, 2, 2⟩]),
        (2, [⟨1, 1, 1⟩, ⟨2, 2, 0⟩, ⟨3, 1, -2147483648⟩]),
        (3, [⟨1, 2, 2⟩, ⟨2, 2, 1⟩, ⟨3, 3, 0⟩])] ∧
    (∀ uninit fuel,
      main impl0 uninit fuel [(1, 2, 1), (1, 3, 2147483647), (2, 3, 1)] [⟨1, 3, "hi"⟩]
        ⟨false, [], false, false⟩ = .error .out_of_fuel) ∧
    (∀ uninit, ¬ PerformsRounds impl0 uninit [(1, 2, 1), (1, 3, 2147483647), (2, 3, 1)]
      [⟨1, 3, "hi"⟩] ⟨false, [], false, false⟩) ∧
    (∀ fuel,
      (main impl0 (2, 3, -999) fuel [(1, 2, 1), (2, 3, 1)] []
        ⟨true, [(2, 3, -999)], true, false⟩).map List.length = .ok 3) ∧
    ¬ PerformsRounds impl0 (2, 3, -999) [(1, 2, 1), (2, 3, 1)] []
      ⟨true, [(2, 3, -999)], true, false⟩ ∧
    (∀ fuel,
      main impl0 (1, 7, 5) fuel [(1, 2, 1), (2, 3, 1)] []
        ⟨true, [(2, 3, -999)], true, false⟩ = .error .null_deref) := by
  have hup : ∃ text, update_tables impl0 topoLoop [] = .ok (tablesOf impl0 topoLoop, text) :=
    ⟨_, rfl⟩
  have h1 : findEntry (tableAt (tablesOf impl0 topoLoop) 1) 3 = .ok ⟨3, 2, 2⟩ := rfl
  have hne : ¬ (tableAt (tablesOf impl0 topoLoop) 1).length = 0 := by decide
  have hmain : ∀ uninit fuel,
      main impl0 uninit fuel [(1, 2, 1), (1, 3, 2147483647), (2, 3, 1)] [⟨1, 3, "hi"⟩]
        ⟨false, [], false, false⟩ = .error .out_of_fuel := by
    intro uninit fuel
    obtain ⟨text, hup⟩ := hup
    have htr : trace (tablesOf impl0 topoLoop) fuel 1 3 = .error .out_of_fuel := by
      simp only [trace, hne, if_false, h1]
      simp only [ge_iff_le, show (0 : Int) ≤ 2 by decide, if_true]
      rw [(topoLoop_walk fuel _).1]
    have hsend : send_messages (tablesOf impl0 topoLoop) fuel [⟨1, 3, "hi"⟩]
        = .error .out_of_fuel := by
      simp only [send_messages, sendLoop, sendOne, htr]
    show simLoop impl0 uninit fuel [⟨1, 3, "hi"⟩] 2 ⟨topoLoop, [], ⟨false, [], false, false⟩⟩
      = .error .out_of_fuel
    simp only [simLoop, simRound, hup, hsend]
  have hthree : ∀ fuel,
      (main impl0 (2, 3, -999) fuel [(1, 2, 1), (2, 3, 1)] []
        ⟨true, [(2, 3, -999)], true, false⟩).map List.length = .ok 3 := fun _ => rfl
  refine ⟨by decide, by decide, by decide, by decide, rfl, hmain, ?_, hthree, ?_,
    fun _ => rfl⟩
  · rintro uninit ⟨fuel, rounds, h, _⟩
    rw [hmain uninit fuel] at h
    cases h
  · rintro ⟨fuel, rounds, h, hlen⟩
    have h3 := hthree fuel
    rw [h] at h3
    simp only [Except.map, Except.ok.injEq] at h3
    rw [h3] at hlen
    simp at hlen

/-! ## C20: the routine DistVec -/

theorem distvec_updateLoop_empty (s : Int) :
    ∀ (L : List (Int × node_t)) (acc : RoutingTable × String),
      tableAt acc.1 s = [] → tableAt (distvec.updateLoop L acc).1 s = [] := by
  intro L
  induction L with
  | nil => exact fun acc h => h
  | cons p L ih =>
    intro acc h
    simp only [distvec.updateLoop]
    apply ih
    by_cases hs : s = p.1
    · rw [hs, tableAt_tableSet_self]
      rfl
    · rw [tableAt_tableSet_other _ _ _ _ hs]
      exact h

/-- C20, what the code does: DistVec has an empty body and leaves the table it is given
as it was, so the table that update_tables of distvec.cpp stores for a node, starting
from no tables, is empty: it has no entry for any destination. -/
theorem distvec_tables_empty (T : Topology) (s : Int) :
    distvec.DistVec s [] = [] ∧
    tableAt (distvec.update_tables T []).1 s = [] ∧
    ∀ y, ¬ ∃ e ∈ tableAt (distvec.update_tables T []).1 s, e.dest = y := by
  have h : tableAt (distvec.update_tables T []).1 s = [] :=
    distvec_updateLoop_empty s T ([], "") rfl
  refine ⟨rfl, h, ?_⟩
  rintro y ⟨e, he, _⟩
  rw [h] at he
  simp at he

/-- Witness of C20 (Scenario 1, symmetric with positive costs): node 3 is reachable
from node 1 at cost 2, the table Dijkstra fills for node 1 says so, and the table
that DistVec leaves for node 1 is empty. -/
theorem distvec_tables_empty_witness :
    Symmetric scenario1 ∧ Positive scenario1 ∧ IsPath scenario1 1 3 [1, 2, 3] 2 ∧
    Dijkstra impl0 scenario1 1 = .ok [⟨1, 1, 0⟩, ⟨2, 2, 1⟩, ⟨3, 2, 2⟩] ∧
    distvec.update_tables scenario1 [] = ([(1, []), (2, []), (3, [])], "\n\n\n") ∧
    (distvec.DistVec 1 [] = [] ∧
      tableAt (distvec.update_tables scenario1 []).1 1 = [] ∧
      ∀ y, ¬ ∃ e ∈ tableAt (distvec.update_tables scenario1 []).1 1, e.dest = y) :=
  ⟨by decide, by decide, by decide, rfl, by decide, distvec_tables_empty scenario1 1⟩

/-! ## C21: the tables of DistVec and of Dijkstra -/

/-- C21, what the code does: for every well-formed topology and every known source, the
table of Dijkstra has an entry for every known node, while DistVec, whose body is empty,
leaves the table empty; the two tables differ, in the routine and as update_tables of
distvec.cpp stores them. -/
theorem distvec_differs_from_dijkstra {T : Topology} (hwf : WellFormed T) (impl : Impl)
    {s : Int} (hs : s ∈ node_ids T) :
    ∃ table, Dijkstra impl T s = .ok table ∧ table.map (·.dest) = node_ids T ∧
      distvec.DistVec s [] = [] ∧ distvec.DistVec s [] ≠ table ∧
      tableAt (distvec.update_tables T []).1 s ≠ table := by
  obtain ⟨table, ht, hmap⟩ := Dijkstra_total hwf impl hs
  have hne : table ≠ [] := by
    intro h
    rw [h] at hmap
    rw [← hmap] at hs
    simp at hs
  refine ⟨table, ht, hmap, rfl, fun h => hne h.symm, ?_⟩
  have hempty : tableAt (distvec.update_tables T []).1 s = [] :=
    distvec_updateLoop_empty s T ([], "") rfl
  rw [hempty]
  exact fun h => hne h.symm

/-- Witness of C21: Scenario 1 with source 1, and node 1 without neighbours beside a link
2 - 3: Dijkstra fills three entries, DistVec none. -/
theorem distvec_differs_from_dijkstra_witness :
    WellFormed scenario1 ∧ (1 : Int) ∈ node_ids scenario1 ∧
    (∃ table, Dijkstra impl0 scenario1 1 = .ok table ∧
      table.map (·.dest) = node_ids scenario1 ∧
      distvec.DistVec 1 [] = [] ∧ distvec.DistVec 1 [] ≠ table ∧
      tableAt (distvec.update_tables scenario1 []).1 1 ≠ table) ∧
    Dijkstra impl0 scenario1 1 = .ok [⟨1, 1, 0⟩, ⟨2, 2, 1⟩, ⟨3, 2, 2⟩] ∧
    Dijkstra impl0 topoIsolated 1 = .ok [⟨1, 1, 0⟩, ⟨2, -1, -1⟩, ⟨3, -1, -1⟩] ∧
    tableAt (distvec.update_tables topoIsolated []).1 1 = [] :=
  ⟨by decide, by decide, distvec_differs_from_dijkstra (by decide) impl0 (by decide),
    rfl, rfl, by decide⟩

/-! ## C22: the previous node under ties -/

/-- C22, amended: for every well-formed topology with positive link costs in which no
path cost reaches INT_MAX, and every known source, the main loop of Dijkstra ends in a
state whose map P holds, for every destination other than the source to which a path
exists, the smallest identifier among the nodes u (the source included) with
dist(s, u) + cost(u, d) = dist(s, d). -/
theorem predecessor_tie_break {T : Topology} (hwf : WellFormed T) (hpos : Positive T)
    (hno : NoOverflow T) (impl : Impl) {s : Int} (hs : s ∈ node_ids T) :
    ∃ st, finalState impl T s = .ok st ∧ PredecessorTieBreak T s st.P := by
  obtain ⟨node, hnode⟩ := topoFind_of_known hs
  obtain ⟨st, hloop, R, hS, hC, hTie⟩ := mainLoop_final hwf hpos hno impl hnode
  refine ⟨st, by simp only [finalState, hnode, hloop], ?_⟩
  have hreach : ∀ v, (∃ l k, IsPath T s v l k) → v ∈ R := by
    rintro v ⟨l, k, hl⟩
    exact (path_lower_bound hC l k s v hS.tree.src hl.1 hl.2.1 hl.2.2).1
  have hdist : ∀ v k, LeastCost T s v k → v ∈ R ∧ k = dist0 s st.D v := by
    intro v k hk
    obtain ⟨l, hl⟩ := hk.1
    have hv := hreach v ⟨l, k, hl⟩
    exact ⟨hv, hk.unique (leastCost_of_final hS hC hv)⟩
  intro d hds hpath
  have hdR := hreach d hpath
  refine ⟨dist0 s st.D d, leastCost_of_final hS hC hdR, ?_, ?_⟩
  · obtain ⟨c, hc, hD⟩ := hC.treeCost d hdR hds
    refine ⟨dist0 s st.D (mapAt st.P d), c,
      leastCost_of_final hS hC (hS.tree.prev_mem hdR hds), hc, ?_⟩
    rw [dist0_other st.D hds, hD]
  · intro u ku c hku hc hsum
    obtain ⟨huR, hkueq⟩ := hdist u ku hku
    rw [hkueq] at hsum
    exact hTie d hdR hds u huR c hc hsum

/-- Witness of C22: in the diamond 1 - 2 - 4, 1 - 3 - 4 with all costs 1 the nodes 2 and
3 both close a cheapest path to 4, and the main loop ends with P[4] = 2. -/
theorem predecessor_tie_break_witness :
    WellFormed topoDiamond ∧ Positive topoDiamond ∧ NoOverflow topoDiamond ∧
    (1 : Int) ∈ node_ids topoDiamond ∧
    (∃ st, finalState impl0 topoDiamond 1 = .ok st ∧ PredecessorTieBreak topoDiamond 1 st.P) ∧
    finalState impl0 topoDiamond 1
      = .ok ⟨[4, 3, 2, 1], [(2, 1), (3, 1), (4, 2)], [(2, 1), (3, 1), (4, 2)]⟩ ∧
    linkCost topoDiamond 2 4 = some 1 ∧ linkCost topoDiamond 3 4 = some 1 ∧
    IsPath topoDiamond 1 4 [1, 2, 4] 2 ∧ IsPath topoDiamond 1 4 [1, 3, 4] 2 :=
  ⟨by decide, by decide, topoDiamond_noOverflow, by decide,
    predecessor_tie_break (by decide) (by decide) topoDiamond_noOverflow impl0 (by decide),
    rfl, by decide, by decide, by decide, by decide⟩

/-- C22 as stated fails where a path cost reaches INT_MAX: with a link of cost INT_MAX
between 1 and 2 the main loop treats the cost of node 2 as no candidate and marks the node
as unreachable, so that P[2] = -1, although node 2 is reached from node 1 over the
link. -/
theorem predecessor_tie_break_counterexample :
    WellFormed topoMaxCost ∧ Symmetric topoMaxCost ∧ Positive topoMaxCost ∧
    (1 : Int) ∈ node_ids topoMaxCost ∧ IsPath topoMaxCost 1 2 [1, 2] 2147483647 ∧
    finalState impl0 topoMaxCost 1 = .ok ⟨[2, 1], [(2, -1)], [(2, -1)]⟩ ∧
    ¬ PredecessorTieBreak topoMaxCost 1 [(2, -1)] := by
  refine ⟨by decide, by decide, by decide, by decide, by decide, rfl, ?_⟩
  intro h
  obtain ⟨_, _, ⟨ku, c, hku, _, _⟩, _⟩ := h 2 (by decide) ⟨[1, 2], 2147483647, by decide⟩
  obtain ⟨l, hl⟩ := hku.1
  have hmem : (-1 : Int) ∈ node_ids topoMaxCost :=
    @path_end_known topoMaxCost (by decide) 1 (-1) l ku (by decide) hl
  exact absurd hmem (by decide)

/-! ## C23: the number of steps of the hop walk -/

/-- C23, amended: for a well-formed topology with positive link costs and no path cost
of INT_MAX or more, whose tables were computed by update_tables, and a message from a known source whose entry for the destination has a
cost of 0 or more, the hop loop reaches the destination within one step less than
there are nodes and the nodes it visits are distinct. -/
theorem hop_walk_bounded (impl : Impl) (T : Topology) (hwf : WellFormed T)
    (hpos : Positive T) (hno : NoOverflow T)
    (R : RoutingTable) (hup : ∃ R0 out, update_tables impl T R0 = .ok (R, out))
    (src dest : Int) (hsrc : src ∈ node_ids T) : HopWalkBounded T R src dest := by
  intro e hfind hcost
  obtain ⟨p, _, hlast, hnd, hkn, hrun⟩ :=
    trace_visit hwf hpos hno (TablesOf_of_update hup) hsrc hfind hcost
  have hplen : p.length ≤ T.length := length_le_of_known hnd hkn
  have hTpos : 1 ≤ T.length := by
    cases T with
    | nil => simp [node_ids] at hsrc
    | cons a T => simp
  refine ⟨if src = dest then [src] else p.dropLast,
    fun fuel hfuel => hrun fuel (by omega), ?_, ?_, ?_⟩
  · by_cases hsd : src = dest
    · simp [hsd]
    · rw [if_neg hsd]
      exact hnd.sublist (List.dropLast_sublist p)
  · by_cases hsd : src = dest
    · simp only [hsd, if_true, List.length_singleton]
      exact hTpos
    · rw [if_neg hsd, List.length_dropLast]
      omega
  · intro hsd hmem
    rw [if_neg hsd] at hmem
    have hsn := dropLast_snoc hlast
    rw [← hsn] at hnd
    have := List.disjoint_of_nodup_append hnd hmem
    simp at this

/-- Witness of C23 (Scenario 1): the message from 1 to 3 is delivered over 1, 2 with the
hop loop taking one step; and in the square with the nodes -1, 1, 3, 4 the message from
1 to 4 is delivered over 1, -1. -/
theorem hop_walk_bounded_witness :
    WellFormed scenario1 ∧ Positive scenario1 ∧ NoOverflow scenario1 ∧
    (∃ R0 out, update_tables impl0 scenario1 R0 = .ok (tablesOf impl0 scenario1, out)) ∧
    (1 : Int) ∈ node_ids scenario1 ∧
    HopWalkBounded scenario1 (tablesOf impl0 scenario1) 1 3 ∧
    findEntry (tableAt (tablesOf impl0 scenario1) 1) 3 = .ok ⟨3, 2, 2⟩ ∧
    trace (tablesOf impl0 scenario1) 1 1 3 = .ok (.delivered 2 [1, 2]) ∧
    trace (tablesOf impl0 scenario1) 0 1 3 = .error .out_of_fuel ∧
    HopWalkBounded topoDiamondSentinel (tablesOf impl0 topoDiamondSentinel) 1 4 ∧
    trace (tablesOf impl0 topoDiamondSentinel) 1 1 4 = .ok (.delivered 2 [1, -1]) :=
  ⟨by decide, by decide, scenario1_noOverflow, ⟨[], _, rfl⟩, by decide,
    hop_walk_bounded impl0 scenario1 (by decide) (by decide) scenario1_noOverflow
      (tablesOf impl0 scenario1) ⟨[], _, rfl⟩ 1 3 (by decide),
    rfl, rfl, rfl,
    hop_walk_bounded impl0 topoDiamondSentinel (by decide) (by decide)
      topoDiamondSentinel_noOverflow (tablesOf impl0 topoDiamondSentinel) ⟨[], _, rfl⟩ 1 4
      (by decide),
    rfl⟩

theorem topoLoop_trace (fuel : Nat) :
    trace (tablesOf impl0 topoLoop) fuel 1 3 = .error .out_of_fuel := by
  have h1 : findEntry (tableAt (tablesOf impl0 topoLoop) 1) 3 = .ok ⟨3, 2, 2⟩ := rfl
  have hne : ¬ (tableAt (tablesOf impl0 topoLoop) 1).length = 0 := by decide
  simp only [trace, hne, if_false, h1]
  simp only [ge_iff_le, show (0 : Int) ≤ 2 by decide, if_true]
  rw [(topoLoop_walk fuel _).1]

/-- C23 as stated fails where a path cost reaches INT_MAX: in the triangle with the links
1 - 2 and 2 - 3 of cost 1 and 1 - 3 of cost INT_MAX, symmetric and with positive costs,
the tables of Dijkstra send the message from 1 to 3 (cost 2 in the table of node 1) to
node 2, whose table, after the wrap of 1 + INT_MAX, sends it back to node 1: the hop loop
visits the nodes 1 and 2 again and again and does not reach node 3 within any number of
steps. -/
theorem hop_walk_counterexample :
    WellFormed topoLoop ∧ Symmetric topoLoop ∧ Positive topoLoop ∧ NoSentinelId topoLoop ∧
    (∃ out, update_tables impl0 topoLoop [] = .ok (tablesOf impl0 topoLoop, out)) ∧
    findEntry (tableAt (tablesOf impl0 topoLoop) 1) 3 = .ok ⟨3, 2, 2⟩ ∧
    findEntry (tableAt (tablesOf impl0 topoLoop) 2) 3 = .ok ⟨3, 1, -2147483648⟩ ∧
    (∀ fuel, trace (tablesOf impl0 topoLoop) fuel 1 3 = .error .out_of_fuel) ∧
    ¬ HopWalkBounded topoLoop (tablesOf impl0 topoLoop) 1 3 := by
  refine ⟨by decide, by decide, by decide, by decide, ⟨_, rfl⟩, rfl, rfl, topoLoop_trace, ?_⟩
  intro h
  obtain ⟨hops, hrun, _⟩ := h ⟨3, 2, 2⟩ rfl (by decide)
  have := hrun (topoLoop.length - 1) (le_refl _)
  rw [topoLoop_trace] at this
  cases this

/-! ## C24: the loops of Dijkstra end -/

/-- One iteration of the main loop from a state that satisfies the invariant: it returns,
and the finished set grows, by the node the scan selected or, when the scan found no
cost below INT_MAX, by all the nodes that were left. -/
theorem iterate_enlarges {T : Topology} (hwf : WellFormed T) (impl : Impl) {s : Int}
    {st : DState} (hI : SInv T s st) (hlt : st.N.length < T.length) (k : Nat) :
    ∃ st1, iterate impl T k st = .ok st1 ∧ st.N.length < st1.N.length ∧
      (SInv T s st1 ∨ T.length ≤ st1.N.length) ∧
      ((scan impl k st.N st.D).2 ≠ INT_MAX →
        (scan impl k st.N st.D).1 ∉ st.N ∧ st1.N = (scan impl k st.N st.D).1 :: st.N) ∧
      ((scan impl k st.N st.D).2 = INT_MAX →
        (∀ v x, v ∉ st.N → mapFind st.D v = some x → INT_MAX ≤ x) ∧
        ∀ v ∈ node_ids T, v ∈ st1.N) := by
  by_cases he : (scan impl k st.N st.D).2 = INT_MAX
  · obtain ⟨_, hfull⟩ := SFinal_of_mark hwf hI
    refine ⟨T.foldl markStep st, iterate_mark impl T k st he, by omega, Or.inr hfull,
      fun hne => absurd he hne, fun _ => ⟨?_, ?_⟩⟩
    · intro v x hv hx
      have := (scan_spec impl k st.N st.D hI.keysD).2.1 v x hv hx
      rwa [he] at this
    · intro v hv
      obtain ⟨p, hp, rfl⟩ := List.mem_map.mp hv
      exact (mark_fold T st).2.1 p hp
  · obtain ⟨node1, _, hit, hS1⟩ := SInv_select hwf hI impl k he
    obtain ⟨_, hmN, _⟩ := (scan_spec impl k st.N st.D hI.keysD).2.2 he
    refine ⟨_, hit, ?_, Or.inl hS1, fun _ => ⟨hmN, rfl⟩, fun h => absurd h he⟩
    simp [relaxed]

theorem loopState_inv {T : Topology} (hwf : WellFormed T) (impl : Impl) {s : Int}
    {node : node_t} (hnode : topoFind T s = some node) {st : DState}
    (h : LoopState impl T (initState s node) st) :
    SInv T s st ∨ T.length ≤ st.N.length := by
  induction h with
  | init => exact Or.inl (SInv_init hwf hnode)
  | step k st st1 _ hlt hit ih =>
    rcases ih with hI | hfull
    · obtain ⟨st2, hit2, _, hinv, _⟩ := iterate_enlarges hwf impl hI hlt k
      rw [hit] at hit2
      injection hit2 with hit2
      rw [hit2]
      exact hinv
    · omega

/-- The walk back from the previous node of a destination, in a state in which the main
loop has ended: when that previous node is neither the source nor -1, the walk ends at
the source within as many steps as there are nodes, with next_hop set to a node whose
previous node is the source. -/
theorem walk_back {T : Topology} {s : Int} {st : DState} {R : List Int}
    (hF : SFinal T s st R) (nh0 : Int) {d : Int} (hd : d ∈ node_ids T) (hds : d ≠ s)
    (hP1 : mapAt st.P d ≠ -1) :
    ∃ h, hopLoop st.P s T.length (mapAt st.P d) nh0 = .ok h ∧
      (mapAt st.P d ≠ s → h ≠ s ∧ mapAt st.P h = s) := by
  have hdR : d ∈ R := by
    by_contra hn
    exact hP1 (hF.rest d hd hn).2
  have hpR := hF.tree.prev_mem hdR hds
  obtain ⟨pre, rest, hdec⟩ := List.append_of_mem hpR
  have hlen : rest.length ≤ T.length := by
    have h1 := length_le_of_known hF.tree.nodup hF.tree.known
    rw [hdec] at h1
    simp only [List.length_append, List.length_cons] at h1
    omega
  obtain ⟨h, hh, _, hch⟩ := hopLoop_tree hF.tree T.length pre (mapAt st.P d) rest nh0 hdec hlen
  exact ⟨h, hh, fun hne => ⟨(hch hne).ne.1, (hch hne).ne.2.2⟩⟩

/-- C24, amended: for every well-formed topology (every neighbour identifier a known
node) and every known source, Dijkstra returns a table; each iteration of the main loop
returns and strictly enlarges the finished set, by the node the scan selected or, when
no unfinished node has a tentative cost below INT_MAX, by all the nodes that were left;
the loop ends within one iteration less than there are nodes; it ends in a state in
which the previous node of a finished node was finished earlier, and for every
destination whose previous node is neither the source nor -1 the walk back ends at the
source within as many steps as there are nodes, with next_hop set before it stops.
When the link costs are positive, no path cost reaches INT_MAX and no node has the
identifier -1, this covers every destination to which a path exists. -/
theorem dijkstra_loops_end {T : Topology} (hwf : WellFormed T) (impl : Impl) {s : Int}
    {node : node_t} (hnode : topoFind T s = some node) :
    (∃ table, Dijkstra impl T s = .ok table) ∧
    (∀ st, LoopState impl T (initState s node) st → st.N.length < T.length → ∀ k,
      ∃ st1, iterate impl T k st = .ok st1 ∧ st.N.length < st1.N.length ∧
        ((scan impl k st.N st.D).2 ≠ INT_MAX →
          (scan impl k st.N st.D).1 ∉ st.N ∧ st1.N = (scan impl k st.N st.D).1 :: st.N) ∧
        ((scan impl k st.N st.D).2 = INT_MAX →
          (∀ v x, v ∉ st.N → mapFind st.D v = some x → INT_MAX ≤ x) ∧
          ∀ v ∈ node_ids T, v ∈ st1.N)) ∧
    (∃ st, mainLoop impl T (T.length - 1) (initState s node) = .ok st) ∧
    (∃ st R, finalState impl T s = .ok st ∧ SFinal T s st R ∧
      ∀ d ∈ node_ids T, d ≠ s → mapAt st.P d ≠ s → mapAt st.P d ≠ -1 →
        ∃ h, hopLoop st.P s T.length (mapAt st.P d) impl.next_hop0 = .ok h ∧
          h ≠ s ∧ mapAt st.P h = s) ∧
    (Positive T → NoOverflow T → NoSentinelId T → WalkReachesSource impl T s) := by
  have hs : s ∈ node_ids T := known_of_topoFind hnode
  refine ⟨?_, ?_, ?_, ?_, ?_⟩
  · obtain ⟨table, ht, _⟩ := Dijkstra_total hwf impl hs
    exact ⟨table, ht⟩
  · intro st hst hlt k
    rcases loopState_inv hwf impl hnode hst with hI | hfull
    · obtain ⟨st1, h1, h2, _, h4, h5⟩ := iterate_enlarges hwf impl hI hlt k
      exact ⟨st1, h1, h2, h4, h5⟩
    · omega
  · obtain ⟨st, hloop, _⟩ := mainLoop_total hwf impl s (T.length - 1) (initState s node)
      (SInv_init hwf hnode) (by rw [initState_N]; simp; omega)
    exact ⟨st, hloop⟩
  · obtain ⟨st, hloop, R, hF⟩ := mainLoop_total hwf impl s T.length (initState s node)
      (SInv_init hwf hnode) (initState_fuel s node)
    refine ⟨st, R, by simp only [finalState, hnode, hloop], hF, ?_⟩
    intro d hd hds hPs hP1
    obtain ⟨h, hh, hrest⟩ := walk_back hF impl.next_hop0 hd hds hP1
    exact ⟨h, hh, hrest hPs⟩
  · intro hpos hno hid
    obtain ⟨st, hloop, R, hS, hC⟩ := mainLoop_cost hwf hpos hno impl hnode
    refine ⟨st, by simp only [finalState, hnode, hloop], ?_⟩
    rintro d hds ⟨l, k, hl⟩
    have hdR : d ∈ R := (path_lower_bound hC l k s d hS.tree.src hl.1 hl.2.1 hl.2.2).1
    have hd : d ∈ node_ids T := hS.tree.known d hdR
    have hP1 : mapAt st.P d ≠ -1 := by
      intro h
      have := hS.tree.known _ (hS.tree.prev_mem hdR hds)
      rw [h] at this
      exact hid this
    by_cases hPs : mapAt st.P d = s
    · exact Or.inl hPs
    · obtain ⟨h, hh, hrest⟩ := walk_back hS impl.next_hop0 hd hds hP1
      exact Or.inr ⟨hP1, h, hh, hrest hPs⟩

/-- Witness of C24 (Scenario 1, source 1): the main loop ends within two iterations and
the walk back from node 3 ends at the source with next_hop = 2. -/
theorem dijkstra_loops_end_witness :
    WellFormed scenario1 ∧ topoFind scenario1 1 = some ⟨1, [(2, 1)]⟩ ∧
    ((∃ table, Dijkstra impl0 scenario1 1 = .ok table) ∧
      (∀ st, LoopState impl0 scenario1 (initState 1 ⟨1, [(2, 1)]⟩) st →
        st.N.length < scenario1.length → ∀ k,
        ∃ st1, iterate impl0 scenario1 k st = .ok st1 ∧ st.N.length < st1.N.length ∧
          ((scan impl0 k st.N st.D).2 ≠ INT_MAX →
            (scan impl0 k st.N st.D).1 ∉ st.N ∧
            st1.N = (scan impl0 k st.N st.D).1 :: st.N) ∧
          ((scan impl0 k st.N st.D).2 = INT_MAX →
            (∀ v x, v ∉ st.N → mapFind st.D v = some x → INT_MAX ≤ x) ∧
            ∀ v ∈ node_ids scenario1, v ∈ st1.N)) ∧
      (∃ st, mainLoop impl0 scenario1 (scenario1.length - 1) (initState 1 ⟨1, [(2, 1)]⟩)
        = .ok st) ∧
      (∃ st R, finalState impl0 scenario1 1 = .ok st ∧ SFinal scenario1 1 st R ∧
        ∀ d ∈ node_ids scenario1, d ≠ 1 → mapAt st.P d ≠ 1 → mapAt st.P d ≠ -1 →
          ∃ h, hopLoop st.P 1 scenario1.length (mapAt st.P d) impl0.next_hop0 = .ok h ∧
            h ≠ 1 ∧ mapAt st.P h = 1) ∧
      (Positive scenario1 → NoOverflow scenario1 → NoSentinelId scenario1 →
        WalkReachesSource impl0 scenario1 1)) ∧
    mainLoop impl0 scenario1 2 (initState 1 ⟨1, [(2, 1)]⟩)
      = .ok ⟨[3, 2, 1], [(2, 1), (3, 2)], [(2, 1), (3, 2)]⟩ ∧
    mainLoop impl0 scenario1 1 (initState 1 ⟨1, [(2, 1)]⟩) = .error .out_of_fuel ∧
    hopLoop [(2, 1), (3, 2)] 1 3 2 0 = .ok 2 :=
  ⟨by decide, by decide, dijkstra_loops_end (by decide) impl0 (by decide), rfl, rfl, rfl⟩

/-- C24 as stated fails where a cost reaches INT_MAX: with a link of cost INT_MAX between
1 and 2, node 2 has the tentative cost INT_MAX when the main loop is entered, the scan
reports no candidate, and the iteration marks node 2 as unreachable with the previous
node -1; node 2 can be reached from node 1, yet no walk back is made for it and its
entry gets next_hop = -1. -/
theorem walk_reaches_source_counterexample :
    WellFormed topoMaxCost ∧ (1 : Int) ∈ node_ids topoMaxCost ∧
    IsPath topoMaxCost 1 2 [1, 2] 2147483647 ∧
    initState 1 ⟨1, [(2, 2147483647)]⟩ = ⟨[1], [(2, 2147483647)], [(2, 1)]⟩ ∧
    (scan impl0 1 [1] [(2, 2147483647)]).2 = INT_MAX ∧
    finalState impl0 topoMaxCost 1 = .ok ⟨[2, 1], [(2, -1)], [(2, -1)]⟩ ∧
    Dijkstra impl0 topoMaxCost 1 = .ok [⟨1, 1, 0⟩, ⟨2, -1, -1⟩] ∧
    ¬ WalkReachesSource impl0 topoMaxCost 1 := by
  refine ⟨by decide, by decide, by decide, by decide, by decide, rfl, rfl, ?_⟩
  rintro ⟨st, hst, h⟩
  have hfin : finalState impl0 topoMaxCost 1 = .ok ⟨[2, 1], [(2, -1)], [(2, -1)]⟩ := rfl
  rw [hfin] at hst
  injection hst with hst
  subst hst
  rcases h 2 (by decide) ⟨[1, 2], 2147483647, by decide⟩ with h1 | ⟨h1, _⟩
  · exact absurd h1 (by decide)
  · exact absurd rfl h1

end Routing
